import Mathlib

/-!
# A shallow embedding of the heed transaction/cursor/iterator layer

This file embeds, in Lean, the cursor movement primitives (`src/heed/src/cursor.rs`),
the iterator state machines (`src/heed/src/iterator/{iter,range,prefix}.rs`) and the
transaction-handle lifecycle (`src/heed/src/txn.rs`) of the heed library, together
with a model of the storage-engine primitive API those files call into (LMDB's
`mdb_cursor_get`/`mdb_cursor_del`/`mdb_txn_*`, which is an external collaborator:
the engine is modelled as an ordered list of key/value entries, with the op-code
semantics documented on each case).

Keys and values are byte strings (`List Nat`); the codec layer is instantiated at
the identity codec (decoding never fails), since none of the verified properties
concern decoding.
-/

set_option maxHeartbeats 2000000

namespace Heed

/-! ## Byte strings and the default lexicographic comparator -/

abbrev Bytes := List Nat

/-- The engine's default comparator (`DefaultComparator`): memcmp-style
lexicographic byte comparison; a strict prefix sorts before its extensions. -/
def cmpB : Bytes → Bytes → Ordering
  | [], [] => .eq
  | [], _ :: _ => .lt
  | _ :: _, [] => .gt
  | a :: as, b :: bs => if a < b then .lt else if b < a then .gt else cmpB as bs

theorem cmpB_refl (a : Bytes) : cmpB a a = .eq := by
  induction a with
  | nil => rfl
  | cons x xs ih => simp [cmpB, ih]

theorem cmpB_eq_iff {a b : Bytes} : cmpB a b = .eq ↔ a = b := by
  induction a generalizing b with
  | nil => cases b <;> simp [cmpB]
  | cons x xs ih =>
    cases b with
    | nil => simp [cmpB]
    | cons y ys =>
      by_cases h1 : x < y
      · simp [cmpB, h1]
        omega
      · by_cases h2 : y < x
        · simp [cmpB, h1, h2]
          omega
        · have hxy : x = y := by omega
          subst hxy
          simp [cmpB, h1, h2, ih]

theorem cmpB_swap (a b : Bytes) : cmpB b a = (cmpB a b).swap := by
  induction a generalizing b with
  | nil => cases b <;> simp [cmpB, Ordering.swap]
  | cons x xs ih =>
    cases b with
    | nil => simp [cmpB, Ordering.swap]
    | cons y ys =>
      by_cases h1 : x < y
      · simp [cmpB, h1, Nat.lt_asymm h1, Ordering.swap]
      · by_cases h2 : y < x
        · simp [cmpB, h1, h2, Ordering.swap]
        · simp [cmpB, h1, h2, ih]

theorem cmpB_lt_trans {a b c : Bytes} (h1 : cmpB a b = .lt) (h2 : cmpB b c = .lt) :
    cmpB a c = .lt := by
  induction a generalizing b c with
  | nil =>
    cases b with
    | nil => simp [cmpB] at h1
    | cons y ys => cases c with
      | nil => simp [cmpB] at h2
      | cons z zs => simp [cmpB]
  | cons x xs ih =>
    cases b with
    | nil => simp [cmpB] at h1
    | cons y ys =>
      cases c with
      | nil => simp [cmpB] at h2
      | cons z zs =>
        simp only [cmpB] at h1 h2 ⊢
        by_cases hxy : x < y
        · by_cases hyz : y < z
          · have : x < z := Nat.lt_trans hxy hyz
            simp [this]
          · by_cases hzy : z < y
            · simp [hyz, hzy] at h2
            · have : y = z := by omega
              subst this
              simp [hxy]
        · by_cases hyx : y < x
          · simp [hxy, hyx] at h1
          · have : x = y := by omega
            subst this
            simp only [hxy, if_false] at h1 ⊢
            by_cases hyz : x < z
            · simp [hyz]
            · by_cases hzy : z < x
              · simp [hyz, hzy] at h2
              · have : x = z := by omega
                subst this
                simp only [Nat.lt_irrefl, if_false] at h1 h2 ⊢
                exact ih h1 h2

/-- Strict lexicographic order on byte strings. -/
def bLt (a b : Bytes) : Prop := cmpB a b = .lt

instance (a b : Bytes) : Decidable (bLt a b) :=
  inferInstanceAs (Decidable (cmpB a b = .lt))

theorem bLt_trans {a b c : Bytes} : bLt a b → bLt b c → bLt a c := cmpB_lt_trans

theorem bLt_irrefl (a : Bytes) : ¬ bLt a a := by simp [bLt, cmpB_refl]

theorem cmpB_gt_iff {a b : Bytes} : cmpB a b = .gt ↔ bLt b a := by
  rw [cmpB_swap b a]
  unfold bLt
  cases h : cmpB b a <;> simp [Ordering.swap]

theorem cmpB_trichotomy (a b : Bytes) : bLt a b ∨ a = b ∨ bLt b a := by
  cases h : cmpB a b with
  | lt => exact Or.inl h
  | eq => exact Or.inr (Or.inl (cmpB_eq_iff.mp h))
  | gt => exact Or.inr (Or.inr (cmpB_gt_iff.mp h))

theorem bLt_asymm {a b : Bytes} (h : bLt a b) : ¬ bLt b a := by
  intro h2
  exact bLt_irrefl a (bLt_trans h h2)

theorem bLt_ne {a b : Bytes} (h : bLt a b) : a ≠ b := by
  intro he
  subst he
  exact bLt_irrefl a h

theorem not_bLt_iff {a b : Bytes} : ¬ bLt a b ↔ (a = b ∨ bLt b a) := by
  constructor
  · intro h
    rcases cmpB_trichotomy a b with h1 | h1 | h1
    · exact absurd h1 h
    · exact Or.inl h1
    · exact Or.inr h1
  · rintro (rfl | h1)
    · exact bLt_irrefl a
    · exact bLt_asymm h1

theorem bLt_trans_not {a b c : Bytes} (h1 : ¬ bLt b a) (h2 : ¬ bLt c b) : ¬ bLt c a := by
  rcases not_bLt_iff.mp h1 with rfl | h1
  · exact h2
  · rcases not_bLt_iff.mp h2 with rfl | h2
    · exact fun h => bLt_asymm h1 h
    · exact fun h => bLt_irrefl a (bLt_trans (bLt_trans h1 h2) h)

/-! ## Entries and the database state

The storage engine (an external collaborator, spec §6) keeps each collection as a
sequence of key/value entries sorted by key (duplicates of one key, when the
collection allows them, are adjacent and sorted by value). -/

structure Entry where
  key : Bytes
  value : Bytes
deriving DecidableEq

structure Db where
  entries : List Entry
deriving DecidableEq

/-- Keys appear in non-decreasing comparator order (duplicate keys allowed):
the engine invariant for any collection. -/
def Db.SortedKeys (d : Db) : Prop :=
  d.entries.Chain' (fun e1 e2 => ¬ bLt e2.key e1.key)

/-- Keys appear in strictly increasing comparator order: the engine invariant for
a collection without duplicate keys. -/
def Db.NoDupKeys (d : Db) : Prop :=
  d.entries.Chain' (fun e1 e2 => bLt e1.key e2.key)

theorem Db.NoDupKeys.sortedKeys {d : Db} (h : d.NoDupKeys) : d.SortedKeys := by
  unfold Db.NoDupKeys Db.SortedKeys at *
  exact List.Chain'.imp (fun a b hab => bLt_asymm hab) h

theorem Db.sortedKeys_pairwise {d : Db} (h : d.SortedKeys) :
    d.entries.Pairwise (fun e1 e2 => ¬ bLt e2.key e1.key) := by
  haveI : IsTrans Entry (fun e1 e2 => ¬ bLt e2.key e1.key) :=
    ⟨fun a b c hab hbc => bLt_trans_not hab hbc⟩
  exact List.chain'_iff_pairwise.mp h

theorem Db.noDupKeys_pairwise {d : Db} (h : d.NoDupKeys) :
    d.entries.Pairwise (fun e1 e2 => bLt e1.key e2.key) := by
  haveI : IsTrans Entry (fun e1 e2 => bLt e1.key e2.key) :=
    ⟨fun a b c hab hbc => bLt_trans hab hbc⟩
  exact List.chain'_iff_pairwise.mp h

/-- In a key-sorted database, a later entry's key is never below an earlier one's. -/
theorem Db.sorted_le {d : Db} (h : d.SortedKeys) {i j : Nat} (hij : i < j)
    (hi : i < d.entries.length) (hj : j < d.entries.length) :
    ¬ bLt (d.entries.get ⟨j, hj⟩).key (d.entries.get ⟨i, hi⟩).key := by
  have := (List.pairwise_iff_getElem.mp (d.sortedKeys_pairwise h)) i j hi hj hij
  exact this

/-- In a duplicate-free database, keys are strictly increasing with the index. -/
theorem Db.nodup_lt {d : Db} (h : d.NoDupKeys) {i j : Nat} (hij : i < j)
    (hi : i < d.entries.length) (hj : j < d.entries.length) :
    bLt (d.entries.get ⟨i, hi⟩).key (d.entries.get ⟨j, hj⟩).key := by
  have := (List.pairwise_iff_getElem.mp (d.noDupKeys_pairwise h)) i j hi hj hij
  exact this

/-! ## Index searches over the entry list

`findFrom es i p` returns the first index `j ≥ i` (with its entry) whose entry
satisfies `p`; `findDown es i p` the last index `j ≤ i` doing so. These express
the B-tree searches behind the engine's seek and neighbour op codes. -/

def findFromAux (es : List Entry) (p : Entry → Bool) : Nat → Nat → Option (Nat × Entry)
  | 0, _ => none
  | fuel + 1, i =>
    match es[i]? with
    | none => none
    | some e => if p e then some (i, e) else findFromAux es p fuel (i + 1)

def findFrom (es : List Entry) (i : Nat) (p : Entry → Bool) : Option (Nat × Entry) :=
  findFromAux es p (es.length - i) i

def findDownAux (es : List Entry) (p : Entry → Bool) : Nat → Nat → Option (Nat × Entry)
  | 0, _ => none
  | fuel + 1, i =>
    match es[i]? with
    | none => none
    | some e => if p e then some (i, e) else if i = 0 then none else findDownAux es p fuel (i - 1)

def findDown (es : List Entry) (i : Nat) (p : Entry → Bool) : Option (Nat × Entry) :=
  findDownAux es p (i + 1) i

theorem findFromAux_found {es : List Entry} {p : Entry → Bool} {fuel i j : Nat} {e : Entry}
    (h : findFromAux es p fuel i = some (j, e)) :
    i ≤ j ∧ es[j]? = some e ∧ p e = true ∧
      ∀ m, i ≤ m → m < j → ∃ e', es[m]? = some e' ∧ p e' = false := by
  induction fuel generalizing i with
  | zero => simp [findFromAux] at h
  | succ fuel ih =>
    simp only [findFromAux] at h
    cases hi : es[i]? with
    | none => simp [hi] at h
    | some ei =>
      simp only [hi] at h
      by_cases hp : p ei
      · simp only [hp, if_true] at h
        cases h
        exact ⟨Nat.le_refl _, hi, hp, fun m h1 h2 => absurd (Nat.lt_of_le_of_lt h1 h2) (Nat.lt_irrefl _)⟩
      · simp only [hp, if_false] at h
        obtain ⟨h1, h2, h3, h4⟩ := ih h
        refine ⟨Nat.le_trans (Nat.le_succ i) h1, h2, h3, fun m hm1 hm2 => ?_⟩
        rcases Nat.eq_or_lt_of_le hm1 with rfl | hm1
        · exact ⟨ei, hi, by simpa using hp⟩
        · exact h4 m hm1 hm2

theorem findFromAux_none {es : List Entry} {p : Entry → Bool} {fuel i : Nat}
    (h : findFromAux es p fuel i = none) (hfuel : es.length ≤ fuel + i) :
    ∀ m e', i ≤ m → es[m]? = some e' → p e' = false := by
  induction fuel generalizing i with
  | zero =>
    intro m e' h1 h2
    have : m < es.length := by
      have := List.getElem?_eq_some_iff.mp h2
      exact this.1
    omega
  | succ fuel ih =>
    simp only [findFromAux] at h
    cases hi : es[i]? with
    | none =>
      intro m e' h1 h2
      have hm : m < es.length := (List.getElem?_eq_some_iff.mp h2).1
      have hilen : es.length ≤ i := by
        by_contra hc
        push_neg at hc
        rw [List.getElem?_eq_getElem hc] at hi
        simp at hi
      omega
    | some ei =>
      simp only [hi] at h
      by_cases hp : p ei
      · simp [hp] at h
      · simp only [hp, if_false] at h
        intro m e' h1 h2
        rcases Nat.eq_or_lt_of_le h1 with rfl | h1
        · rw [hi] at h2
          cases h2
          simpa using hp
        · exact ih h (by omega) m e' h1 h2

theorem findFrom_found {es : List Entry} {i j : Nat} {p : Entry → Bool} {e : Entry}
    (h : findFrom es i p = some (j, e)) :
    i ≤ j ∧ es[j]? = some e ∧ p e = true ∧
      ∀ m, i ≤ m → m < j → ∃ e', es[m]? = some e' ∧ p e' = false :=
  findFromAux_found h

theorem findFrom_none {es : List Entry} {i : Nat} {p : Entry → Bool}
    (h : findFrom es i p = none) :
    ∀ m e', i ≤ m → es[m]? = some e' → p e' = false := by
  refine findFromAux_none h ?_
  omega

/-- Completeness: if some index at or after `i` satisfies `p`, `findFrom` finds one. -/
theorem findFrom_isSome {es : List Entry} {i j : Nat} {p : Entry → Bool} {e : Entry}
    (hj : es[j]? = some e) (hp : p e = true) (hij : i ≤ j) :
    ∃ j' e', findFrom es i p = some (j', e') ∧ j' ≤ j := by
  cases h : findFrom es i p with
  | none =>
    have := findFrom_none h j e hij hj
    rw [hp] at this
    cases this
  | some je =>
    obtain ⟨j', e'⟩ := je
    refine ⟨j', e', rfl, ?_⟩
    by_contra hc
    push_neg at hc
    obtain ⟨-, -, -, h4⟩ := findFrom_found h
    obtain ⟨e'', he'', hpe''⟩ := h4 j hij hc
    rw [hj] at he''
    cases he''
    rw [hp] at hpe''
    cases hpe''

theorem findDownAux_found {es : List Entry} {p : Entry → Bool} {fuel i j : Nat} {e : Entry}
    (h : findDownAux es p fuel i = some (j, e)) :
    j ≤ i ∧ es[j]? = some e ∧ p e = true ∧
      ∀ m, j < m → m ≤ i → ∃ e', es[m]? = some e' ∧ p e' = false := by
  induction fuel generalizing i with
  | zero => simp [findDownAux] at h
  | succ fuel ih =>
    simp only [findDownAux] at h
    cases hi : es[i]? with
    | none => simp [hi] at h
    | some ei =>
      simp only [hi] at h
      by_cases hp : p ei
      · simp only [hp, if_true] at h
        cases h
        exact ⟨Nat.le_refl _, hi, hp, fun m h1 h2 => absurd (Nat.lt_of_lt_of_le h1 h2) (Nat.lt_irrefl _)⟩
      · simp only [hp, if_false] at h
        by_cases hi0 : i = 0
        · simp [hi0] at h
        · simp only [hi0, if_false] at h
          obtain ⟨h1, h2, h3, h4⟩ := ih h
          refine ⟨by omega, h2, h3, fun m hm1 hm2 => ?_⟩
          rcases Nat.eq_or_lt_of_le hm2 with rfl | hm2
          · exact ⟨ei, hi, by simpa using hp⟩
          · exact h4 m hm1 (by omega)

theorem findDownAux_none {es : List Entry} {p : Entry → Bool} {fuel i : Nat}
    (h : findDownAux es p fuel i = none) (hfuel : i < fuel) (hi : i < es.length) :
    ∀ m e', m ≤ i → es[m]? = some e' → p e' = false := by
  induction fuel generalizing i with
  | zero => omega
  | succ fuel ih =>
    simp only [findDownAux] at h
    obtain ⟨ei, hei⟩ : ∃ ei, es[i]? = some ei :=
      ⟨es.get ⟨i, hi⟩, List.getElem?_eq_getElem hi⟩
    rw [hei] at h
    simp only at h
    by_cases hp : p ei
    · simp [hp] at h
    · simp only [hp, if_false] at h
      intro m e' h1 h2
      rcases Nat.eq_or_lt_of_le h1 with rfl | h1
      · rw [hei] at h2
        cases h2
        simpa using hp
      · by_cases hi0 : i = 0
        · omega
        · simp only [hi0, if_false] at h
          exact ih h (by omega) (by omega) m e' (by omega) h2

theorem findDown_found {es : List Entry} {i j : Nat} {p : Entry → Bool} {e : Entry}
    (h : findDown es i p = some (j, e)) :
    j ≤ i ∧ es[j]? = some e ∧ p e = true ∧
      ∀ m, j < m → m ≤ i → ∃ e', es[m]? = some e' ∧ p e' = false :=
  findDownAux_found h

theorem findDown_none {es : List Entry} {i : Nat} {p : Entry → Bool}
    (h : findDown es i p = none) (hi : i < es.length) :
    ∀ m e', m ≤ i → es[m]? = some e' → p e' = false :=
  findDownAux_none h (Nat.lt_succ_self i) hi

theorem findDown_isSome {es : List Entry} {i j : Nat} {p : Entry → Bool} {e : Entry}
    (hj : es[j]? = some e) (hp : p e = true) (hij : j ≤ i) (hi : i < es.length) :
    ∃ j' e', findDown es i p = some (j', e') ∧ j ≤ j' := by
  cases h : findDown es i p with
  | none =>
    have := findDown_none h hi j e hij hj
    rw [hp] at this
    cases this
  | some je =>
    obtain ⟨j', e'⟩ := je
    refine ⟨j', e', rfl, ?_⟩
    by_contra hc
    push_neg at hc
    obtain ⟨-, -, -, h4⟩ := findDown_found h
    obtain ⟨e'', he'', hpe''⟩ := h4 j hc hij
    rw [hj] at he''
    cases he''
    rw [hp] at hpe''
    cases hpe''

/-! ## The storage-engine cursor (external collaborator)

The engine's cursor API (spec §6) is `cursor_get(cursor, op_code) -> (key, value) |
not_found` plus `cursor_del`. A cursor is a position into the sorted entry list:

* `unset`  – freshly opened, not yet positioned (LMDB: `C_INITIALIZED` clear);
* `posAt i` – positioned on entry `i`;
* `eof`    – positioned past the last entry after an unsuccessful seek
  (LMDB: `C_INITIALIZED|C_EOF`; a subsequent `prev` yields the last entry,
  which heed's range-end resolution relies on).

Failures are reported as numeric engine codes; `MDB_NOTFOUND` is the distinct
"not found" condition, `EINVAL` the misuse condition for unpositioned cursors. -/

inductive CursorPos
  | unset
  | posAt (i : Nat)
  | eof
deriving DecidableEq

structure RoCursor where
  db : Db
  pos : CursorPos
deriving DecidableEq

/-- The engine op codes used by `cursor.rs` (spec §6: first, last, next,
next-no-dup, next-dup, prev, prev-no-dup, prev-dup, set, set-range, get-current,
plus the first-dup/last-dup positioning used by the `Dup` move mode). -/
inductive CursorOp
  | first
  | firstDup
  | last
  | lastDup
  | next
  | nextDup
  | nextNoDup
  | prev
  | prevDup
  | prevNoDup
  | set (k : Bytes)
  | setRange (k : Bytes)
  | getCurrent
deriving DecidableEq

def MDB_NOTFOUND : Nat := 30798

def EINVAL : Nat := 22

/-- Outcome of one engine cursor call: an entry (with the updated cursor), or a
failure code (with the updated cursor). -/
inductive MdbGet
  | found (c : RoCursor) (e : Entry)
  | failed (c : RoCursor) (code : Nat)
deriving DecidableEq

namespace EngineOps

/-- move to the first physical entry. -/
def opFirst (c : RoCursor) : MdbGet :=
  match findFrom c.db.entries 0 (fun _ => true) with
  | some (j, e) => .found ⟨c.db, .posAt j⟩ e
  | none => .failed c MDB_NOTFOUND

/-- move to the last physical entry. -/
def opLast (c : RoCursor) : MdbGet :=
  match findDown c.db.entries (c.db.entries.length - 1) (fun _ => true) with
  | some (j, e) => .found ⟨c.db, .posAt j⟩ e
  | none => .failed c MDB_NOTFOUND

/-- move one physical entry forward (`MDB_NEXT`); acts as `first` on an
unpositioned cursor, reports not-found at the end (position kept). -/
def opNext (c : RoCursor) : MdbGet :=
  match c.pos with
  | .unset => opFirst c
  | .eof => .failed c MDB_NOTFOUND
  | .posAt i =>
    match c.db.entries[i + 1]? with
    | some e => .found ⟨c.db, .posAt (i + 1)⟩ e
    | none => .failed c MDB_NOTFOUND

/-- move to the first entry of the next distinct key (`MDB_NEXT_NODUP`). -/
def opNextNoDup (c : RoCursor) : MdbGet :=
  match c.pos with
  | .unset => opFirst c
  | .eof => .failed c MDB_NOTFOUND
  | .posAt i =>
    match c.db.entries[i]? with
    | none => .failed c EINVAL
    | some cur =>
      match findFrom c.db.entries (i + 1) (fun e => !decide (e.key = cur.key)) with
      | some (j, e) => .found ⟨c.db, .posAt j⟩ e
      | none => .failed c MDB_NOTFOUND

/-- move to the next duplicate of the current key (`MDB_NEXT_DUP`);
misuse (`EINVAL`) on an unpositioned cursor. -/
def opNextDup (c : RoCursor) : MdbGet :=
  match c.pos with
  | .unset | .eof => .failed c EINVAL
  | .posAt i =>
    match c.db.entries[i]? with
    | none => .failed c EINVAL
    | some cur =>
      match c.db.entries[i + 1]? with
      | some e => if e.key = cur.key then .found ⟨c.db, .posAt (i + 1)⟩ e
                  else .failed c MDB_NOTFOUND
      | none => .failed c MDB_NOTFOUND

/-- move one physical entry backward (`MDB_PREV`); acts as `last` on an
unpositioned cursor; a cursor parked past the end steps onto the last entry. -/
def opPrev (c : RoCursor) : MdbGet :=
  match c.pos with
  | .unset | .eof => opLast c
  | .posAt i =>
    if i = 0 then .failed c MDB_NOTFOUND
    else
      match c.db.entries[i - 1]? with
      | some e => .found ⟨c.db, .posAt (i - 1)⟩ e
      | none => .failed c EINVAL

/-- move to the last entry of the previous distinct key (`MDB_PREV_NODUP`). -/
def opPrevNoDup (c : RoCursor) : MdbGet :=
  match c.pos with
  | .unset | .eof => opLast c
  | .posAt i =>
    match c.db.entries[i]? with
    | none => .failed c EINVAL
    | some cur =>
      if i = 0 then .failed c MDB_NOTFOUND
      else
        match findDown c.db.entries (i - 1) (fun e => !decide (e.key = cur.key)) with
        | some (j, e) => .found ⟨c.db, .posAt j⟩ e
        | none => .failed c MDB_NOTFOUND

/-- move to the previous duplicate of the current key (`MDB_PREV_DUP`). -/
def opPrevDup (c : RoCursor) : MdbGet :=
  match c.pos with
  | .unset | .eof => .failed c EINVAL
  | .posAt i =>
    match c.db.entries[i]? with
    | none => .failed c EINVAL
    | some cur =>
      if i = 0 then .failed c MDB_NOTFOUND
      else
        match c.db.entries[i - 1]? with
        | some e => if e.key = cur.key then .found ⟨c.db, .posAt (i - 1)⟩ e
                    else .failed c MDB_NOTFOUND
        | none => .failed c EINVAL

/-- exact-match positioning (`MDB_SET`): the first entry of the given key. -/
def opSet (c : RoCursor) (k : Bytes) : MdbGet :=
  match findFrom c.db.entries 0 (fun e => decide (e.key = k)) with
  | some (j, e) => .found ⟨c.db, .posAt j⟩ e
  | none => .failed c MDB_NOTFOUND

/-- seek to the smallest key ≥ the given key (`MDB_SET_RANGE`); when every key is
below it the cursor parks past the end (so that a following `prev` yields the
last entry). -/
def opSetRange (c : RoCursor) (k : Bytes) : MdbGet :=
  match findFrom c.db.entries 0 (fun e => !(cmpB e.key k == .lt)) with
  | some (j, e) => .found ⟨c.db, .posAt j⟩ e
  | none => .failed ⟨c.db, .eof⟩ MDB_NOTFOUND

/-- move to the first duplicate of the current key (`MDB_FIRST_DUP`): misuse on
an unpositioned cursor; not-found on a cursor parked past the end or whose
entry was deleted (a stale index, e.g. after deleting the last entry), the same
states in which `MDB_GET_CURRENT` reports not-found. -/
def opFirstDup (c : RoCursor) : MdbGet :=
  match c.pos with
  | .unset => .failed c EINVAL
  | .eof => .failed c MDB_NOTFOUND
  | .posAt i =>
    match c.db.entries[i]? with
    | none => .failed c MDB_NOTFOUND
    | some cur =>
      match findFrom c.db.entries 0 (fun e => decide (e.key = cur.key)) with
      | some (j, e) => .found ⟨c.db, .posAt j⟩ e
      | none => .failed c EINVAL

/-- move to the last duplicate of the current key (`MDB_LAST_DUP`): failure
states as for `MDB_FIRST_DUP`. -/
def opLastDup (c : RoCursor) : MdbGet :=
  match c.pos with
  | .unset => .failed c EINVAL
  | .eof => .failed c MDB_NOTFOUND
  | .posAt i =>
    match c.db.entries[i]? with
    | none => .failed c MDB_NOTFOUND
    | some cur =>
      match findDown c.db.entries (c.db.entries.length - 1) (fun e => decide (e.key = cur.key)) with
      | some (j, e) => .found ⟨c.db, .posAt j⟩ e
      | none => .failed c EINVAL

/-- re-read the entry at the current position (`MDB_GET_CURRENT`): misuse on an
unpositioned cursor, not-found on a cursor parked past the end or whose entry
was deleted. -/
def opGetCurrent (c : RoCursor) : MdbGet :=
  match c.pos with
  | .unset => .failed c EINVAL
  | .eof => .failed c MDB_NOTFOUND
  | .posAt i =>
    match c.db.entries[i]? with
    | some e => .found c e
    | none => .failed c MDB_NOTFOUND

end EngineOps

/-- The engine's `cursor_get` primitive, dispatching on the op code. -/
def mdb_cursor_get (c : RoCursor) (op : CursorOp) : MdbGet :=
  match op with
  | .first => EngineOps.opFirst c
  | .firstDup => EngineOps.opFirstDup c
  | .last => EngineOps.opLast c
  | .lastDup => EngineOps.opLastDup c
  | .next => EngineOps.opNext c
  | .nextDup => EngineOps.opNextDup c
  | .nextNoDup => EngineOps.opNextNoDup c
  | .prev => EngineOps.opPrev c
  | .prevDup => EngineOps.opPrevDup c
  | .prevNoDup => EngineOps.opPrevNoDup c
  | .set k => EngineOps.opSet c k
  | .setRange k => EngineOps.opSetRange c k
  | .getCurrent => EngineOps.opGetCurrent c

/-- Outcome of the engine's `cursor_del`: success with the updated cursor/database,
or a failure code. -/
inductive MdbDel
  | delOk (c : RoCursor)
  | delFailed (c : RoCursor) (code : Nat)
deriving DecidableEq

/-- The engine's `cursor_del` primitive: removes the entry under the cursor;
misuse on an unpositioned cursor, not-found when the cursor points past the
last entry (LMDB reports `MDB_NOTFOUND` when the cursor's index is beyond the
page's entries, e.g. after a previous delete). -/
def mdb_cursor_del (c : RoCursor) : MdbDel :=
  match c.pos with
  | .unset => .delFailed c EINVAL
  | .eof => .delFailed c MDB_NOTFOUND
  | .posAt i =>
    if i < c.db.entries.length then
      .delOk ⟨⟨c.db.entries.eraseIdx i⟩, .posAt i⟩
    else
      .delFailed c MDB_NOTFOUND

/-! ## The cursor wrappers (`src/heed/src/cursor.rs`)

Each wrapper issues one or two engine calls and converts the engine outcome into
a `Result`: a found entry becomes `Ok(Some(..))`, the `MDB_NOTFOUND` failure
becomes `Ok(None)` (or `Ok(false)`), any other failure becomes `Err`. `&mut self`
becomes explicit state passing: each wrapper returns the result together with the
updated cursor. -/

inductive Error
  | mdb (code : Nat)
  | decoding
deriving DecidableEq

abbrev Res (α : Type) := Except Error α

instance {ε α : Type} [DecidableEq ε] [DecidableEq α] : DecidableEq (Except ε α) :=
  fun a b =>
  match a, b with
  | .error e1, .error e2 =>
    if h : e1 = e2 then .isTrue (congrArg Except.error h)
    else .isFalse (fun hc => h (by cases hc; rfl))
  | .ok x, .ok y =>
    if h : x = y then .isTrue (congrArg Except.ok h)
    else .isFalse (fun hc => h (by cases hc; rfl))
  | .error _, .ok _ => .isFalse (fun hc => Except.noConfusion hc)
  | .ok _, .error _ => .isFalse (fun hc => Except.noConfusion hc)

/-- The duplicate-handling modes of the movement primitives
(`MoveOperation` in `cursor.rs`). -/
inductive MoveOperation
  | Any
  | Dup
  | NoDup
deriving DecidableEq

/-- The shared conversion: `Ok(()) => Ok(Some(..))`,
`Err(e) if e.not_found() => Ok(None)`, `Err(e) => Err(e)`. -/
def convGet (r : MdbGet) : Res (Option Entry) × RoCursor :=
  match r with
  | .found c' e => (.ok (some e), c')
  | .failed c' code =>
    if code = MDB_NOTFOUND then (.ok none, c') else (.error (.mdb code), c')

def RoCursor.current (c : RoCursor) : Res (Option Entry) × RoCursor :=
  convGet (mdb_cursor_get c .getCurrent)

/-- `RoCursor::move_on_first`: `Any`/`NoDup` use the engine's `first`; `Dup`
first issues `first-dup` (whose failure propagates raw, mirroring the `?` in the
source) and then re-reads via `get-current`. -/
def RoCursor.move_on_first (c : RoCursor) (op : MoveOperation) :
    Res (Option Entry) × RoCursor :=
  match op with
  | .Any | .NoDup => convGet (mdb_cursor_get c .first)
  | .Dup =>
    match mdb_cursor_get c .firstDup with
    | .failed c' code => (.error (.mdb code), c')
    | .found c' _ => convGet (mdb_cursor_get c' .getCurrent)

/-- `RoCursor::move_on_last`: mirror image of `move_on_first`. -/
def RoCursor.move_on_last (c : RoCursor) (op : MoveOperation) :
    Res (Option Entry) × RoCursor :=
  match op with
  | .Any | .NoDup => convGet (mdb_cursor_get c .last)
  | .Dup =>
    match mdb_cursor_get c .lastDup with
    | .failed c' code => (.error (.mdb code), c')
    | .found c' _ => convGet (mdb_cursor_get c' .getCurrent)

/-- `RoCursor::move_on_key`: exact-match positioning, returning whether found. -/
def RoCursor.move_on_key (c : RoCursor) (key : Bytes) : Res Bool × RoCursor :=
  match mdb_cursor_get c (.set key) with
  | .found c' _ => (.ok true, c')
  | .failed c' code =>
    if code = MDB_NOTFOUND then (.ok false, c') else (.error (.mdb code), c')

def RoCursor.move_on_key_greater_than_or_equal_to (c : RoCursor) (key : Bytes) :
    Res (Option Entry) × RoCursor :=
  convGet (mdb_cursor_get c (.setRange key))

def RoCursor.move_on_prev (c : RoCursor) (op : MoveOperation) :
    Res (Option Entry) × RoCursor :=
  let flag : CursorOp :=
    match op with
    | .Any => .prev
    | .Dup => .prevDup
    | .NoDup => .prevNoDup
  convGet (mdb_cursor_get c flag)

def RoCursor.move_on_next (c : RoCursor) (op : MoveOperation) :
    Res (Option Entry) × RoCursor :=
  let flag : CursorOp :=
    match op with
    | .Any => .next
    | .Dup => .nextDup
    | .NoDup => .nextNoDup
  convGet (mdb_cursor_get c flag)

/-- `RwCursor::del_current` (a write cursor is a read cursor plus this
operation): deletes the entry under the cursor, returning whether an entry was
present; the engine's not-found condition becomes `Ok(false)`. -/
def RwCursor.del_current (c : RoCursor) : Res Bool × RoCursor :=
  match mdb_cursor_del c with
  | .delOk c' => (.ok true, c')
  | .delFailed c' code =>
    if code = MDB_NOTFOUND then (.ok false, c') else (.error (.mdb code), c')

/-! ## Iteration methods

Modelled from the spec: `iteration_method.rs` is not under `src/`; the spec's
movement-mode policy (§2) says iteration either skips the duplicate values of a
key — `MoveBetweenKeys`, mapping to the no-dup cursor movement — or visits every
duplicate — `MoveThroughDuplicateValues`, mapping to plain one-entry movement. -/

inductive IterationMethod
  | moveBetweenKeys
  | moveThroughDuplicateValues
deriving DecidableEq

def IterationMethod.MOVE_OPERATION : IterationMethod → MoveOperation
  | .moveBetweenKeys => .NoDup
  | .moveThroughDuplicateValues => .Any

/-! ## Forward and reverse iterators (`src/heed/src/iterator/iter.rs`)

An iterator yields `Result<Entry>` items (the codec layer is the identity, so
decoding never fails); `next` returns the yielded item (or `None` when the
sequence is over) together with the updated iterator. -/

structure RoIter where
  cursor : RoCursor
  move_on_first : Bool
deriving DecidableEq

def RoIter.next (s : RoIter) (im : IterationMethod) : Option (Res Entry) × RoIter :=
  let rc :=
    if s.move_on_first then s.cursor.move_on_first im.MOVE_OPERATION
    else s.cursor.move_on_next im.MOVE_OPERATION
  match rc.1 with
  | .ok (some e) => (some (.ok e), ⟨rc.2, false⟩)
  | .ok none => (none, ⟨rc.2, false⟩)
  | .error er => (some (.error er), ⟨rc.2, false⟩)

/-- `RoIter::last` (consumes the iterator): fresh → reposition to the last
entry; already started → re-read the current entry, reposition to the last
entry, and yield it only when its key differs from the current one. -/
def RoIter.last (s : RoIter) (im : IterationMethod) : Option (Res Entry) :=
  let result : Res (Option Entry) :=
    if s.move_on_first then (s.cursor.move_on_last im.MOVE_OPERATION).1
    else
      let rc := s.cursor.current
      let rl := rc.2.move_on_last im.MOVE_OPERATION
      match rc.1, rl.1 with
      | .ok (some ck), .ok (some e) =>
        if ck.key ≠ e.key then .ok (some e) else .ok none
      | .ok _, .ok _ => .ok none
      | .error er, _ => .error er
      | _, .error er => .error er
  match result with
  | .ok (some e) => some (.ok e)
  | .ok none => none
  | .error er => some (.error er)

structure RoRevIter where
  cursor : RoCursor
  move_on_last : Bool
deriving DecidableEq

def RoRevIter.next (s : RoRevIter) (im : IterationMethod) : Option (Res Entry) × RoRevIter :=
  let rc :=
    if s.move_on_last then s.cursor.move_on_last im.MOVE_OPERATION
    else s.cursor.move_on_prev im.MOVE_OPERATION
  match rc.1 with
  | .ok (some e) => (some (.ok e), ⟨rc.2, false⟩)
  | .ok none => (none, ⟨rc.2, false⟩)
  | .error er => (some (.error er), ⟨rc.2, false⟩)

def RoRevIter.last (s : RoRevIter) (im : IterationMethod) : Option (Res Entry) :=
  let result : Res (Option Entry) :=
    if s.move_on_last then (s.cursor.move_on_first im.MOVE_OPERATION).1
    else
      let rc := s.cursor.current
      let rl := rc.2.move_on_first im.MOVE_OPERATION
      match rc.1, rl.1 with
      | .ok (some ck), .ok (some e) =>
        if ck.key ≠ e.key then .ok (some e) else .ok none
      | .ok _, .ok _ => .ok none
      | .error er, _ => .error er
      | _, .error er => .error er
  match result with
  | .ok (some e) => some (.ok e)
  | .ok none => none
  | .error er => some (.error er)

/-! ## Range iterators (`src/heed/src/iterator/range.rs`) -/

/-- `std::ops::Bound<Vec<u8>>`. -/
inductive RBound
  | included (b : Bytes)
  | excluded (b : Bytes)
  | unbounded
deriving DecidableEq

/-- The per-step end-bound check of `RoRange::next` (`C::compare(key, end)`):
`Included → is_le`, `Excluded → is_lt`, `Unbounded → true`. -/
def endOk (b : RBound) (k : Bytes) : Bool :=
  match b with
  | .included e => !(cmpB k e == .gt)
  | .excluded e => cmpB k e == .lt
  | .unbounded => true

/-- The per-step start-bound check of `RoRevRange::next` / `RoRange::last`:
`Included → is_ge`, `Excluded → is_gt`, `Unbounded → true`. -/
def startOk (b : RBound) (k : Bytes) : Bool :=
  match b with
  | .included s => !(cmpB k s == .lt)
  | .excluded s => cmpB k s == .gt
  | .unbounded => true

/-- `move_on_range_end`: Included end → seek to ≥ end, keep on exact match, else
step back one key; Excluded end → seek to ≥ end then always step back one key;
Unbounded → move-last. -/
def move_on_range_end (c : RoCursor) (end_bound : RBound) :
    Res (Option Entry) × RoCursor :=
  match end_bound with
  | .included e =>
    let rc := c.move_on_key_greater_than_or_equal_to e
    match rc.1 with
    | .ok (some kd) =>
      if kd.key = e then (.ok (some kd), rc.2) else rc.2.move_on_prev .NoDup
    | .ok none => rc.2.move_on_prev .NoDup
    | .error er => (.error er, rc.2)
  | .excluded e =>
    let rc := c.move_on_key_greater_than_or_equal_to e
    match rc.1 with
    | .error er => (.error er, rc.2)
    | .ok _ => rc.2.move_on_prev .NoDup
  | .unbounded => c.move_on_last .NoDup

/-- `move_on_range_start`: Included start → seek to ≥ start; Excluded start →
seek to ≥ start then advance one key when the found key equals start;
Unbounded → move-first. -/
def move_on_range_start (c : RoCursor) (start_bound : RBound) :
    Res (Option Entry) × RoCursor :=
  match start_bound with
  | .included s => c.move_on_key_greater_than_or_equal_to s
  | .excluded s =>
    let rc := c.move_on_key_greater_than_or_equal_to s
    match rc.1 with
    | .ok (some kd) =>
      if kd.key = s then rc.2.move_on_next .NoDup else (.ok (some kd), rc.2)
    | .ok none => (.ok none, rc.2)
    | .error er => (.error er, rc.2)
  | .unbounded => c.move_on_first .NoDup

structure RoRange where
  cursor : RoCursor
  move_on_start : Bool
  start_bound : RBound
  end_bound : RBound
deriving DecidableEq

def RoRange.next (s : RoRange) (im : IterationMethod) : Option (Res Entry) × RoRange :=
  let rc :=
    if s.move_on_start then move_on_range_start s.cursor s.start_bound
    else s.cursor.move_on_next im.MOVE_OPERATION
  let s' : RoRange := { s with cursor := rc.2, move_on_start := false }
  match rc.1 with
  | .ok (some e) =>
    if endOk s.end_bound e.key then (some (.ok e), s') else (none, s')
  | .ok none => (none, s')
  | .error er => (some (.error er), s')

/-- `RoRange::last` (consumes the iterator): fresh → resolve the end bound;
started → re-read the current entry, resolve the end bound, and yield the found
entry only when the comparator says its key differs from the current one.
Either way the found entry is checked against the start bound. -/
def RoRange.last (s : RoRange) (_im : IterationMethod) : Option (Res Entry) :=
  let result : Res (Option Entry) :=
    if s.move_on_start then (move_on_range_end s.cursor s.end_bound).1
    else
      let rc := s.cursor.current
      let rl := move_on_range_end rc.2 s.end_bound
      match rc.1, rl.1 with
      | .ok (some ck), .ok (some e) =>
        if cmpB ck.key e.key ≠ .eq then .ok (some e) else .ok none
      | .ok _, .ok _ => .ok none
      | .error er, _ => .error er
      | _, .error er => .error er
  match result with
  | .ok (some e) =>
    if startOk s.start_bound e.key then some (.ok e) else none
  | .ok none => none
  | .error er => some (.error er)

structure RoRevRange where
  cursor : RoCursor
  move_on_end : Bool
  start_bound : RBound
  end_bound : RBound
deriving DecidableEq

def RoRevRange.next (s : RoRevRange) (im : IterationMethod) :
    Option (Res Entry) × RoRevRange :=
  let rc :=
    if s.move_on_end then move_on_range_end s.cursor s.end_bound
    else s.cursor.move_on_prev im.MOVE_OPERATION
  let s' : RoRevRange := { s with cursor := rc.2, move_on_end := false }
  match rc.1 with
  | .ok (some e) =>
    if startOk s.start_bound e.key then (some (.ok e), s') else (none, s')
  | .ok none => (none, s')
  | .error er => (some (.error er), s')

def RoRevRange.last (s : RoRevRange) (_im : IterationMethod) : Option (Res Entry) :=
  let result : Res (Option Entry) :=
    if s.move_on_end then (move_on_range_start s.cursor s.start_bound).1
    else
      let rc := s.cursor.current
      let rl := move_on_range_start rc.2 s.start_bound
      match rc.1, rl.1 with
      | .ok (some ck), .ok (some e) =>
        if cmpB ck.key e.key ≠ .eq then .ok (some e) else .ok none
      | .ok _, .ok _ => .ok none
      | .error er, _ => .error er
      | _, .error er => .error er
  match result with
  | .ok (some e) =>
    if endOk s.end_bound e.key then some (.ok e) else none
  | .ok none => none
  | .error er => some (.error er)

/-! ## Prefix iterators (`src/heed/src/iterator/prefix.rs`)

The source's `advance_prefix`/`retreat_prefix` scan the byte string from its end
(find the last byte not at the comparator's maximum/minimum, replace it by its
successor/predecessor, reset every following byte to the minimum/maximum); the
comparator is the default lexicographic one (max byte 255, min byte 0,
successor/predecessor = +1/−1). Recursing over the reversed list expresses the
same loop. The Rust names end in a token the toolchain reserves, hence the
`_pfx` spelling here. -/

def advance_pfxRev : List Nat → Option (List Nat)
  | [] => none
  | b :: rest =>
    if b = 255 then (advance_pfxRev rest).map (fun r => 0 :: r)
    else some ((b + 1) :: rest)

/-- `advance_prefix`: in-place lexicographic successor of equal length; returns
whether a successor exists together with the (possibly updated) bytes. -/
def advance_pfx (bytes : Bytes) : Bool × Bytes :=
  match advance_pfxRev bytes.reverse with
  | some r => (true, r.reverse)
  | none => (false, bytes)

def retreat_pfxRev : List Nat → Option (List Nat)
  | [] => none
  | b :: rest =>
    if b = 0 then (retreat_pfxRev rest).map (fun r => 255 :: r)
    else some ((b - 1) :: rest)

/-- `retreat_prefix`: in-place lexicographic predecessor of equal length. -/
def retreat_pfx (bytes : Bytes) : Bool × Bytes :=
  match retreat_pfxRev bytes.reverse with
  | some r => (true, r.reverse)
  | none => (false, bytes)

/-- `move_on_prefix_end`: advance the prefix to its successor, seek to ≥ it and
step back one key, then restore the prefix via the predecessor operation; when
no successor exists, move to the last entry of the whole collection. Returns
the cursor outcome together with the prefix bytes as the source leaves them. -/
def move_on_pfx_end (c : RoCursor) (p : Bytes) :
    (Res (Option Entry) × RoCursor) × Bytes :=
  match advance_pfx p with
  | (true, p') =>
    let rc := c.move_on_key_greater_than_or_equal_to p'
    let result :=
      match rc.1 with
      | .error er => ((.error er : Res (Option Entry)), rc.2)
      | .ok _ => rc.2.move_on_prev .NoDup
    (result, (retreat_pfx p').2)
  | (false, _) => (c.move_on_last .NoDup, p)

structure RoPfx where
  cursor : RoCursor
  pfx : Bytes
  move_on_first : Bool
deriving DecidableEq

/-- `RoPrefix::next`: first call seeks to ≥ prefix, later calls move forward;
every produced key must start with the prefix. -/
def RoPfx.next (s : RoPfx) (im : IterationMethod) : Option (Res Entry) × RoPfx :=
  let rc :=
    if s.move_on_first then s.cursor.move_on_key_greater_than_or_equal_to s.pfx
    else s.cursor.move_on_next im.MOVE_OPERATION
  let s' : RoPfx := { s with cursor := rc.2, move_on_first := false }
  match rc.1 with
  | .ok (some e) =>
    if s.pfx.isPrefixOf e.key then (some (.ok e), s') else (none, s')
  | .ok none => (none, s')
  | .error er => (some (.error er), s')

/-- `RoPrefix::last` (consumes the iterator). Returns the item together with the
stored prefix as it stands afterwards (the source mutates and restores it in
place; the final starts-with check reads that stored prefix). -/
def RoPfx.last (s : RoPfx) (_im : IterationMethod) : Option (Res Entry) × Bytes :=
  let step :=
    if s.move_on_first then move_on_pfx_end s.cursor s.pfx
    else
      let rc := s.cursor.current
      let rl := move_on_pfx_end rc.2 s.pfx
      let combined : Res (Option Entry) :=
        match rc.1, rl.1.1 with
        | .ok (some ck), .ok (some e) =>
          if ck.key ≠ e.key then .ok (some e) else .ok none
        | .ok _, .ok _ => .ok none
        | .error er, _ => .error er
        | _, .error er => .error er
      ((combined, rl.1.2), rl.2)
  let pfx' := step.2
  match step.1.1 with
  | .ok (some e) =>
    (if pfx'.isPrefixOf e.key then some (.ok e) else none, pfx')
  | .ok none => (none, pfx')
  | .error er => (some (.error er), pfx')

/-! ## Drains and fresh iterators

`drain` performs repeated `next` calls until the iterator reports the end of the
sequence, collecting the yielded items; the fuel argument only serves
termination (one entry is consumed per step, so `length + 1` always suffices).
`consume` applies `next` a given number of times, discarding the items. -/

def RoIter.drain (im : IterationMethod) : Nat → RoIter → List (Res Entry)
  | 0, _ => []
  | fuel + 1, s =>
    match s.next im with
    | (none, _) => []
    | (some x, s') => x :: RoIter.drain im fuel s'

def RoRevIter.drain (im : IterationMethod) : Nat → RoRevIter → List (Res Entry)
  | 0, _ => []
  | fuel + 1, s =>
    match s.next im with
    | (none, _) => []
    | (some x, s') => x :: RoRevIter.drain im fuel s'

def RoRange.drain (im : IterationMethod) : Nat → RoRange → List (Res Entry)
  | 0, _ => []
  | fuel + 1, s =>
    match s.next im with
    | (none, _) => []
    | (some x, s') => x :: RoRange.drain im fuel s'

def RoRevRange.drain (im : IterationMethod) : Nat → RoRevRange → List (Res Entry)
  | 0, _ => []
  | fuel + 1, s =>
    match s.next im with
    | (none, _) => []
    | (some x, s') => x :: RoRevRange.drain im fuel s'

def RoPfx.drain (im : IterationMethod) : Nat → RoPfx → List (Res Entry)
  | 0, _ => []
  | fuel + 1, s =>
    match s.next im with
    | (none, _) => []
    | (some x, s') => x :: RoPfx.drain im fuel s'

def RoRange.consume (im : IterationMethod) : Nat → RoRange → RoRange
  | 0, s => s
  | k + 1, s => RoRange.consume im k (s.next im).2

def RoPfx.consume (im : IterationMethod) : Nat → RoPfx → RoPfx
  | 0, s => s
  | k + 1, s => RoPfx.consume im k (s.next im).2

/-- A freshly opened cursor on a collection. -/
def freshCursor (d : Db) : RoCursor := ⟨d, .unset⟩

def RoIter.fresh (d : Db) : RoIter := ⟨freshCursor d, true⟩

def RoRevIter.fresh (d : Db) : RoRevIter := ⟨freshCursor d, true⟩

def RoRange.fresh (d : Db) (sb eb : RBound) : RoRange := ⟨freshCursor d, true, sb, eb⟩

def RoRevRange.fresh (d : Db) (sb eb : RBound) : RoRevRange := ⟨freshCursor d, true, sb, eb⟩

def RoPfx.fresh (d : Db) (p : Bytes) : RoPfx := ⟨freshCursor d, p, true⟩

/-- Fuel that always suffices to drain a collection completely. -/
def fullFuel (d : Db) : Nat := d.entries.length + 1

/-! ## Basic facts about the bound checks and the index searches -/

theorem bLt_of_lt_of_not_lt {a b c : Bytes} (h1 : bLt a b) (h2 : ¬ bLt c b) : bLt a c := by
  rcases not_bLt_iff.mp h2 with rfl | h2
  · exact h1
  · exact bLt_trans h1 h2

theorem bLt_of_not_lt_of_lt {a b c : Bytes} (h1 : ¬ bLt b a) (h2 : bLt b c) : bLt a c := by
  rcases not_bLt_iff.mp h1 with rfl | h1
  · exact h2
  · exact bLt_trans h1 h2

theorem ordBeq_true_iff {a b : Ordering} : (a == b) = true ↔ a = b := by
  cases a <;> cases b <;> decide

theorem ordBeq_false_iff {a b : Ordering} : (a == b) = false ↔ ¬ a = b := by
  cases a <;> cases b <;> decide

theorem startOk_included_iff {s k : Bytes} : startOk (.included s) k = true ↔ ¬ bLt k s := by
  simp only [startOk, Bool.not_eq_true', ordBeq_false_iff, bLt]

theorem startOk_excluded_iff {s k : Bytes} : startOk (.excluded s) k = true ↔ bLt s k := by
  simp only [startOk, ordBeq_true_iff]
  exact cmpB_gt_iff

theorem endOk_included_iff {e k : Bytes} : endOk (.included e) k = true ↔ ¬ bLt e k := by
  simp only [endOk, Bool.not_eq_true', ordBeq_false_iff]
  rw [show (cmpB k e = Ordering.gt) ↔ bLt e k from cmpB_gt_iff]

theorem endOk_excluded_iff {e k : Bytes} : endOk (.excluded e) k = true ↔ bLt k e := by
  simp only [endOk, ordBeq_true_iff, bLt]

/-- The start-bound check is upward closed along the key order. -/
theorem startOk_mono {sb : RBound} {k k' : Bytes} (h : startOk sb k = true)
    (hk : ¬ bLt k' k) : startOk sb k' = true := by
  cases sb with
  | included s =>
    rw [startOk_included_iff] at h ⊢
    exact bLt_trans_not h hk
  | excluded s =>
    rw [startOk_excluded_iff] at h ⊢
    exact bLt_of_lt_of_not_lt h hk
  | unbounded => rfl

/-- The end-bound check is downward closed along the key order. -/
theorem endOk_mono {eb : RBound} {k k' : Bytes} (h : endOk eb k = true)
    (hk : ¬ bLt k k') : endOk eb k' = true := by
  cases eb with
  | included e =>
    rw [endOk_included_iff] at h ⊢
    exact bLt_trans_not hk h
  | excluded e =>
    rw [endOk_excluded_iff] at h ⊢
    exact bLt_of_not_lt_of_lt hk h
  | unbounded => rfl

theorem findFrom_out {es : List Entry} {i : Nat} {p : Entry → Bool}
    (h : es.length ≤ i) : findFrom es i p = none := by
  unfold findFrom
  rw [Nat.sub_eq_zero_of_le h]
  rfl

theorem findFrom_self {es : List Entry} {i : Nat} {e : Entry} {p : Entry → Bool}
    (hi : es[i]? = some e) (hp : p e = true) : findFrom es i p = some (i, e) := by
  have hlen : i < es.length := (List.getElem?_eq_some_iff.mp hi).1
  unfold findFrom
  have : es.length - i = (es.length - i - 1) + 1 := by omega
  rw [this]
  simp [findFromAux, hi, hp]

theorem findDown_self {es : List Entry} {i : Nat} {e : Entry} {p : Entry → Bool}
    (hi : es[i]? = some e) (hp : p e = true) : findDown es i p = some (i, e) := by
  unfold findDown
  simp [findDownAux, hi, hp]

/-- Uniqueness: a satisfying index below which everything fails is the found one. -/
theorem findFrom_unique {es : List Entry} {i j : Nat} {p : Entry → Bool} {e : Entry}
    (hj : es[j]? = some e) (hp : p e = true) (hij : i ≤ j)
    (hmin : ∀ m e', i ≤ m → m < j → es[m]? = some e' → p e' = false) :
    findFrom es i p = some (j, e) := by
  obtain ⟨j', e', hfind, hle⟩ := findFrom_isSome hj hp hij
  obtain ⟨h1, h2, h3, -⟩ := findFrom_found hfind
  rcases Nat.eq_or_lt_of_le hle with rfl | hlt
  · rw [hj] at h2
    cases h2
    exact hfind
  · have := hmin j' e' h1 hlt h2
    rw [h3] at this
    cases this

/-- Uniqueness: a satisfying index above which everything fails is the found one. -/
theorem findDown_unique {es : List Entry} {i j : Nat} {p : Entry → Bool} {e : Entry}
    (hj : es[j]? = some e) (hp : p e = true) (hij : j ≤ i) (hi : i < es.length)
    (hmax : ∀ m e', j < m → m ≤ i → es[m]? = some e' → p e' = false) :
    findDown es i p = some (j, e) := by
  obtain ⟨j', e', hfind, hle⟩ := findDown_isSome hj hp hij hi
  obtain ⟨h1, h2, h3, -⟩ := findDown_found hfind
  rcases Nat.eq_or_lt_of_le hle with rfl | hlt
  · rw [hj] at h2
    cases h2
    exact hfind
  · have := hmax j' e' hlt h1 h2
    rw [h3] at this
    cases this

theorem findFrom_eq_none {es : List Entry} {i : Nat} {p : Entry → Bool}
    (h : ∀ m e', i ≤ m → es[m]? = some e' → p e' = false) : findFrom es i p = none := by
  cases hf : findFrom es i p with
  | none => rfl
  | some je =>
    obtain ⟨j, e⟩ := je
    obtain ⟨h1, h2, h3, -⟩ := findFrom_found hf
    have := h j e h1 h2
    rw [h3] at this
    cases this

theorem findDown_eq_none {es : List Entry} {i : Nat} {p : Entry → Bool}
    (h : ∀ m e', m ≤ i → es[m]? = some e' → p e' = false) : findDown es i p = none := by
  cases hf : findDown es i p with
  | none => rfl
  | some je =>
    obtain ⟨j, e⟩ := je
    obtain ⟨h1, h2, h3, -⟩ := findDown_found hf
    have := h j e h1 h2
    rw [h3] at this
    cases this

theorem len_pos_of_getElem? {es : List Entry} {i : Nat} {e : Entry}
    (h : es[i]? = some e) : i < es.length :=
  (List.getElem?_eq_some_iff.mp h).1

theorem getElem_of_getElem? {es : List Entry} {i : Nat} {e : Entry}
    (h : es[i]? = some e) (hi : i < es.length) : es[i] = e := by
  rw [List.getElem?_eq_getElem hi] at h
  exact Option.some.inj h

theorem get_of_getElem? {es : List Entry} {i : Nat} {e : Entry}
    (h : es[i]? = some e) (hi : i < es.length) : es.get ⟨i, hi⟩ = e :=
  getElem_of_getElem? h hi

/-- Keys strictly increase with the index, phrased on `getElem?`. -/
theorem nodup_lt_of_getElem? {d : Db} (hnd : d.NoDupKeys) {i j : Nat}
    {ei ej : Entry} (hi : d.entries[i]? = some ei) (hj : d.entries[j]? = some ej)
    (hij : i < j) : bLt ei.key ej.key := by
  have hjl := len_pos_of_getElem? hj
  have hil := len_pos_of_getElem? hi
  have := d.nodup_lt hnd hij hil hjl
  rw [get_of_getElem? hi hil, get_of_getElem? hj hjl] at this
  exact this

/-- Keys never decrease with the index, phrased on `getElem?`. -/
theorem sorted_le_of_getElem? {d : Db} (hs : d.SortedKeys) {i j : Nat}
    {ei ej : Entry} (hi : d.entries[i]? = some ei) (hj : d.entries[j]? = some ej)
    (hij : i ≤ j) : ¬ bLt ej.key ei.key := by
  rcases Nat.eq_or_lt_of_le hij with rfl | hlt
  · rw [hi] at hj
    cases hj
    exact bLt_irrefl _
  · have hjl := len_pos_of_getElem? hj
    have hil := len_pos_of_getElem? hi
    have := d.sorted_le hs hlt hil hjl
    rw [get_of_getElem? hi hil, get_of_getElem? hj hjl] at this
    exact this

/-! ## Collapsing the engine movement primitives

On a duplicate-free collection, the three duplicate modes collapse: every
forward movement advances the index by one, every backward movement retreats it
by one. The seek primitives are characterized through `findFrom`/`findDown`. -/

theorem current_at {d : Db} {i : Nat} {e : Entry} (hi : d.entries[i]? = some e) :
    RoCursor.current ⟨d, .posAt i⟩ = (.ok (some e), ⟨d, .posAt i⟩) := by
  simp [RoCursor.current, mdb_cursor_get, EngineOps.opGetCurrent, hi, convGet]

theorem move_on_next_at_some {d : Db} (hnd : d.NoDupKeys) {i : Nat} {cur e : Entry}
    (hi : d.entries[i]? = some cur) (hnext : d.entries[i + 1]? = some e)
    {op : MoveOperation} (hop : op ≠ .Dup) :
    RoCursor.move_on_next ⟨d, .posAt i⟩ op = (.ok (some e), ⟨d, .posAt (i + 1)⟩) := by
  cases op with
  | Dup => exact absurd rfl hop
  | Any =>
    simp [RoCursor.move_on_next, mdb_cursor_get, EngineOps.opNext, hnext, convGet]
  | NoDup =>
    have hne : bLt cur.key e.key := nodup_lt_of_getElem? hnd hi hnext (Nat.lt_succ_self i)
    have hfs : findFrom d.entries (i + 1) (fun x => !decide (x.key = cur.key)) =
        some (i + 1, e) := by
      refine @findFrom_self d.entries (i + 1) e (fun x => !decide (x.key = cur.key)) hnext ?_
      simp only [Bool.not_eq_true', decide_eq_false_iff_not]
      exact fun hk => bLt_ne hne hk.symm
    simp [RoCursor.move_on_next, mdb_cursor_get, EngineOps.opNextNoDup, hi, hfs, convGet]

theorem move_on_next_at_end {d : Db} {i : Nat} {cur : Entry}
    (hi : d.entries[i]? = some cur) (hnext : d.entries[i + 1]? = none)
    {op : MoveOperation} (hop : op ≠ .Dup) :
    RoCursor.move_on_next ⟨d, .posAt i⟩ op = (.ok none, ⟨d, .posAt i⟩) := by
  have hlen : d.entries.length ≤ i + 1 := by
    by_contra hc
    push_neg at hc
    rw [List.getElem?_eq_getElem hc] at hnext
    cases hnext
  cases op with
  | Dup => exact absurd rfl hop
  | Any =>
    simp [RoCursor.move_on_next, mdb_cursor_get, EngineOps.opNext, hnext, convGet, MDB_NOTFOUND]
  | NoDup =>
    simp [RoCursor.move_on_next, mdb_cursor_get, EngineOps.opNextNoDup, hi,
      findFrom_out hlen, convGet, MDB_NOTFOUND]

theorem move_on_prev_at_zero {d : Db} {cur : Entry}
    (hi : d.entries[0]? = some cur) {op : MoveOperation} (hop : op ≠ .Dup) :
    RoCursor.move_on_prev ⟨d, .posAt 0⟩ op = (.ok none, ⟨d, .posAt 0⟩) := by
  cases op with
  | Dup => exact absurd rfl hop
  | Any =>
    simp [RoCursor.move_on_prev, mdb_cursor_get, EngineOps.opPrev, convGet, MDB_NOTFOUND]
  | NoDup =>
    simp [RoCursor.move_on_prev, mdb_cursor_get, EngineOps.opPrevNoDup, hi, convGet, MDB_NOTFOUND]

theorem move_on_prev_at_succ {d : Db} (hnd : d.NoDupKeys) {i : Nat} {cur e : Entry}
    (hi : d.entries[i + 1]? = some cur) (hprev : d.entries[i]? = some e)
    {op : MoveOperation} (hop : op ≠ .Dup) :
    RoCursor.move_on_prev ⟨d, .posAt (i + 1)⟩ op = (.ok (some e), ⟨d, .posAt i⟩) := by
  cases op with
  | Dup => exact absurd rfl hop
  | Any =>
    simp [RoCursor.move_on_prev, mdb_cursor_get, EngineOps.opPrev, hprev, convGet]
  | NoDup =>
    have hne : bLt e.key cur.key := nodup_lt_of_getElem? hnd hprev hi (Nat.lt_succ_self i)
    have hfs : findDown d.entries i (fun x => !decide (x.key = cur.key)) =
        some (i, e) := by
      refine @findDown_self d.entries i e (fun x => !decide (x.key = cur.key)) hprev ?_
      simp only [Bool.not_eq_true', decide_eq_false_iff_not]
      exact bLt_ne hne
    simp [RoCursor.move_on_prev, mdb_cursor_get, EngineOps.opPrevNoDup, hi, hfs, convGet]

/-- General forward step, duplicates allowed: from a valid position the cursor
either lands on a strictly later entry or reports the end, staying put. -/
theorem move_on_next_general {d : Db} {i : Nat} {cur : Entry}
    (hi : d.entries[i]? = some cur) {op : MoveOperation} (hop : op ≠ .Dup) :
    (∃ j e, i < j ∧ d.entries[j]? = some e ∧
      RoCursor.move_on_next ⟨d, .posAt i⟩ op = (.ok (some e), ⟨d, .posAt j⟩)) ∨
    RoCursor.move_on_next ⟨d, .posAt i⟩ op = (.ok none, ⟨d, .posAt i⟩) := by
  cases op with
  | Dup => exact absurd rfl hop
  | Any =>
    cases hnext : d.entries[i + 1]? with
    | some e =>
      left
      exact ⟨i + 1, e, Nat.lt_succ_self i, hnext,
        by simp [RoCursor.move_on_next, mdb_cursor_get, EngineOps.opNext, hnext, convGet]⟩
    | none =>
      right
      simp [RoCursor.move_on_next, mdb_cursor_get, EngineOps.opNext, hnext, convGet, MDB_NOTFOUND]
  | NoDup =>
    cases hf : findFrom d.entries (i + 1) (fun x => !decide (x.key = cur.key)) with
    | some je =>
      obtain ⟨j, e⟩ := je
      obtain ⟨h1, h2, -, -⟩ := findFrom_found hf
      left
      exact ⟨j, e, by omega, h2,
        by simp [RoCursor.move_on_next, mdb_cursor_get, EngineOps.opNextNoDup, hi, hf, convGet]⟩
    | none =>
      right
      simp [RoCursor.move_on_next, mdb_cursor_get, EngineOps.opNextNoDup, hi, hf,
        convGet, MDB_NOTFOUND]

/-- General backward step, duplicates allowed. -/
theorem move_on_prev_general {d : Db} {i : Nat} {cur : Entry}
    (hi : d.entries[i]? = some cur) {op : MoveOperation} (hop : op ≠ .Dup) :
    (∃ j e, j < i ∧ d.entries[j]? = some e ∧
      RoCursor.move_on_prev ⟨d, .posAt i⟩ op = (.ok (some e), ⟨d, .posAt j⟩)) ∨
    RoCursor.move_on_prev ⟨d, .posAt i⟩ op = (.ok none, ⟨d, .posAt i⟩) := by
  cases op with
  | Dup => exact absurd rfl hop
  | Any =>
    by_cases hi0 : i = 0
    · subst hi0
      right
      simp [RoCursor.move_on_prev, mdb_cursor_get, EngineOps.opPrev, convGet, MDB_NOTFOUND]
    · have hlt : i - 1 < i := by omega
      have hprev : i - 1 < d.entries.length := by
        have := len_pos_of_getElem? hi
        omega
      left
      refine ⟨i - 1, d.entries[i - 1], hlt, List.getElem?_eq_getElem hprev, ?_⟩
      simp [RoCursor.move_on_prev, mdb_cursor_get, EngineOps.opPrev, hi0,
        List.getElem?_eq_getElem hprev, convGet]
  | NoDup =>
    by_cases hi0 : i = 0
    · subst hi0
      right
      simp [RoCursor.move_on_prev, mdb_cursor_get, EngineOps.opPrevNoDup, hi,
        convGet, MDB_NOTFOUND]
    · cases hf : findDown d.entries (i - 1) (fun x => !decide (x.key = cur.key)) with
      | some je =>
        obtain ⟨j, e⟩ := je
        obtain ⟨h1, h2, -, -⟩ := findDown_found hf
        left
        exact ⟨j, e, by omega, h2,
          by simp [RoCursor.move_on_prev, mdb_cursor_get, EngineOps.opPrevNoDup, hi, hi0,
              hf, convGet]⟩
      | none =>
        right
        simp [RoCursor.move_on_prev, mdb_cursor_get, EngineOps.opPrevNoDup, hi, hi0, hf,
          convGet, MDB_NOTFOUND]

/-! ## Characterizing the range bound resolution -/

def startOkP (sb : RBound) : Entry → Bool := fun e => startOk sb e.key

def endOkP (eb : RBound) : Entry → Bool := fun e => endOk eb e.key

/-- On a key-sorted collection, `move_on_range_start` yields exactly the first
entry satisfying the start bound. -/
theorem range_start_found {d : Db} (hs : d.SortedKeys) {sb : RBound} {l : Nat} {e : Entry}
    (hf : findFrom d.entries 0 (startOkP sb) = some (l, e)) (pos : CursorPos) :
    move_on_range_start ⟨d, pos⟩ sb = (.ok (some e), ⟨d, .posAt l⟩) := by
  obtain ⟨-, hl, hpe, hmin⟩ := findFrom_found hf
  cases sb with
  | unbounded =>
    have hf' : findFrom d.entries 0 (fun _ => true) = some (l, e) := hf
    simp [move_on_range_start, RoCursor.move_on_first, mdb_cursor_get,
      EngineOps.opFirst, hf', convGet]
  | included s =>
    have hf' : findFrom d.entries 0 (fun x => !(cmpB x.key s == .lt)) = some (l, e) := hf
    simp [move_on_range_start, RoCursor.move_on_key_greater_than_or_equal_to,
      mdb_cursor_get, EngineOps.opSetRange, hf', convGet]
  | excluded s =>
    have hse : bLt s e.key := by
      have := hpe
      simp only [startOkP] at this
      exact startOk_excluded_iff.mp this
    have hgel : (fun x => !(cmpB x.key s == Ordering.lt)) e = true := by
      simp only [Bool.not_eq_true', ordBeq_false_iff]
      exact fun hc => bLt_asymm hse hc
    obtain ⟨i, ei, hsr, hil⟩ :=
      @findFrom_isSome d.entries 0 l (fun x => !(cmpB x.key s == Ordering.lt)) e hl hgel
        (Nat.zero_le l)
    obtain ⟨-, hie, hges, hminge⟩ := findFrom_found hsr
    have hgei : ¬ bLt ei.key s := by
      have := hges
      simp only [Bool.not_eq_true', ordBeq_false_iff] at this
      exact this
    by_cases hkey : ei.key = s
    · -- exact match on the excluded start: advance to the next distinct key
      have hil' : i < l := by
        rcases Nat.eq_or_lt_of_le hil with rfl | h
        · rw [hl] at hie
          cases hie
          exact absurd hkey (bLt_ne hse).symm
        · exact h
      have hfs : findFrom d.entries (i + 1) (fun x => !decide (x.key = s)) =
          some (l, e) := by
        refine findFrom_unique hl ?_ (by omega) ?_
        · simp only [Bool.not_eq_true', decide_eq_false_iff_not]
          exact fun hc => bLt_ne hse hc.symm
        · intro m e' h1 h2 hme
          obtain ⟨e2, he2, hpe2⟩ := hmin m (Nat.zero_le m) h2
          rw [hme] at he2
          have heq : e' = e2 := Option.some.inj he2
          subst heq
          simp only [Bool.not_eq_false', decide_eq_true_eq]
          have hnotgt : ¬ bLt s e'.key := by
            simp only [startOkP] at hpe2
            intro hc
            rw [(startOk_excluded_iff (s := s) (k := e'.key)).mpr hc] at hpe2
            cases hpe2
          have hge : ¬ bLt e'.key ei.key :=
            sorted_le_of_getElem? hs hie hme (by omega)
          rw [hkey] at hge
          rcases not_bLt_iff.mp hge with h | h
          · exact h
          · exact absurd h hnotgt
      simp [move_on_range_start, RoCursor.move_on_key_greater_than_or_equal_to,
        RoCursor.move_on_next, mdb_cursor_get, EngineOps.opSetRange,
        EngineOps.opNextNoDup, hsr, hie, hfs, convGet, hkey]
    · -- the found key already exceeds the excluded start
      have hgt : bLt s ei.key := by
        rcases not_bLt_iff.mp hgei with h | h
        · exact absurd h hkey
        · exact h
      have hieq : i = l := by
        rcases Nat.eq_or_lt_of_le hil with h | hlt
        · exact h
        · exfalso
          obtain ⟨e', he', hpe'⟩ := hmin i (Nat.zero_le i) hlt
          rw [hie] at he'
          cases he'
          simp only [startOkP] at hpe'
          rw [(startOk_excluded_iff (s := s) (k := ei.key)).mpr hgt] at hpe'
          cases hpe'
      subst hieq
      rw [hl] at hie
      cases hie
      simp [move_on_range_start, RoCursor.move_on_key_greater_than_or_equal_to,
        mdb_cursor_get, EngineOps.opSetRange, hsr, convGet, hkey]

/-- On a key-sorted collection, `move_on_range_start` reports the end of the
sequence when no entry satisfies the start bound. -/
theorem range_start_none {d : Db} (hs : d.SortedKeys) {sb : RBound}
    (hf : findFrom d.entries 0 (startOkP sb) = none) (pos : CursorPos) :
    (move_on_range_start ⟨d, pos⟩ sb).1 = .ok none := by
  cases sb with
  | unbounded =>
    have hf' : findFrom d.entries 0 (fun _ => true) = none := hf
    simp [move_on_range_start, RoCursor.move_on_first, mdb_cursor_get,
      EngineOps.opFirst, hf', convGet, MDB_NOTFOUND]
  | included s =>
    have hf' : findFrom d.entries 0 (fun x => !(cmpB x.key s == .lt)) = none := hf
    simp [move_on_range_start, RoCursor.move_on_key_greater_than_or_equal_to,
      mdb_cursor_get, EngineOps.opSetRange, hf', convGet, MDB_NOTFOUND]
  | excluded s =>
    have hnone := findFrom_none hf
    cases hsr : findFrom d.entries 0 (fun x => !(cmpB x.key s == Ordering.lt)) with
    | none =>
      simp [move_on_range_start, RoCursor.move_on_key_greater_than_or_equal_to,
        mdb_cursor_get, EngineOps.opSetRange, hsr, convGet, MDB_NOTFOUND]
    | some ie =>
      obtain ⟨i, ei⟩ := ie
      obtain ⟨-, hie, hges, -⟩ := findFrom_found hsr
      have hgei : ¬ bLt ei.key s := by
        have := hges
        simp only [Bool.not_eq_true', ordBeq_false_iff] at this
        exact this
      have hkey : ei.key = s := by
        rcases not_bLt_iff.mp hgei with h | h
        · exact h
        · exfalso
          have := hnone i ei (Nat.zero_le i) hie
          simp only [startOkP] at this
          rw [(startOk_excluded_iff (s := s) (k := ei.key)).mpr h] at this
          cases this
      have hfs : findFrom d.entries (i + 1) (fun x => !decide (x.key = s)) = none := by
        refine findFrom_eq_none ?_
        intro m e' h1 h2
        simp only [Bool.not_eq_false', decide_eq_true_eq]
        have hge : ¬ bLt e'.key ei.key :=
          sorted_le_of_getElem? hs hie h2 (by omega)
        rw [hkey] at hge
        have hnotgt : ¬ bLt s e'.key := by
          have := hnone m e' (Nat.zero_le m) h2
          simp only [startOkP] at this
          intro hc
          rw [(startOk_excluded_iff (s := s) (k := e'.key)).mpr hc] at this
          cases this
        rcases not_bLt_iff.mp hge with h | h
        · exact h
        · exact absurd h hnotgt
      simp [move_on_range_start, RoCursor.move_on_key_greater_than_or_equal_to,
        RoCursor.move_on_next, mdb_cursor_get, EngineOps.opSetRange,
        EngineOps.opNextNoDup, hsr, hie, hfs, convGet, hkey, MDB_NOTFOUND]

/-- On a duplicate-free collection, `move_on_range_end` yields exactly the last
entry satisfying the end bound. -/
theorem range_end_found {d : Db} (hnd : d.NoDupKeys) {eb : RBound} {u : Nat} {e : Entry}
    (hf : findDown d.entries (d.entries.length - 1) (endOkP eb) = some (u, e))
    (pos : CursorPos) :
    move_on_range_end ⟨d, pos⟩ eb = (.ok (some e), ⟨d, .posAt u⟩) := by
  obtain ⟨-, hu, hpe, -⟩ := findDown_found hf
  cases eb with
  | unbounded =>
    have hf' : findDown d.entries (d.entries.length - 1) (fun _ => true) = some (u, e) := hf
    simp [move_on_range_end, RoCursor.move_on_last, mdb_cursor_get,
      EngineOps.opLast, hf', convGet]
  | included eB =>
    have hle : ¬ bLt eB e.key := by
      have := hpe
      simp only [endOkP] at this
      exact endOk_included_iff.mp this
    cases hsr : findFrom d.entries 0 (fun x => !(cmpB x.key eB == Ordering.lt)) with
    | some ie =>
      obtain ⟨i, ei⟩ := ie
      obtain ⟨-, hie, hges, hminge⟩ := findFrom_found hsr
      have hgei : ¬ bLt ei.key eB := by
        have := hges
        simp only [Bool.not_eq_true', ordBeq_false_iff] at this
        exact this
      have hilen : i < d.entries.length := len_pos_of_getElem? hie
      by_cases hkey : ei.key = eB
      · -- exact match: the cursor stays on it
        have hfd : findDown d.entries (d.entries.length - 1) (endOkP (.included eB)) =
            some (i, ei) := by
          refine findDown_unique hie ?_ (by omega) (by omega) ?_
          · simp only [endOkP]
            rw [endOk_included_iff, hkey]
            exact bLt_irrefl eB
          · intro m e2 h1 h2 hme
            simp only [endOkP]
            rw [Bool.eq_false_iff, Ne, endOk_included_iff, Decidable.not_not]
            have := nodup_lt_of_getElem? hnd hie hme h1
            rw [hkey] at this
            exact this
        rw [hfd] at hf
        injection hf with hp
        injection hp with h1 h2
        subst h1
        subst h2
        simp [move_on_range_end, RoCursor.move_on_key_greater_than_or_equal_to,
          mdb_cursor_get, EngineOps.opSetRange, hsr, convGet, hkey]
      · -- the found key exceeds the included end: step back one key
        have hgt : bLt eB ei.key := by
          rcases not_bLt_iff.mp hgei with h | h
          · exact absurd h hkey
          · exact h
        by_cases hi0 : i = 0
        · exfalso
          subst hi0
          have hsle : ¬ bLt e.key ei.key :=
            sorted_le_of_getElem? hnd.sortedKeys hie hu (Nat.zero_le u)
          exact hle (bLt_of_lt_of_not_lt hgt hsle)
        · have hplen : i - 1 < d.entries.length := by omega
          have hprev : d.entries[i - 1]? = some (d.entries[i - 1]) :=
            List.getElem?_eq_getElem hplen
          have hpeb : bLt (d.entries[i - 1]).key eB := by
            obtain ⟨e2, he2, hpe2⟩ := hminge (i - 1) (Nat.zero_le _) (by omega)
            rw [hprev] at he2
            cases Option.some.inj he2
            simp only [Bool.not_eq_false', ordBeq_true_iff] at hpe2
            exact hpe2
          have hfds : findDown d.entries (i - 1) (fun x => !decide (x.key = ei.key)) =
              some (i - 1, d.entries[i - 1]) := by
            refine @findDown_self d.entries (i - 1)
              (d.entries[i - 1]) (fun x => !decide (x.key = ei.key)) hprev ?_
            simp only [Bool.not_eq_true', decide_eq_false_iff_not]
            exact bLt_ne (bLt_trans hpeb hgt)
          have hfd : findDown d.entries (d.entries.length - 1) (endOkP (.included eB)) =
              some (i - 1, d.entries[i - 1]) := by
            refine findDown_unique hprev ?_ (by omega) (by omega) ?_
            · simp only [endOkP]
              rw [endOk_included_iff]
              exact bLt_asymm hpeb
            · intro m e2 h1 h2 hme
              simp only [endOkP]
              rw [Bool.eq_false_iff, Ne, endOk_included_iff, Decidable.not_not]
              have hm : i ≤ m := by omega
              exact bLt_of_lt_of_not_lt hgt
                (sorted_le_of_getElem? hnd.sortedKeys hie hme hm)
          rw [hfd] at hf
          injection hf with hp
          injection hp with h1 h2
          subst h1
          subst h2
          simp [move_on_range_end, RoCursor.move_on_key_greater_than_or_equal_to,
            RoCursor.move_on_prev, mdb_cursor_get, EngineOps.opSetRange,
            EngineOps.opPrevNoDup, hsr, hie, hi0, hfds, convGet, hkey]
    | none =>
      -- every key is below the included end: step back from past-the-end
      have hnlt := findFrom_none hsr
      have hulen : u < d.entries.length := len_pos_of_getElem? hu
      have hlast : d.entries[d.entries.length - 1]? =
          some (d.entries[d.entries.length - 1]) :=
        List.getElem?_eq_getElem (by omega)
      have hoplast : findDown d.entries (d.entries.length - 1) (fun _ => true) =
          some (d.entries.length - 1, d.entries[d.entries.length - 1]) :=
        @findDown_self d.entries (d.entries.length - 1) _ (fun _ => true) hlast rfl
      have hfd : findDown d.entries (d.entries.length - 1) (endOkP (.included eB)) =
          some (d.entries.length - 1, d.entries[d.entries.length - 1]) := by
        refine findDown_unique hlast ?_ (by omega) (by omega) ?_
        · simp only [endOkP]
          rw [endOk_included_iff]
          have := hnlt (d.entries.length - 1)
            (d.entries[d.entries.length - 1]) (Nat.zero_le _) hlast
          simp only [Bool.not_eq_false', ordBeq_true_iff] at this
          exact bLt_asymm this
        · intro m e2 h1 h2 hme
          omega
      rw [hfd] at hf
      injection hf with hp
      injection hp with h1 h2
      subst h1
      subst h2
      simp [move_on_range_end, RoCursor.move_on_key_greater_than_or_equal_to,
        RoCursor.move_on_prev, mdb_cursor_get, EngineOps.opSetRange,
        EngineOps.opPrevNoDup, EngineOps.opLast, hsr, hoplast, convGet, MDB_NOTFOUND]
  | excluded eB =>
    have hlt : bLt e.key eB := by
      have := hpe
      simp only [endOkP] at this
      exact endOk_excluded_iff.mp this
    cases hsr : findFrom d.entries 0 (fun x => !(cmpB x.key eB == Ordering.lt)) with
    | some ie =>
      obtain ⟨i, ei⟩ := ie
      obtain ⟨-, hie, hges, hminge⟩ := findFrom_found hsr
      have hgei : ¬ bLt ei.key eB := by
        have := hges
        simp only [Bool.not_eq_true', ordBeq_false_iff] at this
        exact this
      have hilen : i < d.entries.length := len_pos_of_getElem? hie
      by_cases hi0 : i = 0
      · exfalso
        subst hi0
        have hsle : ¬ bLt e.key ei.key :=
          sorted_le_of_getElem? hnd.sortedKeys hie hu (Nat.zero_le u)
        exact hgei (bLt_of_not_lt_of_lt hsle hlt)
      · have hplen : i - 1 < d.entries.length := by omega
        have hprev : d.entries[i - 1]? = some (d.entries[i - 1]) :=
          List.getElem?_eq_getElem hplen
        have hpeb : bLt (d.entries[i - 1]).key eB := by
          obtain ⟨e2, he2, hpe2⟩ := hminge (i - 1) (Nat.zero_le _) (by omega)
          rw [hprev] at he2
          cases Option.some.inj he2
          simp only [Bool.not_eq_false', ordBeq_true_iff] at hpe2
          exact hpe2
        have hfds : findDown d.entries (i - 1) (fun x => !decide (x.key = ei.key)) =
            some (i - 1, d.entries[i - 1]) := by
          refine @findDown_self d.entries (i - 1)
            (d.entries[i - 1]) (fun x => !decide (x.key = ei.key)) hprev ?_
          simp only [Bool.not_eq_true', decide_eq_false_iff_not]
          exact bLt_ne (bLt_of_lt_of_not_lt hpeb hgei)
        have hfd : findDown d.entries (d.entries.length - 1) (endOkP (.excluded eB)) =
            some (i - 1, d.entries[i - 1]) := by
          refine findDown_unique hprev ?_ (by omega) (by omega) ?_
          · simp only [endOkP]
            rw [endOk_excluded_iff]
            exact hpeb
          · intro m e2 h1 h2 hme
            simp only [endOkP]
            rw [Bool.eq_false_iff, Ne, endOk_excluded_iff]
            have hm : i ≤ m := by omega
            intro hc
            exact hgei (bLt_of_not_lt_of_lt
              (sorted_le_of_getElem? hnd.sortedKeys hie hme hm) hc)
        rw [hfd] at hf
        injection hf with hp
        injection hp with h1 h2
        subst h1
        subst h2
        simp [move_on_range_end, RoCursor.move_on_key_greater_than_or_equal_to,
          RoCursor.move_on_prev, mdb_cursor_get, EngineOps.opSetRange,
          EngineOps.opPrevNoDup, hsr, hie, hi0, hfds, convGet]
    | none =>
      have hnlt := findFrom_none hsr
      have hulen : u < d.entries.length := len_pos_of_getElem? hu
      have hlast : d.entries[d.entries.length - 1]? =
          some (d.entries[d.entries.length - 1]) :=
        List.getElem?_eq_getElem (by omega)
      have hoplast : findDown d.entries (d.entries.length - 1) (fun _ => true) =
          some (d.entries.length - 1, d.entries[d.entries.length - 1]) :=
        @findDown_self d.entries (d.entries.length - 1) _ (fun _ => true) hlast rfl
      have hfd : findDown d.entries (d.entries.length - 1) (endOkP (.excluded eB)) =
          some (d.entries.length - 1, d.entries[d.entries.length - 1]) := by
        refine findDown_unique hlast ?_ (by omega) (by omega) ?_
        · simp only [endOkP]
          rw [endOk_excluded_iff]
          have := hnlt (d.entries.length - 1)
            (d.entries[d.entries.length - 1]) (Nat.zero_le _) hlast
          simp only [Bool.not_eq_false', ordBeq_true_iff] at this
          exact this
        · intro m e2 h1 h2 hme
          omega
      rw [hfd] at hf
      injection hf with hp
      injection hp with h1 h2
      subst h1
      subst h2
      simp [move_on_range_end, RoCursor.move_on_key_greater_than_or_equal_to,
        RoCursor.move_on_prev, mdb_cursor_get, EngineOps.opSetRange,
        EngineOps.opPrevNoDup, EngineOps.opLast, hsr, hoplast, convGet, MDB_NOTFOUND]

theorem findDown_start_none {es : List Entry} {i : Nat} {p : Entry → Bool}
    (h : es[i]? = none) : findDown es i p = none := by
  unfold findDown
  simp [findDownAux, h]

/-- On a duplicate-free collection, `move_on_range_end` reports the end of the
sequence when no entry satisfies the end bound. -/
theorem range_end_none {d : Db} (_hnd : d.NoDupKeys) {eb : RBound}
    (hf : findDown d.entries (d.entries.length - 1) (endOkP eb) = none)
    (pos : CursorPos) :
    (move_on_range_end ⟨d, pos⟩ eb).1 = .ok none := by
  have hnone : ∀ m e2, m < d.entries.length → d.entries[m]? = some e2 →
      endOkP eb e2 = false := by
    intro m e2 hm hme
    exact findDown_none hf (by omega) m e2 (by omega) hme
  cases eb with
  | unbounded =>
    cases hes : d.entries[d.entries.length - 1]? with
    | some elast =>
      exfalso
      have hsome := @findDown_self d.entries (d.entries.length - 1) elast
        (fun _ => true) hes rfl
      have hf' : findDown d.entries (d.entries.length - 1) (fun _ => true) = none := hf
      rw [hsome] at hf'
      cases hf'
    | none =>
      have hop : findDown d.entries (d.entries.length - 1) (fun _ => true) = none :=
        findDown_start_none hes
      simp [move_on_range_end, RoCursor.move_on_last, mdb_cursor_get,
        EngineOps.opLast, hop, convGet, MDB_NOTFOUND]
  | included eB =>
    cases hsr : findFrom d.entries 0 (fun x => !(cmpB x.key eB == Ordering.lt)) with
    | some ie =>
      obtain ⟨i, ei⟩ := ie
      obtain ⟨-, hie, hges, hminge⟩ := findFrom_found hsr
      have hgei : ¬ bLt ei.key eB := by
        have := hges
        simp only [Bool.not_eq_true', ordBeq_false_iff] at this
        exact this
      have hilen : i < d.entries.length := len_pos_of_getElem? hie
      by_cases hkey : ei.key = eB
      · exfalso
        have := hnone i ei hilen hie
        simp only [endOkP] at this
        rw [Bool.eq_false_iff, Ne, endOk_included_iff, Decidable.not_not] at this
        rw [hkey] at this
        exact bLt_irrefl eB this
      · by_cases hi0 : i = 0
        · subst hi0
          simp [move_on_range_end, RoCursor.move_on_key_greater_than_or_equal_to,
            RoCursor.move_on_prev, mdb_cursor_get, EngineOps.opSetRange,
            EngineOps.opPrevNoDup, hsr, hie, convGet, hkey, MDB_NOTFOUND]
        · exfalso
          have hplen : i - 1 < d.entries.length := by omega
          have hprev : d.entries[i - 1]? = some (d.entries[i - 1]) :=
            List.getElem?_eq_getElem hplen
          have hpeb : bLt (d.entries[i - 1]).key eB := by
            obtain ⟨e2, he2, hpe2⟩ := hminge (i - 1) (Nat.zero_le _) (by omega)
            rw [hprev] at he2
            cases Option.some.inj he2
            simp only [Bool.not_eq_false', ordBeq_true_iff] at hpe2
            exact hpe2
          have := hnone (i - 1) _ hplen hprev
          simp only [endOkP] at this
          rw [Bool.eq_false_iff, Ne, endOk_included_iff, Decidable.not_not] at this
          exact bLt_asymm hpeb this
    | none =>
      cases hlast : d.entries[d.entries.length - 1]? with
      | some elast =>
        exfalso
        have hlb : bLt elast.key eB := by
          have := findFrom_none hsr (d.entries.length - 1) elast (Nat.zero_le _) hlast
          simp only [Bool.not_eq_false', ordBeq_true_iff] at this
          exact this
        have := hnone (d.entries.length - 1) elast (len_pos_of_getElem? hlast) hlast
        simp only [endOkP] at this
        rw [Bool.eq_false_iff, Ne, endOk_included_iff, Decidable.not_not] at this
        exact bLt_asymm hlb this
      | none =>
        have hop : findDown d.entries (d.entries.length - 1) (fun _ => true) = none :=
          findDown_start_none hlast
        simp [move_on_range_end, RoCursor.move_on_key_greater_than_or_equal_to,
          RoCursor.move_on_prev, mdb_cursor_get, EngineOps.opSetRange,
          EngineOps.opPrevNoDup, EngineOps.opLast, hsr, hop, convGet, MDB_NOTFOUND]
  | excluded eB =>
    cases hsr : findFrom d.entries 0 (fun x => !(cmpB x.key eB == Ordering.lt)) with
    | some ie =>
      obtain ⟨i, ei⟩ := ie
      obtain ⟨-, hie, hges, hminge⟩ := findFrom_found hsr
      have hilen : i < d.entries.length := len_pos_of_getElem? hie
      by_cases hi0 : i = 0
      · subst hi0
        simp [move_on_range_end, RoCursor.move_on_key_greater_than_or_equal_to,
          RoCursor.move_on_prev, mdb_cursor_get, EngineOps.opSetRange,
          EngineOps.opPrevNoDup, hsr, hie, convGet, MDB_NOTFOUND]
      · exfalso
        have hplen : i - 1 < d.entries.length := by omega
        have hprev : d.entries[i - 1]? = some (d.entries[i - 1]) :=
          List.getElem?_eq_getElem hplen
        have hpeb : bLt (d.entries[i - 1]).key eB := by
          obtain ⟨e2, he2, hpe2⟩ := hminge (i - 1) (Nat.zero_le _) (by omega)
          rw [hprev] at he2
          cases Option.some.inj he2
          simp only [Bool.not_eq_false', ordBeq_true_iff] at hpe2
          exact hpe2
        have := hnone (i - 1) _ hplen hprev
        simp only [endOkP] at this
        rw [Bool.eq_false_iff, Ne, endOk_excluded_iff] at this
        exact this hpeb
    | none =>
      cases hlast : d.entries[d.entries.length - 1]? with
      | some elast =>
        exfalso
        have hlb : bLt elast.key eB := by
          have := findFrom_none hsr (d.entries.length - 1) elast (Nat.zero_le _) hlast
          simp only [Bool.not_eq_false', ordBeq_true_iff] at this
          exact this
        have := hnone (d.entries.length - 1) elast (len_pos_of_getElem? hlast) hlast
        simp only [endOkP] at this
        rw [Bool.eq_false_iff, Ne, endOk_excluded_iff] at this
        exact this hlb
      | none =>
        have hop : findDown d.entries (d.entries.length - 1) (fun _ => true) = none :=
          findDown_start_none hlast
        simp [move_on_range_end, RoCursor.move_on_key_greater_than_or_equal_to,
          RoCursor.move_on_prev, mdb_cursor_get, EngineOps.opSetRange,
          EngineOps.opPrevNoDup, EngineOps.opLast, hsr, hop, convGet, MDB_NOTFOUND]

theorem move_on_first_entry {d : Db} (pos : CursorPos) {e : Entry}
    (h : d.entries[0]? = some e) {op : MoveOperation} (hop : op ≠ .Dup) :
    RoCursor.move_on_first ⟨d, pos⟩ op = (.ok (some e), ⟨d, .posAt 0⟩) := by
  have hff : findFrom d.entries 0 (fun _ => true) = some (0, e) :=
    @findFrom_self d.entries 0 e (fun _ => true) h rfl
  cases op with
  | Dup => exact absurd rfl hop
  | Any => simp [RoCursor.move_on_first, mdb_cursor_get, EngineOps.opFirst, hff, convGet]
  | NoDup => simp [RoCursor.move_on_first, mdb_cursor_get, EngineOps.opFirst, hff, convGet]

theorem move_on_first_empty {d : Db} (pos : CursorPos)
    (h : d.entries[0]? = none) {op : MoveOperation} (hop : op ≠ .Dup) :
    RoCursor.move_on_first ⟨d, pos⟩ op = (.ok none, ⟨d, pos⟩) := by
  have hlen : d.entries.length ≤ 0 := by
    by_contra hc
    push_neg at hc
    rw [List.getElem?_eq_getElem hc] at h
    cases h
  have hff : findFrom d.entries 0 (fun _ => true) = none := findFrom_out hlen
  cases op with
  | Dup => exact absurd rfl hop
  | Any =>
    simp [RoCursor.move_on_first, mdb_cursor_get, EngineOps.opFirst, hff, convGet, MDB_NOTFOUND]
  | NoDup =>
    simp [RoCursor.move_on_first, mdb_cursor_get, EngineOps.opFirst, hff, convGet, MDB_NOTFOUND]

theorem move_on_last_entry {d : Db} (pos : CursorPos) {e : Entry}
    (h : d.entries[d.entries.length - 1]? = some e) {op : MoveOperation} (hop : op ≠ .Dup) :
    RoCursor.move_on_last ⟨d, pos⟩ op = (.ok (some e), ⟨d, .posAt (d.entries.length - 1)⟩) := by
  have hff : findDown d.entries (d.entries.length - 1) (fun _ => true) =
      some (d.entries.length - 1, e) :=
    @findDown_self d.entries (d.entries.length - 1) e (fun _ => true) h rfl
  cases op with
  | Dup => exact absurd rfl hop
  | Any => simp [RoCursor.move_on_last, mdb_cursor_get, EngineOps.opLast, hff, convGet]
  | NoDup => simp [RoCursor.move_on_last, mdb_cursor_get, EngineOps.opLast, hff, convGet]

theorem move_on_last_empty {d : Db} (pos : CursorPos)
    (h : d.entries[d.entries.length - 1]? = none) {op : MoveOperation} (hop : op ≠ .Dup) :
    RoCursor.move_on_last ⟨d, pos⟩ op = (.ok none, ⟨d, pos⟩) := by
  have hff : findDown d.entries (d.entries.length - 1) (fun _ => true) = none :=
    findDown_start_none h
  cases op with
  | Dup => exact absurd rfl hop
  | Any =>
    simp [RoCursor.move_on_last, mdb_cursor_get, EngineOps.opLast, hff, convGet, MDB_NOTFOUND]
  | NoDup =>
    simp [RoCursor.move_on_last, mdb_cursor_get, EngineOps.opLast, hff, convGet, MDB_NOTFOUND]

theorem im_move_ne_dup (im : IterationMethod) : im.MOVE_OPERATION ≠ .Dup := by
  cases im <;> simp [IterationMethod.MOVE_OPERATION]

/-! ## Drain characterizations on a duplicate-free collection -/

/-- A started forward iterator drains the remaining suffix of the collection. -/
theorem iterDrain_started {d : Db} (hnd : d.NoDupKeys) (im : IterationMethod) :
    ∀ fuel i cur, d.entries[i]? = some cur → d.entries.length - i ≤ fuel →
    RoIter.drain im fuel ⟨⟨d, .posAt i⟩, false⟩ =
      (d.entries.drop (i + 1)).map .ok := by
  intro fuel
  induction fuel with
  | zero =>
    intro i cur hi hfuel
    have := len_pos_of_getElem? hi
    omega
  | succ fuel ih =>
    intro i cur hi hfuel
    cases hnext : d.entries[i + 1]? with
    | some e =>
      have hstep := move_on_next_at_some hnd hi hnext (im_move_ne_dup im)
      have hl : i + 1 < d.entries.length := len_pos_of_getElem? hnext
      have hdrop : d.entries.drop (i + 1) = e :: d.entries.drop (i + 2) := by
        rw [List.drop_eq_getElem_cons hl, getElem_of_getElem? hnext hl]
      rw [hdrop]
      simp only [RoIter.drain, RoIter.next, if_false, Bool.false_eq_true, ite_false, hstep,
        List.map_cons]
      exact congrArg (List.cons (.ok e)) (ih (i + 1) e hnext (by omega))
    | none =>
      have hstep := move_on_next_at_end hi hnext (im_move_ne_dup im)
      have hlen : d.entries.length ≤ i + 1 := by
        by_contra hc
        push_neg at hc
        rw [List.getElem?_eq_getElem hc] at hnext
        cases hnext
      rw [List.drop_eq_nil_of_le hlen]
      simp only [RoIter.drain, RoIter.next, if_false, Bool.false_eq_true, ite_false, hstep,
        List.map_nil]

/-- A fresh forward iterator drains the whole collection in storage order. -/
theorem iterDrain_fresh {d : Db} (hnd : d.NoDupKeys) (im : IterationMethod) :
    RoIter.drain im (fullFuel d) (RoIter.fresh d) = d.entries.map .ok := by
  unfold fullFuel RoIter.fresh freshCursor
  cases h0 : d.entries[0]? with
  | some e0 =>
    have hstep := move_on_first_entry (d := d) .unset h0 (im_move_ne_dup im)
    have hl : 0 < d.entries.length := len_pos_of_getElem? h0
    have hdecomp : d.entries.map (Except.ok (ε := Error)) =
        .ok e0 :: (d.entries.drop 1).map .ok := by
      conv =>
        lhs
        rw [show d.entries = d.entries.drop 0 from rfl, List.drop_eq_getElem_cons hl]
      rw [getElem_of_getElem? h0 hl]
      simp
    rw [hdecomp]
    simp only [RoIter.drain, RoIter.next, if_true, hstep]
    exact congrArg (List.cons (.ok e0)) (iterDrain_started hnd im d.entries.length 0 e0 h0 (by omega))
  | none =>
    have hstep := move_on_first_empty (d := d) .unset h0 (im_move_ne_dup im)
    have hlen : d.entries.length ≤ 0 := by
      by_contra hc
      push_neg at hc
      rw [List.getElem?_eq_getElem hc] at h0
      cases h0
    rw [show d.entries = [] from List.eq_nil_of_length_eq_zero (by omega)]
    simp only [RoIter.drain, RoIter.next, if_true, hstep, List.map_nil]

theorem take_reverse_succ {es : List Entry} {j : Nat} (hj : j < es.length) :
    (es.take (j + 1)).reverse = es[j] :: (es.take j).reverse := by
  rw [List.take_succ, List.getElem?_eq_getElem hj]
  simp

/-- A started reverse iterator drains the preceding entries backwards. -/
theorem revIterDrain_started {d : Db} (hnd : d.NoDupKeys) (im : IterationMethod) :
    ∀ fuel i cur, d.entries[i]? = some cur → i + 1 ≤ fuel →
    RoRevIter.drain im fuel ⟨⟨d, .posAt i⟩, false⟩ =
      ((d.entries.take i).reverse).map .ok := by
  intro fuel
  induction fuel with
  | zero =>
    intro i cur hi hfuel
    omega
  | succ fuel ih =>
    intro i cur hi hfuel
    cases i with
    | zero =>
      have hstep := move_on_prev_at_zero hi (im_move_ne_dup im)
      simp only [RoRevIter.drain, RoRevIter.next, if_false, Bool.false_eq_true, ite_false,
        hstep, List.take_zero, List.reverse_nil, List.map_nil]
    | succ j =>
      have hjl : j < d.entries.length := by
        have := len_pos_of_getElem? hi
        omega
      have hprev : d.entries[j]? = some (d.entries[j]) := List.getElem?_eq_getElem hjl
      have hstep := move_on_prev_at_succ hnd hi hprev (im_move_ne_dup im)
      rw [take_reverse_succ hjl]
      simp only [RoRevIter.drain, RoRevIter.next, if_false, Bool.false_eq_true, ite_false,
        hstep, List.map_cons]
      exact congrArg (List.cons (.ok _)) (ih j _ hprev (by omega))

/-- A fresh reverse iterator drains the whole collection in reverse order. -/
theorem revIterDrain_fresh {d : Db} (hnd : d.NoDupKeys) (im : IterationMethod) :
    RoRevIter.drain im (fullFuel d) (RoRevIter.fresh d) = (d.entries.reverse).map .ok := by
  unfold fullFuel RoRevIter.fresh freshCursor
  cases hlast : d.entries[d.entries.length - 1]? with
  | some el =>
    have hstep := move_on_last_entry (d := d) .unset hlast (im_move_ne_dup im)
    have hl : d.entries.length - 1 < d.entries.length := len_pos_of_getElem? hlast
    have hpos : 0 < d.entries.length := by omega
    have hrev : d.entries.reverse = el :: (d.entries.take (d.entries.length - 1)).reverse := by
      have h1 : d.entries.take ((d.entries.length - 1) + 1) = d.entries := by
        rw [show (d.entries.length - 1) + 1 = d.entries.length from by omega]
        exact List.take_length d.entries
      calc d.entries.reverse = (d.entries.take ((d.entries.length - 1) + 1)).reverse := by
            rw [h1]
        _ = el :: (d.entries.take (d.entries.length - 1)).reverse := by
            rw [take_reverse_succ hl, getElem_of_getElem? hlast hl]
    rw [hrev]
    simp only [RoRevIter.drain, RoRevIter.next, if_true, hstep, List.map_cons]
    exact congrArg (List.cons (.ok el))
      (revIterDrain_started hnd im d.entries.length (d.entries.length - 1) _ hlast (by omega))
  | none =>
    have hstep := move_on_last_empty (d := d) .unset hlast (im_move_ne_dup im)
    have : d.entries = [] := by
      by_contra hc
      have hl : d.entries.length - 1 < d.entries.length := by
        have := List.length_pos.mpr hc
        omega
      rw [List.getElem?_eq_getElem hl] at hlast
      cases hlast
    rw [this]
    simp only [RoRevIter.drain, RoRevIter.next, if_true, hstep, List.reverse_nil, List.map_nil]

/-- A started range iterator drains the remaining suffix up to the end bound. -/
theorem rangeDrain_started {d : Db} (hnd : d.NoDupKeys) (im : IterationMethod)
    {sb eb : RBound} :
    ∀ fuel i cur, d.entries[i]? = some cur → d.entries.length - i ≤ fuel →
    RoRange.drain im fuel ⟨⟨d, .posAt i⟩, false, sb, eb⟩ =
      ((d.entries.drop (i + 1)).takeWhile (endOkP eb)).map .ok := by
  intro fuel
  induction fuel with
  | zero =>
    intro i cur hi hfuel
    have := len_pos_of_getElem? hi
    omega
  | succ fuel ih =>
    intro i cur hi hfuel
    cases hnext : d.entries[i + 1]? with
    | some e =>
      have hstep := move_on_next_at_some hnd hi hnext (im_move_ne_dup im)
      have hl : i + 1 < d.entries.length := len_pos_of_getElem? hnext
      have hdrop : d.entries.drop (i + 1) = e :: d.entries.drop (i + 2) := by
        rw [List.drop_eq_getElem_cons hl, getElem_of_getElem? hnext hl]
      rw [hdrop, List.takeWhile_cons]
      by_cases hok : endOkP eb e = true
      · rw [if_pos hok]
        have hok' : endOk eb e.key = true := hok
        simp only [RoRange.drain, RoRange.next, if_false, Bool.false_eq_true, ite_false,
          hstep, hok', List.map_cons, if_true]
        exact congrArg (List.cons (.ok e)) (ih (i + 1) e hnext (by omega))
      · rw [if_neg hok]
        have hok' : endOk eb e.key = false := by
          rw [Bool.eq_false_iff]
          exact hok
        simp only [RoRange.drain, RoRange.next, if_false, Bool.false_eq_true, ite_false,
          hstep, hok', List.map_nil]
    | none =>
      have hstep := move_on_next_at_end hi hnext (im_move_ne_dup im)
      have hlen : d.entries.length ≤ i + 1 := by
        by_contra hc
        push_neg at hc
        rw [List.getElem?_eq_getElem hc] at hnext
        cases hnext
      rw [List.drop_eq_nil_of_le hlen]
      simp only [RoRange.drain, RoRange.next, if_false, Bool.false_eq_true, ite_false,
        hstep, List.takeWhile_nil, List.map_nil]

/-- A fresh range iterator drains the block between its bounds. -/
theorem rangeDrain_fresh {d : Db} (hnd : d.NoDupKeys) (im : IterationMethod)
    {sb eb : RBound} :
    RoRange.drain im (fullFuel d) (RoRange.fresh d sb eb) =
      (match findFrom d.entries 0 (startOkP sb) with
       | some (l, _) => ((d.entries.drop l).takeWhile (endOkP eb)).map .ok
       | none => []) := by
  unfold fullFuel RoRange.fresh freshCursor
  cases hl : findFrom d.entries 0 (startOkP sb) with
  | some le =>
    obtain ⟨l, e⟩ := le
    dsimp only
    obtain ⟨-, hle, -, -⟩ := findFrom_found hl
    have hstep := range_start_found hnd.sortedKeys hl CursorPos.unset
    have hll : l < d.entries.length := len_pos_of_getElem? hle
    have hdrop : d.entries.drop l = e :: d.entries.drop (l + 1) := by
      rw [List.drop_eq_getElem_cons hll, getElem_of_getElem? hle hll]
    rw [hdrop, List.takeWhile_cons]
    by_cases hok : endOkP eb e = true
    · rw [if_pos hok]
      have hok' : endOk eb e.key = true := hok
      simp only [RoRange.drain, RoRange.next, if_true, hstep, hok', List.map_cons]
      exact congrArg (List.cons (.ok e))
        (rangeDrain_started hnd im d.entries.length l e hle (by omega))
    · rw [if_neg hok]
      have hok' : endOk eb e.key = false := by
        rw [Bool.eq_false_iff]
        exact hok
      simp only [RoRange.drain, RoRange.next, if_true, hstep, hok', Bool.false_eq_true,
        ite_false, List.map_nil]
  | none =>
    cases hrc : move_on_range_start (⟨d, .unset⟩ : RoCursor) sb with
    | mk r1 c2 =>
      have h1 : r1 = .ok none := by
        have := range_start_none hnd.sortedKeys hl CursorPos.unset
        rw [hrc] at this
        exact this
      subst h1
      simp only [RoRange.drain, RoRange.next, if_true, hrc]

/-- A started reverse range iterator drains backwards down to the start bound. -/
theorem revRangeDrain_started {d : Db} (hnd : d.NoDupKeys) (im : IterationMethod)
    {sb eb : RBound} :
    ∀ fuel i cur, d.entries[i]? = some cur → i + 1 ≤ fuel →
    RoRevRange.drain im fuel ⟨⟨d, .posAt i⟩, false, sb, eb⟩ =
      (((d.entries.take i).reverse).takeWhile (startOkP sb)).map .ok := by
  intro fuel
  induction fuel with
  | zero =>
    intro i cur hi hfuel
    omega
  | succ fuel ih =>
    intro i cur hi hfuel
    cases i with
    | zero =>
      have hstep := move_on_prev_at_zero hi (im_move_ne_dup im)
      simp only [RoRevRange.drain, RoRevRange.next, if_false, Bool.false_eq_true, ite_false,
        hstep, List.take_zero, List.reverse_nil, List.takeWhile_nil, List.map_nil]
    | succ j =>
      have hjl : j < d.entries.length := by
        have := len_pos_of_getElem? hi
        omega
      have hprev : d.entries[j]? = some (d.entries[j]) := List.getElem?_eq_getElem hjl
      have hstep := move_on_prev_at_succ hnd hi hprev (im_move_ne_dup im)
      rw [take_reverse_succ hjl, List.takeWhile_cons]
      by_cases hok : startOkP sb (d.entries[j]) = true
      · rw [if_pos hok]
        have hok' : startOk sb (d.entries[j]).key = true := hok
        simp only [RoRevRange.drain, RoRevRange.next, if_false, Bool.false_eq_true, ite_false,
          hstep, hok', List.map_cons, if_true]
        exact congrArg (List.cons (.ok _)) (ih j _ hprev (by omega))
      · rw [if_neg hok]
        have hok' : startOk sb (d.entries[j]).key = false := by
          rw [Bool.eq_false_iff]
          exact hok
        simp only [RoRevRange.drain, RoRevRange.next, if_false, Bool.false_eq_true, ite_false,
          hstep, hok', List.map_nil]

/-- A fresh reverse range iterator starts at the resolved end bound and drains
backwards down to the start bound. -/
theorem revRangeDrain_fresh {d : Db} (hnd : d.NoDupKeys) (im : IterationMethod)
    {sb eb : RBound} :
    RoRevRange.drain im (fullFuel d) (RoRevRange.fresh d sb eb) =
      (match findDown d.entries (d.entries.length - 1) (endOkP eb) with
       | some (u, e) =>
         if startOkP sb e = true then
           .ok e :: (((d.entries.take u).reverse).takeWhile (startOkP sb)).map .ok
         else []
       | none => []) := by
  unfold fullFuel RoRevRange.fresh freshCursor
  cases hu : findDown d.entries (d.entries.length - 1) (endOkP eb) with
  | some ue =>
    obtain ⟨u, e⟩ := ue
    dsimp only
    obtain ⟨-, hue, -, -⟩ := findDown_found hu
    have hstep := range_end_found hnd hu CursorPos.unset
    by_cases hok : startOkP sb e = true
    · rw [if_pos hok]
      have hok' : startOk sb e.key = true := hok
      simp only [RoRevRange.drain, RoRevRange.next, if_true, hstep, hok']
      exact congrArg (List.cons (.ok e))
        (revRangeDrain_started hnd im d.entries.length u e hue
          (by have := len_pos_of_getElem? hue; omega))
    · rw [if_neg hok]
      have hok' : startOk sb e.key = false := by
        rw [Bool.eq_false_iff]
        exact hok
      simp only [RoRevRange.drain, RoRevRange.next, if_true, hstep, hok',
        Bool.false_eq_true, ite_false]
  | none =>
    cases hrc : move_on_range_end (⟨d, .unset⟩ : RoCursor) eb with
    | mk r1 c2 =>
      have h1 : r1 = .ok none := by
        have := range_end_none hnd hu CursorPos.unset
        rw [hrc] at this
        exact this
      subst h1
      simp only [RoRevRange.drain, RoRevRange.next, if_true, hrc]

def pfxP (p : Bytes) : Entry → Bool := fun e => p.isPrefixOf e.key

/-- A started prefix iterator drains the remaining entries while they carry
the prefix. -/
theorem pfxDrain_started {d : Db} (hnd : d.NoDupKeys) (im : IterationMethod) {p : Bytes} :
    ∀ fuel i cur, d.entries[i]? = some cur → d.entries.length - i ≤ fuel →
    RoPfx.drain im fuel ⟨⟨d, .posAt i⟩, p, false⟩ =
      ((d.entries.drop (i + 1)).takeWhile (pfxP p)).map .ok := by
  intro fuel
  induction fuel with
  | zero =>
    intro i cur hi hfuel
    have := len_pos_of_getElem? hi
    omega
  | succ fuel ih =>
    intro i cur hi hfuel
    cases hnext : d.entries[i + 1]? with
    | some e =>
      have hstep := move_on_next_at_some hnd hi hnext (im_move_ne_dup im)
      have hl : i + 1 < d.entries.length := len_pos_of_getElem? hnext
      have hdrop : d.entries.drop (i + 1) = e :: d.entries.drop (i + 2) := by
        rw [List.drop_eq_getElem_cons hl, getElem_of_getElem? hnext hl]
      rw [hdrop, List.takeWhile_cons]
      by_cases hok : pfxP p e = true
      · rw [if_pos hok]
        have hok' : p.isPrefixOf e.key = true := hok
        simp only [RoPfx.drain, RoPfx.next, if_false, Bool.false_eq_true, ite_false,
          hstep, hok', List.map_cons, if_true]
        exact congrArg (List.cons (.ok e)) (ih (i + 1) e hnext (by omega))
      · rw [if_neg hok]
        have hok' : p.isPrefixOf e.key = false := by
          rw [Bool.eq_false_iff]
          exact hok
        simp only [RoPfx.drain, RoPfx.next, if_false, Bool.false_eq_true, ite_false,
          hstep, hok', List.map_nil]
    | none =>
      have hstep := move_on_next_at_end hi hnext (im_move_ne_dup im)
      have hlen : d.entries.length ≤ i + 1 := by
        by_contra hc
        push_neg at hc
        rw [List.getElem?_eq_getElem hc] at hnext
        cases hnext
      rw [List.drop_eq_nil_of_le hlen]
      simp only [RoPfx.drain, RoPfx.next, if_false, Bool.false_eq_true, ite_false,
        hstep, List.takeWhile_nil, List.map_nil]

/-- A fresh prefix iterator seeks to the first key at or above the prefix and
drains while keys carry the prefix. -/
theorem pfxDrain_fresh {d : Db} (hnd : d.NoDupKeys) (im : IterationMethod) {p : Bytes} :
    RoPfx.drain im (fullFuel d) (RoPfx.fresh d p) =
      (match findFrom d.entries 0 (fun x => !(cmpB x.key p == .lt)) with
       | some (l, _) => ((d.entries.drop l).takeWhile (pfxP p)).map .ok
       | none => []) := by
  unfold fullFuel RoPfx.fresh freshCursor
  cases hl : findFrom d.entries 0 (fun x => !(cmpB x.key p == .lt)) with
  | some le =>
    obtain ⟨l, e⟩ := le
    dsimp only
    obtain ⟨-, hle, -, -⟩ := findFrom_found hl
    have hstep : RoCursor.move_on_key_greater_than_or_equal_to ⟨d, .unset⟩ p =
        (.ok (some e), ⟨d, .posAt l⟩) := by
      simp [RoCursor.move_on_key_greater_than_or_equal_to, mdb_cursor_get,
        EngineOps.opSetRange, hl, convGet]
    have hll : l < d.entries.length := len_pos_of_getElem? hle
    have hdrop : d.entries.drop l = e :: d.entries.drop (l + 1) := by
      rw [List.drop_eq_getElem_cons hll, getElem_of_getElem? hle hll]
    rw [hdrop, List.takeWhile_cons]
    by_cases hok : pfxP p e = true
    · rw [if_pos hok]
      have hok' : p.isPrefixOf e.key = true := hok
      simp only [RoPfx.drain, RoPfx.next, if_true, hstep, hok', List.map_cons]
      exact congrArg (List.cons (.ok e))
        (pfxDrain_started hnd im d.entries.length l e hle (by omega))
    · rw [if_neg hok]
      have hok' : p.isPrefixOf e.key = false := by
        rw [Bool.eq_false_iff]
        exact hok
      simp only [RoPfx.drain, RoPfx.next, if_true, hstep, hok', Bool.false_eq_true,
        ite_false, List.map_nil]
  | none =>
    have hstep : RoCursor.move_on_key_greater_than_or_equal_to ⟨d, .unset⟩ p =
        (.ok none, ⟨d, .eof⟩) := by
      simp [RoCursor.move_on_key_greater_than_or_equal_to, mdb_cursor_get,
        EngineOps.opSetRange, hl, convGet, MDB_NOTFOUND]
    simp only [RoPfx.drain, RoPfx.next, if_true, hstep]

/-! ## Segment algebra: takeWhile under a threshold predicate -/

theorem takeWhile_eq_take {p : Entry → Bool} :
    ∀ (xs : List Entry) (m : Nat),
    (∀ j (hj : j < xs.length), p (xs[j]) = true ↔ j < m) →
    xs.takeWhile p = xs.take m := by
  intro xs
  induction xs with
  | nil => intro m _; simp
  | cons x xs ih =>
    intro m hx
    have h0 := hx 0 (Nat.succ_pos _)
    cases m with
    | zero =>
      have : p x = false := by
        rw [Bool.eq_false_iff]
        intro hc
        have := h0.mp hc
        omega
      simp [List.takeWhile_cons, this]
    | succ m' =>
      have hpx : p x = true := h0.mpr (Nat.succ_pos m')
      rw [List.takeWhile_cons, if_pos hpx, List.take_succ_cons]
      refine congrArg (List.cons x) (ih m' ?_)
      intro j hj
      have := hx (j + 1) (by simpa using Nat.succ_lt_succ hj)
      simpa [Nat.succ_lt_succ_iff] using this

theorem seg_reverse {es : List Entry} {l u : Nat} (hlu : l ≤ u) (hu : u < es.length) :
    ((es.drop l).take (u + 1 - l)).reverse =
      es[u] :: ((es.take u).reverse.take (u - l)) := by
  have h1 : (es.drop l).take (u + 1 - l) = (es.take (u + 1)).drop l := by
    rw [List.drop_take]
  have h2 : es.take (u + 1) = es.take u ++ [es[u]] := by
    rw [List.take_succ, List.getElem?_eq_getElem hu]
    rfl
  have hlen : l ≤ (es.take u).length := by
    rw [List.length_take]
    omega
  rw [h1, h2, List.drop_append_of_le_length hlen, List.reverse_append]
  have h3 : ((es.take u).drop l).reverse = (es.take u).reverse.take ((es.take u).length - l) :=
    List.reverse_drop
  rw [h3]
  have h4 : (es.take u).length - l = u - l := by
    rw [List.length_take]
    omega
  rw [h4]
  rfl

/-- Within a sorted collection the start-bound check holds exactly from the
resolved start index on. -/
theorem startOk_index_iff {d : Db} (hs : d.SortedKeys) {sb : RBound} {l : Nat} {eL : Entry}
    (hl : findFrom d.entries 0 (startOkP sb) = some (l, eL)) {j : Nat} {ej : Entry}
    (hj : d.entries[j]? = some ej) : startOkP sb ej = true ↔ l ≤ j := by
  obtain ⟨-, hle, hpeL, hmin⟩ := findFrom_found hl
  constructor
  · intro hok
    by_contra hc
    push_neg at hc
    obtain ⟨e2, he2, hpe2⟩ := hmin j (Nat.zero_le j) hc
    rw [hj] at he2
    cases Option.some.inj he2
    rw [hok] at hpe2
    cases hpe2
  · intro hlj
    have hmono : ¬ bLt ej.key eL.key := sorted_le_of_getElem? hs hle hj hlj
    exact startOk_mono hpeL hmono

/-- Within a sorted collection the end-bound check holds exactly up to the
resolved end index. -/
theorem endOk_index_iff {d : Db} (hs : d.SortedKeys) {eb : RBound} {u : Nat} {eU : Entry}
    (hu : findDown d.entries (d.entries.length - 1) (endOkP eb) = some (u, eU))
    {j : Nat} {ej : Entry}
    (hj : d.entries[j]? = some ej) : endOkP eb ej = true ↔ j ≤ u := by
  obtain ⟨-, hue, hpeU, hmax⟩ := findDown_found hu
  have hjlen : j < d.entries.length := len_pos_of_getElem? hj
  constructor
  · intro hok
    by_contra hc
    push_neg at hc
    obtain ⟨e2, he2, hpe2⟩ := hmax j hc (by omega)
    rw [hj] at he2
    cases Option.some.inj he2
    rw [hok] at hpe2
    cases hpe2
  · intro hju
    have hmono : ¬ bLt eU.key ej.key := sorted_le_of_getElem? hs hj hue hju
    exact endOk_mono hpeU hmono

/-- Reverse range iteration produces the exact reverse of forward range
iteration, on a duplicate-free collection, for any bound combination. -/
theorem revRange_eq_reverse {d : Db} (hnd : d.NoDupKeys) (im : IterationMethod)
    (sb eb : RBound) :
    RoRevRange.drain im (fullFuel d) (RoRevRange.fresh d sb eb) =
      (RoRange.drain im (fullFuel d) (RoRange.fresh d sb eb)).reverse := by
  rw [rangeDrain_fresh hnd im, revRangeDrain_fresh hnd im]
  cases hl : findFrom d.entries 0 (startOkP sb) with
  | none =>
    dsimp only
    cases hu : findDown d.entries (d.entries.length - 1) (endOkP eb) with
    | none => simp
    | some ue =>
      obtain ⟨u, eU⟩ := ue
      dsimp only
      obtain ⟨-, hue, -, -⟩ := findDown_found hu
      have : startOkP sb eU = false :=
        findFrom_none hl u eU (Nat.zero_le u) hue
      rw [this]
      simp
  | some le =>
    obtain ⟨l, eL⟩ := le
    dsimp only
    obtain ⟨-, hle, hpeL, -⟩ := findFrom_found hl
    have hllen : l < d.entries.length := len_pos_of_getElem? hle
    cases hu : findDown d.entries (d.entries.length - 1) (endOkP eb) with
    | none =>
      dsimp only
      have hfail : endOkP eb eL = false :=
        findDown_none hu (by omega) l eL (by omega) hle
      have hdrop : d.entries.drop l = eL :: d.entries.drop (l + 1) := by
        rw [List.drop_eq_getElem_cons hllen, getElem_of_getElem? hle hllen]
      rw [hdrop, List.takeWhile_cons, if_neg (by rw [hfail]; exact Bool.false_ne_true)]
      simp
    | some ue =>
      obtain ⟨u, eU⟩ := ue
      dsimp only
      obtain ⟨-, hue, hpeU, -⟩ := findDown_found hu
      have hulen : u < d.entries.length := len_pos_of_getElem? hue
      by_cases hlu : l ≤ u
      · -- the range is non-empty: both sides are the same segment
        have hguard : startOkP sb eU = true :=
          (startOk_index_iff hnd.sortedKeys hl hue).mpr hlu
        rw [if_pos hguard]
        have hfwd : (d.entries.drop l).takeWhile (endOkP eb) =
            (d.entries.drop l).take (u + 1 - l) := by
          refine takeWhile_eq_take (d.entries.drop l) (u + 1 - l) ?_
          intro j hj
          have hjl : l + j < d.entries.length := by
            rw [List.length_drop] at hj
            omega
          have hjget : (d.entries.drop l)[j] = d.entries[l + j] :=
            List.getElem_drop d.entries
          rw [hjget]
          rw [endOk_index_iff hnd.sortedKeys hu (List.getElem?_eq_getElem hjl)]
          omega
        have hrev : ((d.entries.take u).reverse).takeWhile (startOkP sb) =
            ((d.entries.take u).reverse).take (u - l) := by
          refine takeWhile_eq_take ((d.entries.take u).reverse) (u - l) ?_
          intro j hj
          have hlen2 : (d.entries.take u).length = u := by
            rw [List.length_take]
            omega
          have hjr : j < u := by
            rw [List.length_reverse, hlen2] at hj
            omega
          have hb1 : (d.entries.take u).length - 1 - j < (d.entries.take u).length := by
            rw [hlen2]
            omega
          have hb2 : (d.entries.take u).length - 1 - j < d.entries.length := by
            rw [hlen2]
            omega
          have hb3 : u - 1 - j < d.entries.length := by omega
          have hidx : (d.entries.take u).reverse[j] = d.entries[u - 1 - j] := by
            rw [List.getElem_reverse]
            rw [show (d.entries.take u)[(d.entries.take u).length - 1 - j] =
                d.entries[(d.entries.take u).length - 1 - j] from
              List.getElem_take d.entries]
            congr 1
            rw [hlen2]
          rw [hidx]
          rw [startOk_index_iff hnd.sortedKeys hl
            (List.getElem?_eq_getElem (show u - 1 - j < d.entries.length by omega))]
          omega
        rw [hfwd, hrev]
        rw [← List.map_reverse, seg_reverse hlu hulen, getElem_of_getElem? hue hulen]
        rfl
      · -- empty range: the start lies beyond the end
        push_neg at hlu
        have hguard : startOkP sb eU = false := by
          rw [Bool.eq_false_iff]
          intro hc
          have := (startOk_index_iff hnd.sortedKeys hl hue).mp hc
          omega
        rw [if_neg (by rw [hguard]; exact Bool.false_ne_true)]
        have hfail : endOkP eb eL = false := by
          rw [Bool.eq_false_iff]
          intro hc
          have := (endOk_index_iff hnd.sortedKeys hu hle).mp hc
          omega
        have hdrop : d.entries.drop l = eL :: d.entries.drop (l + 1) := by
          rw [List.drop_eq_getElem_cons hllen, getElem_of_getElem? hle hllen]
        rw [hdrop, List.takeWhile_cons, if_neg (by rw [hfail]; exact Bool.false_ne_true)]
        simp

/-- Reverse plain iteration produces the exact reverse of forward iteration, on
a duplicate-free collection. -/
theorem revIter_eq_reverse {d : Db} (hnd : d.NoDupKeys) (im : IterationMethod) :
    RoRevIter.drain im (fullFuel d) (RoRevIter.fresh d) =
      (RoIter.drain im (fullFuel d) (RoIter.fresh d)).reverse := by
  rw [iterDrain_fresh hnd im, revIterDrain_fresh hnd im, List.map_reverse]

theorem seg_getLast {es : List Entry} {a u : Nat} (hau : a ≤ u) (hu : u < es.length) :
    (((es.drop a).take (u + 1 - a)).map (Except.ok (ε := Error))).getLast? =
      some (.ok (es[u])) := by
  rw [List.getLast?_eq_head?_reverse, ← List.map_reverse, seg_reverse hau hu]
  simp

/-- The end index resolved by `findDown` lies at or above any index whose entry
satisfies the end bound. -/
theorem endIdx_ge {d : Db} {eb : RBound} {u : Nat} {eU : Entry}
    (hu : findDown d.entries (d.entries.length - 1) (endOkP eb) = some (u, eU))
    {i : Nat} {cur : Entry} (hi : d.entries[i]? = some cur)
    (hok : endOkP eb cur = true) : i ≤ u := by
  obtain ⟨-, -, -, hmax⟩ := findDown_found hu
  by_contra hc
  push_neg at hc
  have hilen : i < d.entries.length := len_pos_of_getElem? hi
  obtain ⟨e2, he2, hpe2⟩ := hmax i hc (by omega)
  rw [hi] at he2
  cases Option.some.inj he2
  rw [hok] at hpe2
  cases hpe2

/-- `last()` on a fresh range iterator returns the final element of a full
forward drain, on a duplicate-free collection. -/
theorem rangeLast_fresh {d : Db} (hnd : d.NoDupKeys) (im : IterationMethod)
    (sb eb : RBound) :
    RoRange.last (RoRange.fresh d sb eb) im =
      (RoRange.drain im (fullFuel d) (RoRange.fresh d sb eb)).getLast? := by
  rw [rangeDrain_fresh hnd im]
  cases hu : findDown d.entries (d.entries.length - 1) (endOkP eb) with
  | none =>
    cases hrc : move_on_range_end (⟨d, .unset⟩ : RoCursor) eb with
    | mk r1 c2 =>
      have h1 : r1 = .ok none := by
        have := range_end_none hnd hu CursorPos.unset
        rw [hrc] at this
        exact this
      subst h1
      have hlhs : RoRange.last (RoRange.fresh d sb eb) im = none := by
        simp only [RoRange.last, RoRange.fresh, freshCursor, if_true, hrc]
      rw [hlhs]
      cases hl : findFrom d.entries 0 (startOkP sb) with
      | none => rfl
      | some le =>
        obtain ⟨l, eL⟩ := le
        dsimp only
        obtain ⟨-, hle, -, -⟩ := findFrom_found hl
        have hllen : l < d.entries.length := len_pos_of_getElem? hle
        have hfail : endOkP eb eL = false :=
          findDown_none hu (by omega) l eL (by omega) hle
        have hdrop : d.entries.drop l = eL :: d.entries.drop (l + 1) := by
          rw [List.drop_eq_getElem_cons hllen, getElem_of_getElem? hle hllen]
        rw [hdrop, List.takeWhile_cons, if_neg (by rw [hfail]; exact Bool.false_ne_true)]
        rfl
  | some ue =>
    obtain ⟨u, eU⟩ := ue
    obtain ⟨-, hue, hpeU, -⟩ := findDown_found hu
    have hulen : u < d.entries.length := len_pos_of_getElem? hue
    have hend := range_end_found hnd hu CursorPos.unset
    have hlhs : RoRange.last (RoRange.fresh d sb eb) im =
        (if startOk sb eU.key then some (.ok eU) else none) := by
      simp only [RoRange.last, RoRange.fresh, freshCursor, if_true, hend]
    rw [hlhs]
    cases hl : findFrom d.entries 0 (startOkP sb) with
    | none =>
      have hfalse : startOkP sb eU = false :=
        findFrom_none hl u eU (Nat.zero_le u) hue
      have hfalse' : startOk sb eU.key = false := hfalse
      rw [hfalse']
      rfl
    | some le =>
      obtain ⟨l, eL⟩ := le
      dsimp only
      obtain ⟨-, hle, hpeL, -⟩ := findFrom_found hl
      have hllen : l < d.entries.length := len_pos_of_getElem? hle
      by_cases hlu : l ≤ u
      · have hguard : startOkP sb eU = true :=
          (startOk_index_iff hnd.sortedKeys hl hue).mpr hlu
        have hguard' : startOk sb eU.key = true := hguard
        rw [hguard', if_pos rfl]
        have hfwd : (d.entries.drop l).takeWhile (endOkP eb) =
            (d.entries.drop l).take (u + 1 - l) := by
          refine takeWhile_eq_take (d.entries.drop l) (u + 1 - l) ?_
          intro j hj
          have hjl : l + j < d.entries.length := by
            rw [List.length_drop] at hj
            omega
          rw [show (d.entries.drop l)[j] = d.entries[l + j] from
            List.getElem_drop d.entries]
          rw [endOk_index_iff hnd.sortedKeys hu (List.getElem?_eq_getElem hjl)]
          omega
        rw [hfwd, seg_getLast hlu hulen, getElem_of_getElem? hue hulen]
      · push_neg at hlu
        have hguard : startOkP sb eU = false := by
          rw [Bool.eq_false_iff]
          intro hc
          have := (startOk_index_iff hnd.sortedKeys hl hue).mp hc
          omega
        have hguard' : startOk sb eU.key = false := hguard
        rw [hguard', if_neg Bool.false_ne_true]
        have hfail : endOkP eb eL = false := by
          rw [Bool.eq_false_iff]
          intro hc
          have := (endOk_index_iff hnd.sortedKeys hu hle).mp hc
          omega
        have hfail' : ¬ (endOkP eb eL = true) := by
          rw [hfail]
          exact Bool.false_ne_true
        have hdrop : d.entries.drop l = eL :: d.entries.drop (l + 1) := by
          rw [List.drop_eq_getElem_cons hllen, getElem_of_getElem? hle hllen]
        rw [hdrop, List.takeWhile_cons, if_neg hfail']
        rfl

/-- `last()` on a started range iterator — one whose cursor sits on an entry it
has yielded (hence within both bounds) — returns the final element the
remaining forward drain would produce, on a duplicate-free collection. -/
theorem rangeLast_started {d : Db} (hnd : d.NoDupKeys) (im : IterationMethod)
    {sb eb : RBound} {i : Nat} {cur : Entry} (hi : d.entries[i]? = some cur)
    (hsOk : startOk sb cur.key = true) (heOk : endOk eb cur.key = true) :
    RoRange.last ⟨⟨d, .posAt i⟩, false, sb, eb⟩ im =
      (RoRange.drain im (fullFuel d) ⟨⟨d, .posAt i⟩, false, sb, eb⟩).getLast? := by
  have hilen : i < d.entries.length := len_pos_of_getElem? hi
  rw [rangeDrain_started hnd im (fullFuel d) i cur hi (by unfold fullFuel; omega)]
  obtain ⟨u, eU, hu, hiu⟩ :
      ∃ u eU, findDown d.entries (d.entries.length - 1) (endOkP eb) = some (u, eU) ∧
        i ≤ u := by
    obtain ⟨u, eU, hfind, -⟩ :=
      @findDown_isSome d.entries (d.entries.length - 1) i (endOkP eb) cur hi
        (show endOkP eb cur = true from heOk) (by omega) (by omega)
    exact ⟨u, eU, hfind, endIdx_ge hfind hi (show endOkP eb cur = true from heOk)⟩
  obtain ⟨-, hue, hpeU, -⟩ := findDown_found hu
  have hulen : u < d.entries.length := len_pos_of_getElem? hue
  have hcur := current_at hi
  have hend := range_end_found hnd hu (CursorPos.posAt i)
  rcases Nat.eq_or_lt_of_le hiu with rfl | hlt
  · -- the iterator already sits on the final element: last() is exhausted
    rw [hi] at hue
    cases Option.some.inj hue
    have hlhs : RoRange.last ⟨⟨d, .posAt i⟩, false, sb, eb⟩ im = none := by
      simp only [RoRange.last, if_false, Bool.false_eq_true, ite_false, hcur, hend,
        cmpB_refl]
      simp
    rw [hlhs]
    cases hnext : d.entries[i + 1]? with
    | some e2 =>
      have hfail : endOkP eb e2 = false := by
        rw [Bool.eq_false_iff]
        intro hc
        have := endIdx_ge hu hnext hc
        omega
      have hfail' : ¬ (endOkP eb e2 = true) := by
        rw [hfail]
        exact Bool.false_ne_true
      have hl2 : i + 1 < d.entries.length := len_pos_of_getElem? hnext
      rw [show d.entries.drop (i + 1) = e2 :: d.entries.drop (i + 2) from by
        rw [List.drop_eq_getElem_cons hl2, getElem_of_getElem? hnext hl2]]
      rw [List.takeWhile_cons, if_neg hfail']
      rfl
    | none =>
      have hlen2 : d.entries.length ≤ i + 1 := by
        by_contra hc
        push_neg at hc
        rw [List.getElem?_eq_getElem hc] at hnext
        cases hnext
      rw [List.drop_eq_nil_of_le hlen2]
      rfl
  · -- strictly more remains: last() jumps to the resolved end entry
    have hneq : cmpB cur.key eU.key ≠ .eq := by
      have := nodup_lt_of_getElem? hnd hi hue hlt
      intro hc
      exact bLt_ne this (cmpB_eq_iff.mp hc)
    have hguard : startOk sb eU.key = true := by
      have hmono : ¬ bLt eU.key cur.key :=
        sorted_le_of_getElem? hnd.sortedKeys hi hue (by omega)
      exact startOk_mono hsOk hmono
    have hlhs : RoRange.last ⟨⟨d, .posAt i⟩, false, sb, eb⟩ im = some (.ok eU) := by
      simp only [RoRange.last, if_false, Bool.false_eq_true, ite_false, hcur, hend]
      simp [hneq, hguard]
    rw [hlhs]
    have hfwd : (d.entries.drop (i + 1)).takeWhile (endOkP eb) =
        (d.entries.drop (i + 1)).take (u + 1 - (i + 1)) := by
      refine takeWhile_eq_take (d.entries.drop (i + 1)) (u + 1 - (i + 1)) ?_
      intro j hj
      have hjl : i + 1 + j < d.entries.length := by
        rw [List.length_drop] at hj
        omega
      rw [show (d.entries.drop (i + 1))[j] = d.entries[i + 1 + j] from
        List.getElem_drop d.entries]
      rw [endOk_index_iff hnd.sortedKeys hu (List.getElem?_eq_getElem hjl)]
      omega
    rw [hfwd, seg_getLast (by omega) hulen, getElem_of_getElem? hue hulen]

/-! ## The prefix successor/predecessor algebra -/

theorem advance_pfxRev_cons_max {rest : List Nat} :
    advance_pfxRev (255 :: rest) = (advance_pfxRev rest).map (fun r => 0 :: r) := by
  simp [advance_pfxRev]

theorem advance_pfxRev_cons_nonmax {b : Nat} {rest : List Nat} (hb : b ≠ 255) :
    advance_pfxRev (b :: rest) = some ((b + 1) :: rest) := by
  simp [advance_pfxRev, hb]

theorem retreat_pfxRev_cons_zero {rest : List Nat} :
    retreat_pfxRev (0 :: rest) = (retreat_pfxRev rest).map (fun r => 255 :: r) := by
  simp [retreat_pfxRev]

theorem retreat_pfxRev_cons_succ {b : Nat} {rest : List Nat} :
    retreat_pfxRev ((b + 1) :: rest) = some (b :: rest) := by
  simp [retreat_pfxRev]

theorem advance_pfxRev_roundtrip :
    ∀ {xs r : List Nat}, advance_pfxRev xs = some r → retreat_pfxRev r = some xs := by
  intro xs
  induction xs with
  | nil =>
    intro r h
    simp [advance_pfxRev] at h
  | cons b rest ih =>
    intro r h
    by_cases hb : b = 255
    · subst hb
      rw [advance_pfxRev_cons_max] at h
      cases har : advance_pfxRev rest with
      | none =>
        rw [har] at h
        cases h
      | some r2 =>
        rw [har, Option.map_some'] at h
        cases h
        rw [retreat_pfxRev_cons_zero, ih har, Option.map_some']
    · rw [advance_pfxRev_cons_nonmax hb] at h
      cases h
      rw [retreat_pfxRev_cons_succ]

/-- The claim's round trip: whenever the successor operation succeeds, the
predecessor operation restores the original bytes exactly. -/
theorem advance_retreat_roundtrip {p : Bytes} (h : (advance_pfx p).1 = true) :
    retreat_pfx (advance_pfx p).2 = (true, p) := by
  cases hr : advance_pfxRev p.reverse with
  | none =>
    have h2 : advance_pfx p = (false, p) := by
      unfold advance_pfx
      rw [hr]
    rw [h2] at h
    cases h
  | some r =>
    have h2 : advance_pfx p = (true, r.reverse) := by
      unfold advance_pfx
      rw [hr]
    rw [h2]
    unfold retreat_pfx
    rw [List.reverse_reverse, advance_pfxRev_roundtrip hr]
    simp

theorem advance_pfxRev_none_iff :
    ∀ xs : List Nat, advance_pfxRev xs = none ↔ ∀ b ∈ xs, b = 255 := by
  intro xs
  induction xs with
  | nil => simp [advance_pfxRev]
  | cons b rest ih =>
    by_cases hb : b = 255
    · subst hb
      constructor
      · intro h c hc
        rcases List.mem_cons.mp hc with rfl | hc2
        · rfl
        · refine (ih.mp ?_) c hc2
          cases har : advance_pfxRev rest with
          | none => rfl
          | some r2 =>
            rw [advance_pfxRev_cons_max, har, Option.map_some'] at h
            cases h
      · intro hall
        have hnone : advance_pfxRev rest = none :=
          ih.mpr (fun c hc => hall c (List.mem_cons_of_mem _ hc))
        rw [advance_pfxRev_cons_max, hnone]
        rfl
    · constructor
      · intro h
        rw [advance_pfxRev_cons_nonmax hb] at h
        cases h
      · intro hall
        exact absurd (hall b (List.mem_cons_self b rest)) hb

/-- The successor operation fails exactly on the byte strings every byte of
which is maximal — the empty string included. -/
theorem advance_pfx_false_iff {p : Bytes} :
    (advance_pfx p).1 = false ↔ ∀ b ∈ p, b = 255 := by
  cases hr : advance_pfxRev p.reverse with
  | none =>
    have h2 : (advance_pfx p).1 = false := by
      unfold advance_pfx
      rw [hr]
    refine ⟨fun _ b hb => ?_, fun _ => h2⟩
    exact ((advance_pfxRev_none_iff p.reverse).mp hr) b (List.mem_reverse.mpr hb)
  | some r =>
    have h2 : (advance_pfx p).1 = true := by
      unfold advance_pfx
      rw [hr]
    constructor
    · intro h
      rw [h2] at h
      cases h
    · intro hall
      exfalso
      have hnone : advance_pfxRev p.reverse = none :=
        (advance_pfxRev_none_iff p.reverse).mpr
          (fun b hb => hall b (List.mem_reverse.mp hb))
      rw [hnone] at hr
      cases hr

theorem advance_pfx_false_bytes {p : Bytes} (h : (advance_pfx p).1 = false) :
    (advance_pfx p).2 = p := by
  cases hr : advance_pfxRev p.reverse with
  | none =>
    have h2 : advance_pfx p = (false, p) := by
      unfold advance_pfx
      rw [hr]
    rw [h2]
  | some r =>
    have h2 : advance_pfx p = (true, r.reverse) := by
      unfold advance_pfx
      rw [hr]
    rw [h2] at h
    cases h

/-- When the last byte is not maximal, the successor simply increments it. -/
theorem advance_pfx_noCarry {q : Bytes} {b : Nat} (hb : b ≠ 255) :
    advance_pfx (q ++ [b]) = (true, q ++ [b + 1]) := by
  unfold advance_pfx
  rw [List.reverse_append]
  simp only [List.reverse_cons, List.reverse_nil, List.nil_append, List.singleton_append]
  rw [advance_pfxRev_cons_nonmax hb]
  simp

theorem bLt_cons_iff {c a : Nat} {k p : Bytes} :
    bLt (c :: k) (a :: p) ↔ (c < a ∨ (c = a ∧ bLt k p)) := by
  have hstep : cmpB (c :: k) (a :: p) =
      if c < a then .lt else if a < c then .gt else cmpB k p := rfl
  show cmpB (c :: k) (a :: p) = .lt ↔ _
  rw [hstep]
  by_cases h1 : c < a
  · simp [h1]
  · rw [if_neg h1]
    by_cases h2 : a < c
    · rw [if_pos h2]
      constructor
      · intro h
        cases h
      · rintro (h | ⟨h, -⟩) <;> omega
    · rw [if_neg h2]
      have hca : c = a := by omega
      subst hca
      constructor
      · intro h
        exact Or.inr ⟨rfl, h⟩
      · rintro (h | ⟨-, h⟩)
        · omega
        · exact h

theorem not_bLt_nil (k : Bytes) : ¬ bLt k [] := by
  cases k with
  | nil => intro h; cases h
  | cons c rest => intro h; cases h

theorem bLt_nil_cons {a : Nat} {l : Bytes} : bLt [] (a :: l) := rfl

/-- A byte string carries the prefix `q ++ [b]` exactly when it lies in the
half-open interval from the prefix to its no-carry successor. -/
theorem pfx_block_iff_noCarry {b : Nat} :
    ∀ {q k : Bytes}, (q ++ [b]).isPrefixOf k = true ↔
      (¬ bLt k (q ++ [b]) ∧ bLt k (q ++ [b + 1])) := by
  intro q
  induction q with
  | nil =>
    intro k
    cases k with
    | nil =>
      simp only [List.nil_append]
      constructor
      · intro h; cases h
      · rintro ⟨h1, -⟩
        exact absurd bLt_nil_cons h1
    | cons c rest =>
      simp only [List.nil_append, List.isPrefixOf_cons₂, List.isPrefixOf, Bool.and_true,
        beq_iff_eq, bLt_cons_iff]
      have hr1 : ¬ bLt rest [] := not_bLt_nil rest
      constructor
      · rintro rfl
        constructor
        · rintro (h | ⟨-, h⟩)
          · omega
          · exact hr1 h
        · left
          omega
      · rintro ⟨h1, h2⟩
        rcases h2 with h2 | ⟨h2, h3⟩
        · by_contra hne
          exact h1 (Or.inl (by omega))
        · exact absurd h3 hr1
  | cons a q2 ih =>
    intro k
    cases k with
    | nil =>
      simp only [List.cons_append]
      constructor
      · intro h; cases h
      · rintro ⟨h1, -⟩
        exact absurd bLt_nil_cons h1
    | cons c rest =>
      simp only [List.cons_append, List.isPrefixOf_cons₂, Bool.and_eq_true, beq_iff_eq,
        bLt_cons_iff]
      by_cases hca : c = a
      · subst hca
        have hih := @ih rest
        constructor
        · rintro ⟨-, hpre⟩
          obtain ⟨hh1, hh2⟩ := hih.mp hpre
          refine ⟨?_, Or.inr ⟨rfl, hh2⟩⟩
          rintro (h | ⟨-, h⟩)
          · omega
          · exact hh1 h
        · rintro ⟨h1, h2⟩
          refine ⟨rfl, hih.mpr ⟨?_, ?_⟩⟩
          · intro hc
            exact h1 (Or.inr ⟨rfl, hc⟩)
          · rcases h2 with h2 | ⟨-, h2⟩
            · omega
            · exact h2
      · constructor
        · rintro ⟨h, -⟩
          exact absurd h.symm hca
        · rintro ⟨h1, h2⟩
          exfalso
          rcases h2 with h2 | ⟨h2, -⟩
          · exact h1 (Or.inl h2)
          · exact hca h2

/-- When every prefix byte is maximal, a valid byte string carries the prefix
exactly when it is not below it. -/
theorem pfx_block_iff_allMax :
    ∀ {p k : Bytes}, (∀ b ∈ p, b = 255) → (∀ b ∈ k, b < 256) →
    (p.isPrefixOf k = true ↔ ¬ bLt k p) := by
  intro p
  induction p with
  | nil =>
    intro k _ _
    simp only [List.isPrefixOf, true_iff]
    exact not_bLt_nil k
  | cons b0 p2 ih =>
    intro k hmax hvalid
    have hb0 : b0 = 255 := hmax b0 (List.mem_cons_self b0 p2)
    cases k with
    | nil =>
      constructor
      · intro h; cases h
      · intro h
        exact absurd bLt_nil_cons h
    | cons c rest =>
      have hc : c < 256 := hvalid c (List.mem_cons_self c rest)
      simp only [List.isPrefixOf_cons₂, Bool.and_eq_true, beq_iff_eq, bLt_cons_iff]
      by_cases hcb : c = b0
      · subst hcb
        have hih := ih (fun b hb => hmax b (List.mem_cons_of_mem _ hb))
          (fun b hb => hvalid b (List.mem_cons_of_mem _ hb))
        constructor
        · rintro ⟨-, hpre⟩
          rintro (h | ⟨-, h⟩)
          · omega
          · exact hih.mp hpre h
        · intro h
          refine ⟨rfl, hih.mpr ?_⟩
          intro hc2
          exact h (Or.inr ⟨rfl, hc2⟩)
      · constructor
        · rintro ⟨h, -⟩
          exact absurd h.symm hcb
        · intro h
          exfalso
          exact h (Or.inl (by omega))

/-- With a successful successor, resolving the prefix end is resolving a range
end with the excluded successor bound, and the stored prefix is restored. -/
theorem pfx_end_advance_true {c : RoCursor} {p p' : Bytes}
    (h : advance_pfx p = (true, p')) :
    move_on_pfx_end c p = (move_on_range_end c (.excluded p'), (retreat_pfx p').2) := by
  unfold move_on_pfx_end
  rw [h]
  rfl

theorem pfx_end_advance_false {c : RoCursor} {p : Bytes}
    (h : (advance_pfx p).1 = false) :
    move_on_pfx_end c p = (move_on_range_end c .unbounded, p) := by
  cases hr : advance_pfx p with
  | mk fl bytes =>
    rw [hr] at h
    cases h
    unfold move_on_pfx_end
    rw [hr]
    rfl

/-- `move_on_prefix_end` always leaves the stored prefix bytes as they were. -/
theorem pfx_end_restores (c : RoCursor) (p : Bytes) : (move_on_pfx_end c p).2 = p := by
  cases hb : (advance_pfx p).1 with
  | false => rw [pfx_end_advance_false hb]
  | true =>
    have h : advance_pfx p = (true, (advance_pfx p).2) := by
      rw [← hb]
    rw [pfx_end_advance_true h]
    have := advance_retreat_roundtrip hb
    rw [this]

/-- Only byte strings made of actual bytes occur as keys in a collection. -/
def Db.ValidKeys (d : Db) : Prop := ∀ e ∈ d.entries, ∀ b ∈ e.key, b < 256

/-- Prefixes whose end-of-prefix computation never skips over a key: either the
last byte has an exact successor (no carry), or every byte is maximal (the
empty prefix included) so the whole-collection end is used. -/
def GoodPfx (p : Bytes) : Prop := p.getLast? ≠ some 255 ∨ ∀ b ∈ p, b = 255

theorem pfx_cases {p : Bytes} (hg : GoodPfx p) :
    (∀ b ∈ p, b = 255) ∨ ∃ q b, p = q ++ [b] ∧ b ≠ 255 := by
  rcases List.eq_nil_or_concat p with rfl | ⟨q, b, rfl⟩
  · left
    intro b hb
    cases hb
  · simp only [List.concat_eq_append] at hg ⊢
    by_cases hb : b = 255
    · subst hb
      left
      rcases hg with hg | hg
      · exfalso
        exact hg (List.getLast?_concat q)
      · exact hg
    · right
      exact ⟨q, b, rfl, hb⟩

/-- The prefix end computation coincides with a range end resolution, and the
starts-with check factors into the two bound checks of that range. -/
theorem pfx_summary {d : Db} {p : Bytes} (hg : GoodPfx p) (hv : d.ValidKeys) :
    ∃ eb', (∀ c : RoCursor, move_on_pfx_end c p = (move_on_range_end c eb', p)) ∧
      ∀ e ∈ d.entries, (pfxP p e = true ↔
        (startOkP (RBound.included p) e = true ∧ endOkP eb' e = true)) := by
  rcases pfx_cases hg with hall | ⟨q, b, rfl, hb⟩
  · refine ⟨.unbounded, ?_, ?_⟩
    · intro c
      rw [pfx_end_advance_false (advance_pfx_false_iff.mpr hall)]
    · intro e he
      have hval := hv e he
      have h1 : pfxP p e = true ↔ ¬ bLt e.key p := by
        simp only [pfxP]
        exact pfx_block_iff_allMax hall hval
      have h2 : startOkP (RBound.included p) e = true ↔ ¬ bLt e.key p := by
        simp only [startOkP]
        exact startOk_included_iff
      have h3 : endOkP RBound.unbounded e = true := rfl
      rw [h1, h2]
      simp [h3]
  · have hadv : advance_pfx (q ++ [b]) = (true, q ++ [b + 1]) := advance_pfx_noCarry hb
    refine ⟨.excluded (q ++ [b + 1]), ?_, ?_⟩
    · intro c
      rw [pfx_end_advance_true hadv]
      have hround := advance_retreat_roundtrip (p := q ++ [b]) (by rw [hadv])
      rw [hadv] at hround
      rw [hround]
    · intro e he
      have h1 : pfxP (q ++ [b]) e = true ↔
          (¬ bLt e.key (q ++ [b]) ∧ bLt e.key (q ++ [b + 1])) := by
        simp only [pfxP]
        exact pfx_block_iff_noCarry
      have h2 : startOkP (RBound.included (q ++ [b])) e = true ↔ ¬ bLt e.key (q ++ [b]) := by
        simp only [startOkP]
        exact startOk_included_iff
      have h3 : endOkP (RBound.excluded (q ++ [b + 1])) e = true ↔
          bLt e.key (q ++ [b + 1]) := by
        simp only [endOkP]
        exact endOk_excluded_iff
      rw [h1, h2, h3]

/-- `last()` on a fresh prefix iterator returns the final element of a full
forward drain, on a duplicate-free collection of valid keys, provided the
prefix is `GoodPfx`. -/
theorem pfxLast_fresh {d : Db} (hnd : d.NoDupKeys) (im : IterationMethod) {p : Bytes}
    (hg : GoodPfx p) (hv : d.ValidKeys) :
    (RoPfx.last (RoPfx.fresh d p) im).1 =
      (RoPfx.drain im (fullFuel d) (RoPfx.fresh d p)).getLast? := by
  obtain ⟨eb', hendeq, hblock⟩ := pfx_summary hg hv
  rw [pfxDrain_fresh hnd im]
  cases hu : findDown d.entries (d.entries.length - 1) (endOkP eb') with
  | none =>
    cases hrc : move_on_range_end (⟨d, .unset⟩ : RoCursor) eb' with
    | mk r1 c2 =>
      have h1 : r1 = .ok none := by
        have := range_end_none hnd hu CursorPos.unset
        rw [hrc] at this
        exact this
      subst h1
      have hstep : move_on_pfx_end (⟨d, .unset⟩ : RoCursor) p = ((.ok none, c2), p) := by
        rw [hendeq, hrc]
      have hlhs : (RoPfx.last (RoPfx.fresh d p) im).1 = none := by
        simp only [RoPfx.last, RoPfx.fresh, freshCursor, if_true, hstep]
      rw [hlhs]
      cases hl : findFrom d.entries 0 (fun x => !(cmpB x.key p == .lt)) with
      | none => rfl
      | some le =>
        obtain ⟨l, eL⟩ := le
        dsimp only
        obtain ⟨-, hle, hges, -⟩ := findFrom_found hl
        have hllen : l < d.entries.length := len_pos_of_getElem? hle
        have hfail : pfxP p eL = false := by
          rw [Bool.eq_false_iff]
          intro hc
          obtain ⟨-, hend⟩ := (hblock eL (List.getElem?_mem hle)).mp hc
          have := findDown_none hu (by omega) l eL (by omega) hle
          rw [hend] at this
          cases this
        have hfail' : ¬ (pfxP p eL = true) := by
          rw [hfail]
          exact Bool.false_ne_true
        have hdrop : d.entries.drop l = eL :: d.entries.drop (l + 1) := by
          rw [List.drop_eq_getElem_cons hllen, getElem_of_getElem? hle hllen]
        rw [hdrop, List.takeWhile_cons, if_neg hfail']
        rfl
  | some ue =>
    obtain ⟨u, eU⟩ := ue
    obtain ⟨-, hue, hpeU, -⟩ := findDown_found hu
    have hulen : u < d.entries.length := len_pos_of_getElem? hue
    have hend := range_end_found hnd hu CursorPos.unset
    have hstep : move_on_pfx_end (⟨d, .unset⟩ : RoCursor) p =
        ((.ok (some eU), ⟨d, .posAt u⟩), p) := by
      rw [hendeq, hend]
    have hlhs : (RoPfx.last (RoPfx.fresh d p) im).1 =
        (if p.isPrefixOf eU.key then some (.ok eU) else none) := by
      simp only [RoPfx.last, RoPfx.fresh, freshCursor, if_true, hstep]
    rw [hlhs]
    cases hl : findFrom d.entries 0 (fun x => !(cmpB x.key p == .lt)) with
    | none =>
      have hsfalse : startOkP (RBound.included p) eU = false :=
        findFrom_none hl u eU (Nat.zero_le u) hue
      have hguard : p.isPrefixOf eU.key = false := by
        rw [Bool.eq_false_iff]
        intro hc
        obtain ⟨hstart, -⟩ := (hblock eU (List.getElem?_mem hue)).mp hc
        rw [hstart] at hsfalse
        cases hsfalse
      rw [hguard]
      rfl
    | some le =>
      obtain ⟨l, eL⟩ := le
      dsimp only
      have hl' : findFrom d.entries 0 (startOkP (RBound.included p)) = some (l, eL) := hl
      obtain ⟨-, hle, hpeL, -⟩ := findFrom_found hl'
      have hllen : l < d.entries.length := len_pos_of_getElem? hle
      by_cases hlu : l ≤ u
      · have hguard : p.isPrefixOf eU.key = true := by
          refine ((hblock eU (List.getElem?_mem hue)).mpr ⟨?_, hpeU⟩ : pfxP p eU = true)
          exact (startOk_index_iff hnd.sortedKeys hl' hue).mpr hlu
        rw [hguard, if_pos rfl]
        have hfwd : (d.entries.drop l).takeWhile (pfxP p) =
            (d.entries.drop l).take (u + 1 - l) := by
          refine takeWhile_eq_take (d.entries.drop l) (u + 1 - l) ?_
          intro j hj
          have hjl : l + j < d.entries.length := by
            rw [List.length_drop] at hj
            omega
          rw [show (d.entries.drop l)[j] = d.entries[l + j] from
            List.getElem_drop d.entries]
          rw [hblock (d.entries[l + j]) (List.getElem_mem hjl)]
          rw [startOk_index_iff hnd.sortedKeys hl' (List.getElem?_eq_getElem hjl)]
          rw [endOk_index_iff hnd.sortedKeys hu (List.getElem?_eq_getElem hjl)]
          omega
        rw [hfwd, seg_getLast hlu hulen, getElem_of_getElem? hue hulen]
      · push_neg at hlu
        have hguard : p.isPrefixOf eU.key = false := by
          rw [Bool.eq_false_iff]
          intro hc
          obtain ⟨hstart, -⟩ := (hblock eU (List.getElem?_mem hue)).mp hc
          have := (startOk_index_iff hnd.sortedKeys hl' hue).mp hstart
          omega
        rw [hguard, if_neg Bool.false_ne_true]
        have hfail : pfxP p eL = false := by
          rw [Bool.eq_false_iff]
          intro hc
          obtain ⟨-, hend2⟩ := (hblock eL (List.getElem?_mem hle)).mp hc
          have := (endOk_index_iff hnd.sortedKeys hu hle).mp hend2
          omega
        have hfail' : ¬ (pfxP p eL = true) := by
          rw [hfail]
          exact Bool.false_ne_true
        have hdrop : d.entries.drop l = eL :: d.entries.drop (l + 1) := by
          rw [List.drop_eq_getElem_cons hllen, getElem_of_getElem? hle hllen]
        rw [hdrop, List.takeWhile_cons, if_neg hfail']
        rfl

/-- `last()` on a started prefix iterator — one whose cursor sits on an entry it
has yielded (hence carrying the prefix) — returns the final element the
remaining forward drain would produce, under the same conditions. -/
theorem pfxLast_started {d : Db} (hnd : d.NoDupKeys) (im : IterationMethod) {p : Bytes}
    (hg : GoodPfx p) (hv : d.ValidKeys) {i : Nat} {cur : Entry}
    (hi : d.entries[i]? = some cur) (hcur : pfxP p cur = true) :
    (RoPfx.last ⟨⟨d, .posAt i⟩, p, false⟩ im).1 =
      (RoPfx.drain im (fullFuel d) ⟨⟨d, .posAt i⟩, p, false⟩).getLast? := by
  obtain ⟨eb', hendeq, hblock⟩ := pfx_summary hg hv
  have hilen : i < d.entries.length := len_pos_of_getElem? hi
  obtain ⟨hsOk, heOk⟩ := (hblock cur (List.getElem?_mem hi)).mp hcur
  rw [pfxDrain_started hnd im (fullFuel d) i cur hi (by unfold fullFuel; omega)]
  obtain ⟨u, eU, hu, hiu⟩ :
      ∃ u eU, findDown d.entries (d.entries.length - 1) (endOkP eb') = some (u, eU) ∧
        i ≤ u := by
    obtain ⟨u, eU, hfind, -⟩ :=
      @findDown_isSome d.entries (d.entries.length - 1) i (endOkP eb') cur hi heOk
        (by omega) (by omega)
    exact ⟨u, eU, hfind, endIdx_ge hfind hi heOk⟩
  obtain ⟨-, hue, hpeU, -⟩ := findDown_found hu
  have hulen : u < d.entries.length := len_pos_of_getElem? hue
  have hcurr := current_at hi
  have hend := range_end_found hnd hu (CursorPos.posAt i)
  rcases Nat.eq_or_lt_of_le hiu with rfl | hlt
  · rw [hi] at hue
    cases Option.some.inj hue
    have hpend : move_on_pfx_end (⟨d, .posAt i⟩ : RoCursor) p =
        ((.ok (some cur), ⟨d, .posAt i⟩), p) := by
      rw [hendeq, hend]
    have hlhs : (RoPfx.last ⟨⟨d, .posAt i⟩, p, false⟩ im).1 = none := by
      simp only [RoPfx.last, if_false, Bool.false_eq_true, ite_false, hcurr, hpend]
      simp
    rw [hlhs]
    cases hnext : d.entries[i + 1]? with
    | some e2 =>
      have hfail : pfxP p e2 = false := by
        rw [Bool.eq_false_iff]
        intro hc
        obtain ⟨-, hend2⟩ := (hblock e2 (List.getElem?_mem hnext)).mp hc
        have := endIdx_ge hu hnext hend2
        omega
      have hfail' : ¬ (pfxP p e2 = true) := by
        rw [hfail]
        exact Bool.false_ne_true
      have hl2 : i + 1 < d.entries.length := len_pos_of_getElem? hnext
      rw [show d.entries.drop (i + 1) = e2 :: d.entries.drop (i + 2) from by
        rw [List.drop_eq_getElem_cons hl2, getElem_of_getElem? hnext hl2]]
      rw [List.takeWhile_cons, if_neg hfail']
      rfl
    | none =>
      have hlen2 : d.entries.length ≤ i + 1 := by
        by_contra hc
        push_neg at hc
        rw [List.getElem?_eq_getElem hc] at hnext
        cases hnext
      rw [List.drop_eq_nil_of_le hlen2]
      rfl
  · have hpend : move_on_pfx_end (⟨d, .posAt i⟩ : RoCursor) p =
        ((.ok (some eU), ⟨d, .posAt u⟩), p) := by
      rw [hendeq, hend]
    have hneq : cur.key ≠ eU.key := by
      have := nodup_lt_of_getElem? hnd hi hue hlt
      exact bLt_ne this
    have hguard : p.isPrefixOf eU.key = true := by
      refine ((hblock eU (List.getElem?_mem hue)).mpr ⟨?_, hpeU⟩ : pfxP p eU = true)
      have hmono : ¬ bLt eU.key cur.key :=
        sorted_le_of_getElem? hnd.sortedKeys hi hue (by omega)
      exact startOk_mono hsOk hmono
    have hlhs : (RoPfx.last ⟨⟨d, .posAt i⟩, p, false⟩ im).1 = some (.ok eU) := by
      simp only [RoPfx.last, if_false, Bool.false_eq_true, ite_false, hcurr, hpend]
      simp [hneq, hguard]
    rw [hlhs]
    have hfwd : (d.entries.drop (i + 1)).takeWhile (pfxP p) =
        (d.entries.drop (i + 1)).take (u + 1 - (i + 1)) := by
      refine takeWhile_eq_take (d.entries.drop (i + 1)) (u + 1 - (i + 1)) ?_
      intro j hj
      have hjl : i + 1 + j < d.entries.length := by
        rw [List.length_drop] at hj
        omega
      rw [show (d.entries.drop (i + 1))[j] = d.entries[i + 1 + j] from
        List.getElem_drop d.entries]
      rw [hblock (d.entries[i + 1 + j]) (List.getElem_mem hjl)]
      constructor
      · intro hc
        have := (endOk_index_iff hnd.sortedKeys hu (List.getElem?_eq_getElem hjl)).mp hc.2
        omega
      · intro hc
        refine ⟨?_, (endOk_index_iff hnd.sortedKeys hu (List.getElem?_eq_getElem hjl)).mpr
          (by omega)⟩
        have hmono : ¬ bLt (d.entries[i + 1 + j]).key cur.key :=
          sorted_le_of_getElem? hnd.sortedKeys hi (List.getElem?_eq_getElem hjl) (by omega)
        exact startOk_mono hsOk hmono
    rw [hfwd, seg_getLast (by omega) hulen, getElem_of_getElem? hue hulen]

/-! ## Reaching started iterator states by repeated `next()` -/

theorem range_consume_started {d : Db} (hnd : d.NoDupKeys) (im : IterationMethod)
    {sb eb : RBound} :
    ∀ k j cur, d.entries[j]? = some cur →
    (∀ m, j < m → m ≤ j + k → ∃ em, d.entries[m]? = some em ∧ endOkP eb em = true) →
    RoRange.consume im k ⟨⟨d, .posAt j⟩, false, sb, eb⟩ =
      ⟨⟨d, .posAt (j + k)⟩, false, sb, eb⟩ := by
  intro k
  induction k with
  | zero =>
    intro j cur hj _
    rfl
  | succ k ih =>
    intro j cur hj hall
    obtain ⟨e1, he1, hok1⟩ := hall (j + 1) (Nat.lt_succ_self j) (by omega)
    have hstep := move_on_next_at_some hnd hj he1 (im_move_ne_dup im)
    have hok1' : endOk eb e1.key = true := hok1
    have hnext : (RoRange.next ⟨⟨d, .posAt j⟩, false, sb, eb⟩ im).2 =
        ⟨⟨d, .posAt (j + 1)⟩, false, sb, eb⟩ := by
      simp only [RoRange.next, if_false, Bool.false_eq_true, ite_false, hstep, hok1', if_true]
    show RoRange.consume im k (RoRange.next ⟨⟨d, .posAt j⟩, false, sb, eb⟩ im).2 = _
    rw [hnext, ih (j + 1) e1 he1 (fun m h1 h2 => hall m (by omega) (by omega))]
    rw [show j + 1 + k = j + (k + 1) from by omega]

theorem pfx_consume_started {d : Db} (hnd : d.NoDupKeys) (im : IterationMethod)
    {p : Bytes} :
    ∀ k j cur, d.entries[j]? = some cur →
    (∀ m, j < m → m ≤ j + k → ∃ em, d.entries[m]? = some em ∧ pfxP p em = true) →
    RoPfx.consume im k ⟨⟨d, .posAt j⟩, p, false⟩ = ⟨⟨d, .posAt (j + k)⟩, p, false⟩ := by
  intro k
  induction k with
  | zero =>
    intro j cur hj _
    rfl
  | succ k ih =>
    intro j cur hj hall
    obtain ⟨e1, he1, hok1⟩ := hall (j + 1) (Nat.lt_succ_self j) (by omega)
    have hstep := move_on_next_at_some hnd hj he1 (im_move_ne_dup im)
    have hok1' : p.isPrefixOf e1.key = true := hok1
    have hnext : (RoPfx.next ⟨⟨d, .posAt j⟩, p, false⟩ im).2 =
        ⟨⟨d, .posAt (j + 1)⟩, p, false⟩ := by
      simp only [RoPfx.next, if_false, Bool.false_eq_true, ite_false, hstep, hok1', if_true]
    show RoPfx.consume im k (RoPfx.next ⟨⟨d, .posAt j⟩, p, false⟩ im).2 = _
    rw [hnext, ih (j + 1) e1 he1 (fun m h1 h2 => hall m (by omega) (by omega))]
    rw [show j + 1 + k = j + (k + 1) from by omega]

theorem takeWhile_getElem? {p : Entry → Bool} :
    ∀ (xs : List Entry) (j : Nat) (e : Entry), (xs.takeWhile p)[j]? = some e →
    xs[j]? = some e ∧ p e = true := by
  intro xs
  induction xs with
  | nil =>
    intro j e h
    simp at h
  | cons x xs ih =>
    intro j e h
    rw [List.takeWhile_cons] at h
    by_cases hp : p x = true
    · rw [if_pos hp] at h
      cases j with
      | zero =>
        simp only [List.getElem?_cons_zero] at h ⊢
        cases Option.some.inj h
        exact ⟨rfl, hp⟩
      | succ j =>
        simp only [List.getElem?_cons_succ] at h ⊢
        exact ih j e h
    · rw [if_neg hp] at h
      simp at h

/-- Consuming `k` items of a nonempty fresh range iterator (with `k` within the
drain) parks the cursor on the `k`-th drained entry, which satisfies both
bound checks. -/
theorem range_consume_pos {d : Db} (hnd : d.NoDupKeys) (im : IterationMethod)
    {sb eb : RBound} {k : Nat} (hk1 : 1 ≤ k)
    (hk2 : k ≤ (RoRange.drain im (fullFuel d) (RoRange.fresh d sb eb)).length) :
    ∃ i cur, d.entries[i]? = some cur ∧ startOk sb cur.key = true ∧
      endOk eb cur.key = true ∧
      RoRange.consume im k (RoRange.fresh d sb eb) = ⟨⟨d, .posAt i⟩, false, sb, eb⟩ := by
  rw [rangeDrain_fresh hnd im] at hk2
  cases hl : findFrom d.entries 0 (startOkP sb) with
  | none =>
    rw [hl] at hk2
    simp at hk2
    omega
  | some le =>
    obtain ⟨l, eL⟩ := le
    rw [hl] at hk2
    simp only [List.length_map] at hk2
    have hidx : ∀ j, j < k → ∃ ej, d.entries[l + j]? = some ej ∧ endOkP eb ej = true := by
      intro j hj
      have hjlt : j < ((d.entries.drop l).takeWhile (endOkP eb)).length := by omega
      obtain ⟨ej, hej⟩ : ∃ ej, ((d.entries.drop l).takeWhile (endOkP eb))[j]? = some ej :=
        ⟨((d.entries.drop l).takeWhile (endOkP eb))[j], List.getElem?_eq_getElem hjlt⟩
      obtain ⟨hdropj, hpj⟩ := takeWhile_getElem? (d.entries.drop l) j ej hej
      rw [List.getElem?_drop] at hdropj
      exact ⟨ej, hdropj, hpj⟩
    obtain ⟨cur, hcur, hcurE⟩ := hidx (k - 1) (by omega)
    obtain ⟨e0, he0, -⟩ := hidx 0 (by omega)
    rw [show l + 0 = l from rfl] at he0
    refine ⟨l + (k - 1), cur, hcur, ?_, hcurE, ?_⟩
    · exact (startOk_index_iff hnd.sortedKeys hl hcur).mpr (by omega)
    · obtain ⟨k', rfl⟩ : ∃ k', k = k' + 1 := ⟨k - 1, by omega⟩
      have hfirst : (RoRange.next (RoRange.fresh d sb eb) im).2 =
          ⟨⟨d, .posAt l⟩, false, sb, eb⟩ := by
        have hstep := range_start_found hnd.sortedKeys hl CursorPos.unset
        simp only [RoRange.next, RoRange.fresh, freshCursor, if_true, hstep]
        by_cases hok : endOk eb eL.key = true
        · rw [hok]
          rfl
        · rw [Bool.eq_false_iff.mpr hok]
          rfl
      show RoRange.consume im k' (RoRange.next (RoRange.fresh d sb eb) im).2 = _
      rw [hfirst,
        range_consume_started hnd im k' l e0 he0 (fun m h1 h2 => by
          obtain ⟨em, hem, hpm⟩ := hidx (m - l) (by omega)
          rw [show l + (m - l) = m from by omega] at hem
          exact ⟨em, hem, hpm⟩),
        show l + k' = l + (k' + 1 - 1) from by omega]

/-- Consuming `k` items of a nonempty fresh prefix iterator parks the cursor on
the `k`-th drained entry, which carries the prefix. -/
theorem pfx_consume_pos {d : Db} (hnd : d.NoDupKeys) (im : IterationMethod)
    {p : Bytes} {k : Nat} (hk1 : 1 ≤ k)
    (hk2 : k ≤ (RoPfx.drain im (fullFuel d) (RoPfx.fresh d p)).length) :
    ∃ i cur, d.entries[i]? = some cur ∧ pfxP p cur = true ∧
      RoPfx.consume im k (RoPfx.fresh d p) = ⟨⟨d, .posAt i⟩, p, false⟩ := by
  rw [pfxDrain_fresh hnd im] at hk2
  cases hl : findFrom d.entries 0 (fun x => !(cmpB x.key p == .lt)) with
  | none =>
    rw [hl] at hk2
    simp at hk2
    omega
  | some le =>
    obtain ⟨l, eL⟩ := le
    rw [hl] at hk2
    simp only [List.length_map] at hk2
    have hidx : ∀ j, j < k → ∃ ej, d.entries[l + j]? = some ej ∧ pfxP p ej = true := by
      intro j hj
      have hjlt : j < ((d.entries.drop l).takeWhile (pfxP p)).length := by omega
      obtain ⟨ej, hej⟩ : ∃ ej, ((d.entries.drop l).takeWhile (pfxP p))[j]? = some ej :=
        ⟨((d.entries.drop l).takeWhile (pfxP p))[j], List.getElem?_eq_getElem hjlt⟩
      obtain ⟨hdropj, hpj⟩ := takeWhile_getElem? (d.entries.drop l) j ej hej
      rw [List.getElem?_drop] at hdropj
      exact ⟨ej, hdropj, hpj⟩
    obtain ⟨cur, hcur, hcurP⟩ := hidx (k - 1) (by omega)
    obtain ⟨e0, he0, -⟩ := hidx 0 (by omega)
    rw [show l + 0 = l from rfl] at he0
    refine ⟨l + (k - 1), cur, hcur, hcurP, ?_⟩
    obtain ⟨k', rfl⟩ : ∃ k', k = k' + 1 := ⟨k - 1, by omega⟩
    have hgstep : RoCursor.move_on_key_greater_than_or_equal_to ⟨d, .unset⟩ p =
        (.ok (some eL), ⟨d, .posAt l⟩) := by
      simp [RoCursor.move_on_key_greater_than_or_equal_to, mdb_cursor_get,
        EngineOps.opSetRange, hl, convGet]
    have hfirst : (RoPfx.next (RoPfx.fresh d p) im).2 = ⟨⟨d, .posAt l⟩, p, false⟩ := by
      simp only [RoPfx.next, RoPfx.fresh, freshCursor, if_true, hgstep]
      by_cases hok : p.isPrefixOf eL.key = true
      · rw [hok]
        rfl
      · rw [Bool.eq_false_iff.mpr hok]
        rfl
    show RoPfx.consume im k' (RoPfx.next (RoPfx.fresh d p) im).2 = _
    rw [hfirst,
      pfx_consume_started hnd im k' l e0 he0 (fun m h1 h2 => by
        obtain ⟨em, hem, hpm⟩ := hidx (m - l) (by omega)
        rw [show l + (m - l) = m from by omega] at hem
        exact ⟨em, hem, hpm⟩),
      show l + k' = l + (k' + 1 - 1) from by omega]

/-! ## Claim C1 -/

/-- C1 (amended): on a duplicate-free collection — and, for the prefix
iterator, valid byte keys and a prefix whose in-place successor computation
does not partially overflow (`GoodPfx`) — `last()` on a range or prefix
iterator returns exactly the final item that a full forward drain via repeated
`next()` would produce (and nothing when that drain is empty), both on a fresh
iterator and on one already partially consumed within its drain. As stated (any
collection, any duplicate-handling mode, any consumption) the claim fails: see
the counterexample with duplicate keys. -/
theorem claim_C1 {d : Db} (hnd : d.NoDupKeys) (im : IterationMethod)
    (sb eb : RBound) (p : Bytes) (hg : GoodPfx p) (hv : d.ValidKeys) :
    (RoRange.last (RoRange.fresh d sb eb) im =
      (RoRange.drain im (fullFuel d) (RoRange.fresh d sb eb)).getLast?) ∧
    ((RoPfx.last (RoPfx.fresh d p) im).1 =
      (RoPfx.drain im (fullFuel d) (RoPfx.fresh d p)).getLast?) ∧
    (∀ k, 1 ≤ k → k ≤ (RoRange.drain im (fullFuel d) (RoRange.fresh d sb eb)).length →
      RoRange.last (RoRange.consume im k (RoRange.fresh d sb eb)) im =
        (RoRange.drain im (fullFuel d)
          (RoRange.consume im k (RoRange.fresh d sb eb))).getLast?) ∧
    (∀ k, 1 ≤ k → k ≤ (RoPfx.drain im (fullFuel d) (RoPfx.fresh d p)).length →
      (RoPfx.last (RoPfx.consume im k (RoPfx.fresh d p)) im).1 =
        (RoPfx.drain im (fullFuel d) (RoPfx.consume im k (RoPfx.fresh d p))).getLast?) := by
  refine ⟨rangeLast_fresh hnd im sb eb, pfxLast_fresh hnd im hg hv, ?_, ?_⟩
  · intro k hk1 hk2
    obtain ⟨i, cur, hi, hs, he, hcons⟩ := range_consume_pos hnd im hk1 hk2
    rw [hcons]
    exact rangeLast_started hnd im hi hs he
  · intro k hk1 hk2
    obtain ⟨i, cur, hi, hp, hcons⟩ := pfx_consume_pos hnd im hk1 hk2
    rw [hcons]
    exact pfxLast_started hnd im hg hv hi hp

/-- C1 counterexample: on a collection holding a duplicated key (keys `[1]`,
`[2]`, `[2]`), iterating the range with end bound `Included [2]` in the
duplicate-crossing mode, `last()` on a fresh iterator lands on the FIRST
duplicate of the end key while the forward drain ends on the LAST duplicate,
so the two values differ. -/
theorem claim_C1_counterexample :
    RoRange.last
        (RoRange.fresh ⟨[⟨[1], [10]⟩, ⟨[2], [20]⟩, ⟨[2], [21]⟩]⟩
          .unbounded (.included [2]))
        .moveThroughDuplicateValues ≠
      (RoRange.drain .moveThroughDuplicateValues
        (fullFuel ⟨[⟨[1], [10]⟩, ⟨[2], [20]⟩, ⟨[2], [21]⟩]⟩)
        (RoRange.fresh ⟨[⟨[1], [10]⟩, ⟨[2], [20]⟩, ⟨[2], [21]⟩]⟩
          .unbounded (.included [2]))).getLast? := by
  decide

/-- The concrete duplicate-free collection the C1 witness instantiates. -/
def dbC1 : Db := ⟨[⟨[1], [10]⟩, ⟨[1, 3], [11]⟩, ⟨[2], [20]⟩]⟩

/-- C1 witness: the amended theorem applied to a concrete duplicate-free
collection, concrete range bounds and a concrete prefix. -/
theorem claim_C1_witness :
    dbC1.NoDupKeys ∧ GoodPfx [1] ∧ dbC1.ValidKeys ∧
    ((RoRange.last (RoRange.fresh dbC1 (.included [1]) (.excluded [2]))
        .moveBetweenKeys =
      (RoRange.drain .moveBetweenKeys (fullFuel dbC1)
        (RoRange.fresh dbC1 (.included [1]) (.excluded [2]))).getLast?) ∧
    ((RoPfx.last (RoPfx.fresh dbC1 [1]) .moveBetweenKeys).1 =
      (RoPfx.drain .moveBetweenKeys (fullFuel dbC1) (RoPfx.fresh dbC1 [1])).getLast?) ∧
    (∀ k, 1 ≤ k →
      k ≤ (RoRange.drain .moveBetweenKeys (fullFuel dbC1)
        (RoRange.fresh dbC1 (.included [1]) (.excluded [2]))).length →
      RoRange.last (RoRange.consume .moveBetweenKeys k
          (RoRange.fresh dbC1 (.included [1]) (.excluded [2]))) .moveBetweenKeys =
        (RoRange.drain .moveBetweenKeys (fullFuel dbC1)
          (RoRange.consume .moveBetweenKeys k
            (RoRange.fresh dbC1 (.included [1]) (.excluded [2])))).getLast?) ∧
    (∀ k, 1 ≤ k →
      k ≤ (RoPfx.drain .moveBetweenKeys (fullFuel dbC1) (RoPfx.fresh dbC1 [1])).length →
      (RoPfx.last (RoPfx.consume .moveBetweenKeys k (RoPfx.fresh dbC1 [1]))
          .moveBetweenKeys).1 =
        (RoPfx.drain .moveBetweenKeys (fullFuel dbC1)
          (RoPfx.consume .moveBetweenKeys k (RoPfx.fresh dbC1 [1]))).getLast?)) := by
  refine ⟨by unfold dbC1 Db.NoDupKeys; simp only [List.chain'_cons, List.chain'_singleton]; decide, by unfold GoodPfx; decide,
    by unfold dbC1 Db.ValidKeys; decide, ?_⟩
  exact claim_C1 (by unfold dbC1 Db.NoDupKeys; simp only [List.chain'_cons, List.chain'_singleton]; decide) .moveBetweenKeys
    (.included [1]) (.excluded [2]) [1] (by unfold GoodPfx; decide)
    (by unfold dbC1 Db.ValidKeys; decide)

/-! ## Bound invariance of range iteration (claim C3) -/

/-- On any collection, `move_on_range_end` either lands on an entry satisfying
the end-bound check or reports nothing — it never strays above the bound. -/
theorem range_end_general {d : Db} (eb : RBound) (pos : CursorPos) :
    (∃ j e, d.entries[j]? = some e ∧ endOk eb e.key = true ∧
      move_on_range_end ⟨d, pos⟩ eb = (.ok (some e), ⟨d, .posAt j⟩)) ∨
    ∃ c, move_on_range_end ⟨d, pos⟩ eb = (.ok none, c) := by
  cases eb with
  | unbounded =>
    cases hlast : d.entries[d.entries.length - 1]? with
    | some e =>
      left
      refine ⟨d.entries.length - 1, e, hlast, rfl, ?_⟩
      simp only [move_on_range_end]
      exact move_on_last_entry pos hlast (by simp)
    | none =>
      right
      refine ⟨⟨d, pos⟩, ?_⟩
      simp only [move_on_range_end]
      exact move_on_last_empty pos hlast (by simp)
  | included b =>
    cases hf : findFrom d.entries 0 (fun x => !(cmpB x.key b == .lt)) with
    | some jkd =>
      obtain ⟨j, kd⟩ := jkd
      obtain ⟨-, hkd, hpkd, hmin⟩ := findFrom_found hf
      have hrc : RoCursor.move_on_key_greater_than_or_equal_to ⟨d, pos⟩ b =
          (.ok (some kd), ⟨d, .posAt j⟩) := by
        simp [RoCursor.move_on_key_greater_than_or_equal_to, mdb_cursor_get,
          EngineOps.opSetRange, hf, convGet]
      by_cases heq : kd.key = b
      · left
        refine ⟨j, kd, hkd, ?_, ?_⟩
        · simp [endOk, heq, cmpB_refl]
          decide
        · simp only [move_on_range_end, hrc, if_pos heq]
      · have hstep : move_on_range_end ⟨d, pos⟩ (.included b) =
            RoCursor.move_on_prev ⟨d, .posAt j⟩ .NoDup := by
          simp only [move_on_range_end, hrc, if_neg heq]
        rcases move_on_prev_general hkd (by simp : MoveOperation.NoDup ≠ .Dup) with
          ⟨j2, e2, hj2, he2, hprev⟩ | hprev
        · left
          obtain ⟨e2', he2', hpe2⟩ := hmin j2 (Nat.zero_le j2) hj2
          rw [he2] at he2'
          cases Option.some.inj he2'
          have hlt : cmpB e2.key b = .lt := by
            rw [Bool.not_eq_false', ordBeq_true_iff] at hpe2
            exact hpe2
          refine ⟨j2, e2, he2, ?_, by rw [hstep, hprev]⟩
          simp [endOk, hlt, ordBeq_false_iff, ordBeq_true_iff]
        · right
          exact ⟨⟨d, .posAt j⟩, by rw [hstep, hprev]⟩
    | none =>
      have hrc : RoCursor.move_on_key_greater_than_or_equal_to ⟨d, pos⟩ b =
          (.ok none, ⟨d, .eof⟩) := by
        simp [RoCursor.move_on_key_greater_than_or_equal_to, mdb_cursor_get,
          EngineOps.opSetRange, hf, convGet, MDB_NOTFOUND]
      have hstep : move_on_range_end ⟨d, pos⟩ (.included b) =
          RoCursor.move_on_prev ⟨d, .eof⟩ .NoDup := by
        simp only [move_on_range_end, hrc]
      cases hlast : d.entries[d.entries.length - 1]? with
      | some eL =>
        left
        have hfd : findDown d.entries (d.entries.length - 1) (fun _ => true) =
            some (d.entries.length - 1, eL) :=
          @findDown_self d.entries (d.entries.length - 1) eL (fun _ => true) hlast rfl
        have hlt : cmpB eL.key b = .lt := by
          have := findFrom_none hf (d.entries.length - 1) eL (Nat.zero_le _) hlast
          rw [Bool.not_eq_false', ordBeq_true_iff] at this
          exact this
        refine ⟨d.entries.length - 1, eL, hlast, by simp [endOk, hlt, ordBeq_false_iff, ordBeq_true_iff], ?_⟩
        rw [hstep]
        simp [RoCursor.move_on_prev, mdb_cursor_get, EngineOps.opPrevNoDup,
          EngineOps.opLast, hfd, convGet]
      | none =>
        right
        have hfd : findDown d.entries (d.entries.length - 1) (fun _ => true) = none :=
          findDown_start_none hlast
        refine ⟨⟨d, .eof⟩, ?_⟩
        rw [hstep]
        simp [RoCursor.move_on_prev, mdb_cursor_get, EngineOps.opPrevNoDup,
          EngineOps.opLast, hfd, convGet, MDB_NOTFOUND]
  | excluded b =>
    cases hf : findFrom d.entries 0 (fun x => !(cmpB x.key b == .lt)) with
    | some jkd =>
      obtain ⟨j, kd⟩ := jkd
      obtain ⟨-, hkd, hpkd, hmin⟩ := findFrom_found hf
      have hrc : RoCursor.move_on_key_greater_than_or_equal_to ⟨d, pos⟩ b =
          (.ok (some kd), ⟨d, .posAt j⟩) := by
        simp [RoCursor.move_on_key_greater_than_or_equal_to, mdb_cursor_get,
          EngineOps.opSetRange, hf, convGet]
      have hstep : move_on_range_end ⟨d, pos⟩ (.excluded b) =
          RoCursor.move_on_prev ⟨d, .posAt j⟩ .NoDup := by
        simp only [move_on_range_end, hrc]
      rcases move_on_prev_general hkd (by simp : MoveOperation.NoDup ≠ .Dup) with
        ⟨j2, e2, hj2, he2, hprev⟩ | hprev
      · left
        obtain ⟨e2', he2', hpe2⟩ := hmin j2 (Nat.zero_le j2) hj2
        rw [he2] at he2'
        cases Option.some.inj he2'
        have hlt : cmpB e2.key b = .lt := by
          rw [Bool.not_eq_false', ordBeq_true_iff] at hpe2
          exact hpe2
        refine ⟨j2, e2, he2, ?_, by rw [hstep, hprev]⟩
        simp [endOk, hlt, ordBeq_false_iff, ordBeq_true_iff]
      · right
        exact ⟨⟨d, .posAt j⟩, by rw [hstep, hprev]⟩
    | none =>
      have hrc : RoCursor.move_on_key_greater_than_or_equal_to ⟨d, pos⟩ b =
          (.ok none, ⟨d, .eof⟩) := by
        simp [RoCursor.move_on_key_greater_than_or_equal_to, mdb_cursor_get,
          EngineOps.opSetRange, hf, convGet, MDB_NOTFOUND]
      have hstep : move_on_range_end ⟨d, pos⟩ (.excluded b) =
          RoCursor.move_on_prev ⟨d, .eof⟩ .NoDup := by
        simp only [move_on_range_end, hrc]
      cases hlast : d.entries[d.entries.length - 1]? with
      | some eL =>
        left
        have hfd : findDown d.entries (d.entries.length - 1) (fun _ => true) =
            some (d.entries.length - 1, eL) :=
          @findDown_self d.entries (d.entries.length - 1) eL (fun _ => true) hlast rfl
        have hlt : cmpB eL.key b = .lt := by
          have := findFrom_none hf (d.entries.length - 1) eL (Nat.zero_le _) hlast
          rw [Bool.not_eq_false', ordBeq_true_iff] at this
          exact this
        refine ⟨d.entries.length - 1, eL, hlast, by simp [endOk, hlt, ordBeq_false_iff, ordBeq_true_iff], ?_⟩
        rw [hstep]
        simp [RoCursor.move_on_prev, mdb_cursor_get, EngineOps.opPrevNoDup,
          EngineOps.opLast, hfd, convGet]
      | none =>
        right
        have hfd : findDown d.entries (d.entries.length - 1) (fun _ => true) = none :=
          findDown_start_none hlast
        refine ⟨⟨d, .eof⟩, ?_⟩
        rw [hstep]
        simp [RoCursor.move_on_prev, mdb_cursor_get, EngineOps.opPrevNoDup,
          EngineOps.opLast, hfd, convGet, MDB_NOTFOUND]

/-- Every item a started forward range iterator yields is an `ok` entry lying
within both bounds, on a key-sorted collection (duplicates allowed). -/
theorem rangeDrain_bounds_started {d : Db} (hs : d.SortedKeys) (im : IterationMethod)
    {sb eb : RBound} :
    ∀ fuel i cur, d.entries[i]? = some cur → startOk sb cur.key = true →
    ∀ x ∈ RoRange.drain im fuel ⟨⟨d, .posAt i⟩, false, sb, eb⟩,
    ∃ e, x = .ok e ∧ startOk sb e.key = true ∧ endOk eb e.key = true := by
  intro fuel
  induction fuel with
  | zero =>
    intro i cur hi hok x hx
    simp [RoRange.drain] at hx
  | succ fuel ih =>
    intro i cur hi hok x hx
    rcases move_on_next_general hi (im_move_ne_dup im) with ⟨j, e', hij, hj, hstep⟩ | hstep
    · have hsOk' : startOk sb e'.key = true :=
        startOk_mono hok (sorted_le_of_getElem? hs hi hj (by omega))
      by_cases hend : endOk eb e'.key = true
      · have hdr : RoRange.drain im (fuel + 1) ⟨⟨d, .posAt i⟩, false, sb, eb⟩ =
            .ok e' :: RoRange.drain im fuel ⟨⟨d, .posAt j⟩, false, sb, eb⟩ := by
          simp only [RoRange.drain, RoRange.next, if_false, Bool.false_eq_true,
            ite_false, hstep, hend, if_true]
        rw [hdr] at hx
        rcases List.mem_cons.mp hx with rfl | hx'
        · exact ⟨e', rfl, hsOk', hend⟩
        · exact ih j e' hj hsOk' x hx'
      · have hend' : endOk eb e'.key = false := Bool.eq_false_iff.mpr hend
        have hdr : RoRange.drain im (fuel + 1) ⟨⟨d, .posAt i⟩, false, sb, eb⟩ = [] := by
          simp only [RoRange.drain, RoRange.next, if_false, Bool.false_eq_true,
            ite_false, hstep, hend']
        rw [hdr] at hx
        cases hx
    · have hdr : RoRange.drain im (fuel + 1) ⟨⟨d, .posAt i⟩, false, sb, eb⟩ = [] := by
        simp only [RoRange.drain, RoRange.next, if_false, Bool.false_eq_true,
          ite_false, hstep]
      rw [hdr] at hx
      cases hx

/-- Every item a fresh forward range iterator yields is an `ok` entry lying
within both bounds, on a key-sorted collection (duplicates allowed). -/
theorem rangeDrain_bounds_fresh {d : Db} (hs : d.SortedKeys) (im : IterationMethod)
    {sb eb : RBound} (fuel : Nat) :
    ∀ x ∈ RoRange.drain im fuel (RoRange.fresh d sb eb),
    ∃ e, x = .ok e ∧ startOk sb e.key = true ∧ endOk eb e.key = true := by
  cases fuel with
  | zero =>
    intro x hx
    simp [RoRange.drain] at hx
  | succ fuel =>
    intro x hx
    cases hf : findFrom d.entries 0 (startOkP sb) with
    | some le =>
      obtain ⟨l, eL⟩ := le
      obtain ⟨-, hle, hpeL, -⟩ := findFrom_found hf
      have hsOk : startOk sb eL.key = true := hpeL
      have hstep := range_start_found hs hf CursorPos.unset
      by_cases hend : endOk eb eL.key = true
      · have hdr : RoRange.drain im (fuel + 1) (RoRange.fresh d sb eb) =
            .ok eL :: RoRange.drain im fuel ⟨⟨d, .posAt l⟩, false, sb, eb⟩ := by
          simp only [RoRange.drain, RoRange.next, RoRange.fresh, freshCursor, if_true,
            hstep, hend]
        rw [hdr] at hx
        rcases List.mem_cons.mp hx with rfl | hx'
        · exact ⟨eL, rfl, hsOk, hend⟩
        · exact rangeDrain_bounds_started hs im fuel l eL hle hsOk x hx'
      · have hend' : endOk eb eL.key = false := Bool.eq_false_iff.mpr hend
        have hdr : RoRange.drain im (fuel + 1) (RoRange.fresh d sb eb) = [] := by
          simp only [RoRange.drain, RoRange.next, RoRange.fresh, freshCursor, if_true,
            hstep, hend', Bool.false_eq_true, ite_false]
        rw [hdr] at hx
        cases hx
    | none =>
      cases hrc : move_on_range_start (⟨d, .unset⟩ : RoCursor) sb with
      | mk r1 c2 =>
        have h1 : r1 = .ok none := by
          have := range_start_none hs hf CursorPos.unset
          rw [hrc] at this
          exact this
        subst h1
        have hdr : RoRange.drain im (fuel + 1) (RoRange.fresh d sb eb) = [] := by
          simp only [RoRange.drain, RoRange.next, RoRange.fresh, freshCursor, if_true, hrc]
        rw [hdr] at hx
        cases hx

/-- Every item a started reverse range iterator yields is an `ok` entry lying
within both bounds, on a key-sorted collection (duplicates allowed). -/
theorem revRangeDrain_bounds_started {d : Db} (hs : d.SortedKeys) (im : IterationMethod)
    {sb eb : RBound} :
    ∀ fuel i cur, d.entries[i]? = some cur → endOk eb cur.key = true →
    ∀ x ∈ RoRevRange.drain im fuel ⟨⟨d, .posAt i⟩, false, sb, eb⟩,
    ∃ e, x = .ok e ∧ startOk sb e.key = true ∧ endOk eb e.key = true := by
  intro fuel
  induction fuel with
  | zero =>
    intro i cur hi hok x hx
    simp [RoRevRange.drain] at hx
  | succ fuel ih =>
    intro i cur hi hok x hx
    rcases move_on_prev_general hi (im_move_ne_dup im) with ⟨j, e', hij, hj, hstep⟩ | hstep
    · have heOk' : endOk eb e'.key = true :=
        endOk_mono hok (sorted_le_of_getElem? hs hj hi (by omega))
      by_cases hstart : startOk sb e'.key = true
      · have hdr : RoRevRange.drain im (fuel + 1) ⟨⟨d, .posAt i⟩, false, sb, eb⟩ =
            .ok e' :: RoRevRange.drain im fuel ⟨⟨d, .posAt j⟩, false, sb, eb⟩ := by
          simp only [RoRevRange.drain, RoRevRange.next, if_false, Bool.false_eq_true,
            ite_false, hstep, hstart, if_true]
        rw [hdr] at hx
        rcases List.mem_cons.mp hx with rfl | hx'
        · exact ⟨e', rfl, hstart, heOk'⟩
        · exact ih j e' hj heOk' x hx'
      · have hstart' : startOk sb e'.key = false := Bool.eq_false_iff.mpr hstart
        have hdr : RoRevRange.drain im (fuel + 1) ⟨⟨d, .posAt i⟩, false, sb, eb⟩ = [] := by
          simp only [RoRevRange.drain, RoRevRange.next, if_false, Bool.false_eq_true,
            ite_false, hstep, hstart']
        rw [hdr] at hx
        cases hx
    · have hdr : RoRevRange.drain im (fuel + 1) ⟨⟨d, .posAt i⟩, false, sb, eb⟩ = [] := by
        simp only [RoRevRange.drain, RoRevRange.next, if_false, Bool.false_eq_true,
          ite_false, hstep]
      rw [hdr] at hx
      cases hx

/-- Every item a fresh reverse range iterator yields is an `ok` entry lying
within both bounds, on a key-sorted collection (duplicates allowed). -/
theorem revRangeDrain_bounds_fresh {d : Db} (hs : d.SortedKeys) (im : IterationMethod)
    {sb eb : RBound} (fuel : Nat) :
    ∀ x ∈ RoRevRange.drain im fuel (RoRevRange.fresh d sb eb),
    ∃ e, x = .ok e ∧ startOk sb e.key = true ∧ endOk eb e.key = true := by
  cases fuel with
  | zero =>
    intro x hx
    simp [RoRevRange.drain] at hx
  | succ fuel =>
    intro x hx
    rcases range_end_general (d := d) eb CursorPos.unset with
      ⟨j, e, hj, hend, hstep⟩ | ⟨c, hstep⟩
    · by_cases hstart : startOk sb e.key = true
      · have hdr : RoRevRange.drain im (fuel + 1) (RoRevRange.fresh d sb eb) =
            .ok e :: RoRevRange.drain im fuel ⟨⟨d, .posAt j⟩, false, sb, eb⟩ := by
          simp only [RoRevRange.drain, RoRevRange.next, RoRevRange.fresh, freshCursor,
            if_true, hstep, hstart]
        rw [hdr] at hx
        rcases List.mem_cons.mp hx with rfl | hx'
        · exact ⟨e, rfl, hstart, hend⟩
        · exact revRangeDrain_bounds_started hs im fuel j e hj hend x hx'
      · have hstart' : startOk sb e.key = false := Bool.eq_false_iff.mpr hstart
        have hdr : RoRevRange.drain im (fuel + 1) (RoRevRange.fresh d sb eb) = [] := by
          simp only [RoRevRange.drain, RoRevRange.next, RoRevRange.fresh, freshCursor,
            if_true, hstep, hstart', Bool.false_eq_true, ite_false]
        rw [hdr] at hx
        cases hx
    · have hdr : RoRevRange.drain im (fuel + 1) (RoRevRange.fresh d sb eb) = [] := by
        simp only [RoRevRange.drain, RoRevRange.next, RoRevRange.fresh, freshCursor,
          if_true, hstep]
      rw [hdr] at hx
      cases hx

/-! ## Claim C3 -/

/-- C3: on a key-sorted collection (the engine invariant; duplicate keys
allowed), a forward or reverse range iterator never yields a key outside its
declared bounds: however many `next()` calls are made, every yielded item is a
successful entry whose key passes both the start-bound and the end-bound
comparator check, in either duplicate-handling mode. -/
theorem claim_C3 {d : Db} (hs : d.SortedKeys) (im : IterationMethod)
    (sb eb : RBound) (fuel : Nat) :
    (∀ x ∈ RoRange.drain im fuel (RoRange.fresh d sb eb),
      ∃ e, x = .ok e ∧ startOk sb e.key = true ∧ endOk eb e.key = true) ∧
    (∀ x ∈ RoRevRange.drain im fuel (RoRevRange.fresh d sb eb),
      ∃ e, x = .ok e ∧ startOk sb e.key = true ∧ endOk eb e.key = true) :=
  ⟨rangeDrain_bounds_fresh hs im fuel, revRangeDrain_bounds_fresh hs im fuel⟩

/-- C3 witness: the bound invariant applied to a concrete sorted collection
with a duplicated key and concrete exclusive/inclusive bounds. -/
theorem claim_C3_witness :
    (⟨[⟨[1], [10]⟩, ⟨[2], [20]⟩, ⟨[2], [21]⟩, ⟨[3], [30]⟩]⟩ : Db).SortedKeys ∧
    ((∀ x ∈ RoRange.drain .moveThroughDuplicateValues 5
        (RoRange.fresh ⟨[⟨[1], [10]⟩, ⟨[2], [20]⟩, ⟨[2], [21]⟩, ⟨[3], [30]⟩]⟩
          (.excluded [1]) (.included [2])),
      ∃ e, x = .ok e ∧ startOk (.excluded [1]) e.key = true ∧
        endOk (.included [2]) e.key = true) ∧
    (∀ x ∈ RoRevRange.drain .moveThroughDuplicateValues 5
        (RoRevRange.fresh ⟨[⟨[1], [10]⟩, ⟨[2], [20]⟩, ⟨[2], [21]⟩, ⟨[3], [30]⟩]⟩
          (.excluded [1]) (.included [2])),
      ∃ e, x = .ok e ∧ startOk (.excluded [1]) e.key = true ∧
        endOk (.included [2]) e.key = true)) := by
  refine ⟨?_, claim_C3 ?_ .moveThroughDuplicateValues (.excluded [1]) (.included [2]) 5⟩ <;>
    (unfold Db.SortedKeys
     simp only [List.chain'_cons, List.chain'_singleton]
     decide)

/-! ## Claim C4: the not-found condition never escapes a cursor primitive -/

theorem convGet_ne_notfound (g : MdbGet) :
    (convGet g).1 ≠ .error (.mdb MDB_NOTFOUND) := by
  cases g with
  | found c e => simp [convGet]
  | failed c code =>
    by_cases h : code = MDB_NOTFOUND
    · simp [convGet, h]
    · simp only [convGet, if_neg h]
      intro hc
      exact h (Error.mdb.inj (Except.error.inj hc))

/-- C4 (amended): `current`, `move_on_next`, `move_on_prev`, `move_on_key`,
`move_on_key_greater_than_or_equal_to` and `del_current` convert the engine's
not-found condition into `Ok(None)`/`Ok(false)` in every duplicate mode, and so
do `move_on_first`/`move_on_last` in modes Any and NoDup; but in Dup mode those
two propagate a failure of their inner `MDB_FIRST_DUP`/`MDB_LAST_DUP` call raw
to the caller — including the engine's not-found (reachable at a stale
past-the-end cursor; see the counterexample) — only their second,
`MDB_GET_CURRENT`, call is converted. -/
theorem claim_C4 (c : RoCursor) (op : MoveOperation) (k : Bytes) :
    (∀ (g : MdbGet) (c2 : RoCursor), g = .failed c2 MDB_NOTFOUND →
      convGet g = (.ok none, c2)) ∧
    (∀ c2, mdb_cursor_get c (.set k) = .failed c2 MDB_NOTFOUND →
      RoCursor.move_on_key c k = (.ok false, c2)) ∧
    (∀ c2, mdb_cursor_del c = .delFailed c2 MDB_NOTFOUND →
      RwCursor.del_current c = (.ok false, c2)) ∧
    (RoCursor.current c).1 ≠ .error (.mdb MDB_NOTFOUND) ∧
    (op ≠ .Dup → (RoCursor.move_on_first c op).1 ≠ .error (.mdb MDB_NOTFOUND)) ∧
    (op ≠ .Dup → (RoCursor.move_on_last c op).1 ≠ .error (.mdb MDB_NOTFOUND)) ∧
    (RoCursor.move_on_next c op).1 ≠ .error (.mdb MDB_NOTFOUND) ∧
    (RoCursor.move_on_prev c op).1 ≠ .error (.mdb MDB_NOTFOUND) ∧
    (RoCursor.move_on_key c k).1 ≠ .error (.mdb MDB_NOTFOUND) ∧
    (RoCursor.move_on_key_greater_than_or_equal_to c k).1 ≠
      .error (.mdb MDB_NOTFOUND) ∧
    (RwCursor.del_current c).1 ≠ .error (.mdb MDB_NOTFOUND) ∧
    (∀ c2 code, mdb_cursor_get c .firstDup = .failed c2 code →
      RoCursor.move_on_first c .Dup = (.error (.mdb code), c2)) ∧
    (∀ c2 code, mdb_cursor_get c .lastDup = .failed c2 code →
      RoCursor.move_on_last c .Dup = (.error (.mdb code), c2)) := by
  refine ⟨?_, ?_, ?_, ?_, ?_, ?_, ?_, ?_, ?_, ?_, ?_, ?_, ?_⟩
  · intro g c2 hg
    subst hg
    simp [convGet]
  · intro c2 hg
    unfold RoCursor.move_on_key
    rw [hg]
    simp
  · intro c2 hg
    unfold RwCursor.del_current
    rw [hg]
    simp
  · exact convGet_ne_notfound _
  · intro hop
    cases op with
    | Any => exact convGet_ne_notfound _
    | NoDup => exact convGet_ne_notfound _
    | Dup => exact absurd rfl hop
  · intro hop
    cases op with
    | Any => exact convGet_ne_notfound _
    | NoDup => exact convGet_ne_notfound _
    | Dup => exact absurd rfl hop
  · cases op with
    | Any => exact convGet_ne_notfound _
    | NoDup => exact convGet_ne_notfound _
    | Dup => exact convGet_ne_notfound _
  · cases op with
    | Any => exact convGet_ne_notfound _
    | NoDup => exact convGet_ne_notfound _
    | Dup => exact convGet_ne_notfound _
  · unfold RoCursor.move_on_key
    cases hg : mdb_cursor_get c (.set k) with
    | found c' e => simp
    | failed c' code =>
      by_cases h : code = MDB_NOTFOUND
      · simp [h]
      · simp only [if_neg h]
        intro hc
        exact h (Error.mdb.inj (Except.error.inj hc))
  · exact convGet_ne_notfound _
  · unfold RwCursor.del_current
    cases hg : mdb_cursor_del c with
    | delOk c' => simp
    | delFailed c' code =>
      by_cases h : code = MDB_NOTFOUND
      · simp [h]
      · simp only [if_neg h]
        intro hc
        exact h (Error.mdb.inj (Except.error.inj hc))
  · intro c2 code hg
    show (match mdb_cursor_get c .firstDup with
      | .failed c' code2 => ((.error (.mdb code2) : Res (Option Entry)), c')
      | .found c' _ => convGet (mdb_cursor_get c' .getCurrent)) = _
    rw [hg]
  · intro c2 code hg
    show (match mdb_cursor_get c .lastDup with
      | .failed c' code2 => ((.error (.mdb code2) : Res (Option Entry)), c')
      | .found c' _ => convGet (mdb_cursor_get c' .getCurrent)) = _
    rw [hg]

/-- C4 counterexample: deleting a collection's only entry leaves the cursor on
a stale past-the-end index; from that state `move_on_first` in Dup mode
surfaces the engine's not-found to the caller as an error, unconverted — the
inner first-duplicate call's failure is propagated raw. -/
theorem claim_C4_counterexample :
    (RoCursor.move_on_first
      (RwCursor.del_current ⟨⟨[⟨[1], [10]⟩]⟩, .posAt 0⟩).2 .Dup).1 =
      .error (.mdb MDB_NOTFOUND) := by
  decide

/-! ## Claim C5: iterator behaviour across an engine failure

To expose an engine failure mid-traversal the engine calls are routed through a
cursor carrying a fault schedule: `some code` makes the next engine call fail
with that code (the cursor stays where it was, as the engine leaves it on
failure), `none` lets the call through unchanged. An empty schedule means no
further faults. -/

structure FCursor where
  cursor : RoCursor
  faults : List (Option Nat)
deriving DecidableEq

def FCursor.step (fc : FCursor) (move : RoCursor → Res (Option Entry) × RoCursor) :
    Res (Option Entry) × FCursor :=
  match fc.faults with
  | [] => ((move fc.cursor).1, ⟨(move fc.cursor).2, []⟩)
  | none :: rest => ((move fc.cursor).1, ⟨(move fc.cursor).2, rest⟩)
  | some code :: rest => (.error (.mdb code), ⟨fc.cursor, rest⟩)

/-- `RoIter::next` over the fault-injecting cursor; the yielded item and state
update mirror `RoIter.next` exactly. -/
structure RoIterF where
  cursor : FCursor
  move_on_first : Bool
deriving DecidableEq

def RoIterF.next (s : RoIterF) (im : IterationMethod) : Option (Res Entry) × RoIterF :=
  let rc := s.cursor.step (fun c =>
    if s.move_on_first then c.move_on_first im.MOVE_OPERATION
    else c.move_on_next im.MOVE_OPERATION)
  match rc.1 with
  | .ok (some e) => (some (.ok e), ⟨rc.2, false⟩)
  | .ok none => (none, ⟨rc.2, false⟩)
  | .error er => (some (.error er), ⟨rc.2, false⟩)

/-- `RoRange::next` over the fault-injecting cursor. -/
structure RoRangeF where
  cursor : FCursor
  move_on_start : Bool
  start_bound : RBound
  end_bound : RBound
deriving DecidableEq

def RoRangeF.next (s : RoRangeF) (im : IterationMethod) :
    Option (Res Entry) × RoRangeF :=
  let rc := s.cursor.step (fun c =>
    if s.move_on_start then move_on_range_start c s.start_bound
    else c.move_on_next im.MOVE_OPERATION)
  let s' : RoRangeF := { s with cursor := rc.2, move_on_start := false }
  match rc.1 with
  | .ok (some e) =>
    if endOk s.end_bound e.key then (some (.ok e), s') else (none, s')
  | .ok none => (none, s')
  | .error er => (some (.error er), s')

/-- With no fault pending, the fault-injecting iterator takes exactly the step
the plain iterator takes. -/
theorem iterF_faultfree_next (c : RoCursor) (first : Bool) (im : IterationMethod)
    (rest : List (Option Nat)) :
    (RoIterF.next ⟨⟨c, none :: rest⟩, first⟩ im).1 = (RoIter.next ⟨c, first⟩ im).1 ∧
    (RoIterF.next ⟨⟨c, none :: rest⟩, first⟩ im).2.cursor.cursor =
      (RoIter.next ⟨c, first⟩ im).2.cursor := by
  cases hrc : (if first then RoCursor.move_on_first c im.MOVE_OPERATION
      else RoCursor.move_on_next c im.MOVE_OPERATION) with
  | mk r c2 =>
    simp only [RoIterF.next, RoIter.next, FCursor.step, hrc]
    cases r with
    | ok o => cases o <;> exact ⟨rfl, rfl⟩
    | error er => exact ⟨rfl, rfl⟩

/-- C5 (amended): when an engine call made by `next()` fails, the iterator —
plain or range — yields that error exactly once, as its next item; the failure
consumes one schedule entry, leaves the underlying cursor position unchanged
and clears the first-move flag, so the iterator is NOT fused: the following
`next()` issues its engine call normally and can yield further items (see the
counterexample against the original "iteration stops" wording). -/
theorem claim_C5 (c : RoCursor) (first : Bool) (im : IterationMethod)
    (sb eb : RBound) (code : Nat) (rest : List (Option Nat)) :
    (RoIterF.next ⟨⟨c, some code :: rest⟩, first⟩ im).1 =
      some (.error (.mdb code)) ∧
    (RoIterF.next ⟨⟨c, some code :: rest⟩, first⟩ im).2 = ⟨⟨c, rest⟩, false⟩ ∧
    (RoRangeF.next ⟨⟨c, some code :: rest⟩, first, sb, eb⟩ im).1 =
      some (.error (.mdb code)) ∧
    (RoRangeF.next ⟨⟨c, some code :: rest⟩, first, sb, eb⟩ im).2 =
      ⟨⟨c, rest⟩, false, sb, eb⟩ :=
  ⟨rfl, rfl, rfl, rfl⟩

/-- C5 counterexample: on a two-entry collection with a single injected engine
failure on the second call, the iterator yields the error once — and the third
call still yields the second entry, so iteration does not stop at the error. -/
theorem claim_C5_counterexample :
    (RoIterF.next (RoIterF.next
        (⟨⟨⟨⟨[⟨[1], [10]⟩, ⟨[2], [20]⟩]⟩, .unset⟩, [none, some 7]⟩, true⟩ : RoIterF)
        .moveThroughDuplicateValues).2 .moveThroughDuplicateValues).1 =
      some (.error (.mdb 7)) ∧
    (RoIterF.next (RoIterF.next (RoIterF.next
        (⟨⟨⟨⟨[⟨[1], [10]⟩, ⟨[2], [20]⟩]⟩, .unset⟩, [none, some 7]⟩, true⟩ : RoIterF)
        .moveThroughDuplicateValues).2 .moveThroughDuplicateValues).2
        .moveThroughDuplicateValues).1 =
      some (.ok ⟨[2], [20]⟩) := by
  decide

/-! ## Claim C6: the bound-resolution algorithm

`resolveStartSpec`/`resolveEndSpec` restate the SPEC's resolution algorithm
over the entry list: Included start → seek to the smallest key ≥ start;
Excluded start → the same seek, then advance to the next distinct key when the
found key equals the bound; Unbounded → the first entry; Included end → seek to
≥ end, keep the position on exact match, else step back one key; Excluded
end → seek to ≥ end then always step back one key; Unbounded → the last
entry. -/

def resolveStartSpec (es : List Entry) (sb : RBound) : Option (Nat × Entry) :=
  match sb with
  | .unbounded => findFrom es 0 (fun _ => true)
  | .included s => findFrom es 0 (fun e => !(cmpB e.key s == .lt))
  | .excluded s =>
    match findFrom es 0 (fun e => !(cmpB e.key s == .lt)) with
    | some (j, e) =>
      if e.key = s then findFrom es (j + 1) (fun e2 => !decide (e2.key = s))
      else some (j, e)
    | none => none

def resolveEndSpec (es : List Entry) (eb : RBound) : Option (Nat × Entry) :=
  match eb with
  | .unbounded => findDown es (es.length - 1) (fun _ => true)
  | .included s =>
    match findFrom es 0 (fun e => !(cmpB e.key s == .lt)) with
    | some (j, e) =>
      if e.key = s then some (j, e)
      else if j = 0 then none
      else findDown es (j - 1) (fun e2 => !decide (e2.key = e.key))
    | none => findDown es (es.length - 1) (fun _ => true)
  | .excluded s =>
    match findFrom es 0 (fun e => !(cmpB e.key s == .lt)) with
    | some (j, e) =>
      if j = 0 then none
      else findDown es (j - 1) (fun e2 => !decide (e2.key = e.key))
    | none => findDown es (es.length - 1) (fun _ => true)

theorem resolveStart_some {d : Db} {sb : RBound} {l : Nat} {e : Entry} (pos : CursorPos)
    (h : resolveStartSpec d.entries sb = some (l, e)) :
    move_on_range_start ⟨d, pos⟩ sb = (.ok (some e), ⟨d, .posAt l⟩) := by
  cases sb with
  | unbounded =>
    simp only [resolveStartSpec] at h
    simp [move_on_range_start, RoCursor.move_on_first, mdb_cursor_get,
      EngineOps.opFirst, h, convGet]
  | included s =>
    simp only [resolveStartSpec] at h
    simp [move_on_range_start, RoCursor.move_on_key_greater_than_or_equal_to,
      mdb_cursor_get, EngineOps.opSetRange, h, convGet]
  | excluded s =>
    simp only [resolveStartSpec] at h
    cases hf : findFrom d.entries 0 (fun x => !(cmpB x.key s == .lt)) with
    | none => simp [hf] at h
    | some jkd =>
      obtain ⟨j, kd⟩ := jkd
      simp only [hf] at h
      obtain ⟨-, hj, -, -⟩ := findFrom_found hf
      have hrc : RoCursor.move_on_key_greater_than_or_equal_to ⟨d, pos⟩ s =
          (.ok (some kd), ⟨d, .posAt j⟩) := by
        simp [RoCursor.move_on_key_greater_than_or_equal_to, mdb_cursor_get,
          EngineOps.opSetRange, hf, convGet]
      by_cases heq : kd.key = s
      · rw [if_pos heq] at h
        have h' : findFrom d.entries (j + 1) (fun e2 => !decide (e2.key = kd.key)) =
            some (l, e) := by
          rw [heq]
          exact h
        simp only [move_on_range_start, hrc, if_pos heq]
        simp [RoCursor.move_on_next, mdb_cursor_get, EngineOps.opNextNoDup, hj,
          h', convGet]
      · rw [if_neg heq] at h
        cases Option.some.inj h
        simp only [move_on_range_start, hrc, if_neg heq]

theorem resolveStart_none {d : Db} {sb : RBound} (pos : CursorPos)
    (h : resolveStartSpec d.entries sb = none) :
    (move_on_range_start ⟨d, pos⟩ sb).1 = .ok none := by
  cases sb with
  | unbounded =>
    simp only [resolveStartSpec] at h
    simp [move_on_range_start, RoCursor.move_on_first, mdb_cursor_get,
      EngineOps.opFirst, h, convGet, MDB_NOTFOUND]
  | included s =>
    simp only [resolveStartSpec] at h
    simp [move_on_range_start, RoCursor.move_on_key_greater_than_or_equal_to,
      mdb_cursor_get, EngineOps.opSetRange, h, convGet, MDB_NOTFOUND]
  | excluded s =>
    simp only [resolveStartSpec] at h
    cases hf : findFrom d.entries 0 (fun x => !(cmpB x.key s == .lt)) with
    | none =>
      have hrc : RoCursor.move_on_key_greater_than_or_equal_to ⟨d, pos⟩ s =
          (.ok none, ⟨d, .eof⟩) := by
        simp [RoCursor.move_on_key_greater_than_or_equal_to, mdb_cursor_get,
          EngineOps.opSetRange, hf, convGet, MDB_NOTFOUND]
      simp only [move_on_range_start, hrc]
    | some jkd =>
      obtain ⟨j, kd⟩ := jkd
      simp only [hf] at h
      obtain ⟨-, hj, -, -⟩ := findFrom_found hf
      have hrc : RoCursor.move_on_key_greater_than_or_equal_to ⟨d, pos⟩ s =
          (.ok (some kd), ⟨d, .posAt j⟩) := by
        simp [RoCursor.move_on_key_greater_than_or_equal_to, mdb_cursor_get,
          EngineOps.opSetRange, hf, convGet]
      by_cases heq : kd.key = s
      · rw [if_pos heq] at h
        have h' : findFrom d.entries (j + 1) (fun e2 => !decide (e2.key = kd.key)) =
            none := by
          rw [heq]
          exact h
        simp only [move_on_range_start, hrc, if_pos heq]
        simp [RoCursor.move_on_next, mdb_cursor_get, EngineOps.opNextNoDup, hj,
          h', convGet, MDB_NOTFOUND]
      · rw [if_neg heq] at h
        cases h

theorem resolveEnd_some {d : Db} {eb : RBound} {u : Nat} {e : Entry} (pos : CursorPos)
    (h : resolveEndSpec d.entries eb = some (u, e)) :
    move_on_range_end ⟨d, pos⟩ eb = (.ok (some e), ⟨d, .posAt u⟩) := by
  cases eb with
  | unbounded =>
    simp only [resolveEndSpec] at h
    simp [move_on_range_end, RoCursor.move_on_last, mdb_cursor_get,
      EngineOps.opLast, h, convGet]
  | included s =>
    simp only [resolveEndSpec] at h
    cases hf : findFrom d.entries 0 (fun x => !(cmpB x.key s == .lt)) with
    | none =>
      simp only [hf] at h
      have hrc : RoCursor.move_on_key_greater_than_or_equal_to ⟨d, pos⟩ s =
          (.ok none, ⟨d, .eof⟩) := by
        simp [RoCursor.move_on_key_greater_than_or_equal_to, mdb_cursor_get,
          EngineOps.opSetRange, hf, convGet, MDB_NOTFOUND]
      simp only [move_on_range_end, hrc]
      simp [RoCursor.move_on_prev, mdb_cursor_get, EngineOps.opPrevNoDup,
        EngineOps.opLast, h, convGet]
    | some jkd =>
      obtain ⟨j, kd⟩ := jkd
      simp only [hf] at h
      obtain ⟨-, hj, -, -⟩ := findFrom_found hf
      have hrc : RoCursor.move_on_key_greater_than_or_equal_to ⟨d, pos⟩ s =
          (.ok (some kd), ⟨d, .posAt j⟩) := by
        simp [RoCursor.move_on_key_greater_than_or_equal_to, mdb_cursor_get,
          EngineOps.opSetRange, hf, convGet]
      by_cases heq : kd.key = s
      · rw [if_pos heq] at h
        cases Option.some.inj h
        simp only [move_on_range_end, hrc, if_pos heq]
      · rw [if_neg heq] at h
        by_cases hj0 : j = 0
        · rw [if_pos hj0] at h
          cases h
        · rw [if_neg hj0] at h
          simp only [move_on_range_end, hrc, if_neg heq]
          simp [RoCursor.move_on_prev, mdb_cursor_get, EngineOps.opPrevNoDup,
            hj, hj0, h, convGet]
  | excluded s =>
    simp only [resolveEndSpec] at h
    cases hf : findFrom d.entries 0 (fun x => !(cmpB x.key s == .lt)) with
    | none =>
      simp only [hf] at h
      have hrc : RoCursor.move_on_key_greater_than_or_equal_to ⟨d, pos⟩ s =
          (.ok none, ⟨d, .eof⟩) := by
        simp [RoCursor.move_on_key_greater_than_or_equal_to, mdb_cursor_get,
          EngineOps.opSetRange, hf, convGet, MDB_NOTFOUND]
      simp only [move_on_range_end, hrc]
      simp [RoCursor.move_on_prev, mdb_cursor_get, EngineOps.opPrevNoDup,
        EngineOps.opLast, h, convGet]
    | some jkd =>
      obtain ⟨j, kd⟩ := jkd
      simp only [hf] at h
      obtain ⟨-, hj, -, -⟩ := findFrom_found hf
      have hrc : RoCursor.move_on_key_greater_than_or_equal_to ⟨d, pos⟩ s =
          (.ok (some kd), ⟨d, .posAt j⟩) := by
        simp [RoCursor.move_on_key_greater_than_or_equal_to, mdb_cursor_get,
          EngineOps.opSetRange, hf, convGet]
      by_cases hj0 : j = 0
      · rw [if_pos hj0] at h
        cases h
      · rw [if_neg hj0] at h
        simp only [move_on_range_end, hrc]
        simp [RoCursor.move_on_prev, mdb_cursor_get, EngineOps.opPrevNoDup,
          hj, hj0, h, convGet]

theorem resolveEnd_none {d : Db} {eb : RBound} (pos : CursorPos)
    (h : resolveEndSpec d.entries eb = none) :
    (move_on_range_end ⟨d, pos⟩ eb).1 = .ok none := by
  cases eb with
  | unbounded =>
    simp only [resolveEndSpec] at h
    simp [move_on_range_end, RoCursor.move_on_last, mdb_cursor_get,
      EngineOps.opLast, h, convGet, MDB_NOTFOUND]
  | included s =>
    simp only [resolveEndSpec] at h
    cases hf : findFrom d.entries 0 (fun x => !(cmpB x.key s == .lt)) with
    | none =>
      simp only [hf] at h
      have hrc : RoCursor.move_on_key_greater_than_or_equal_to ⟨d, pos⟩ s =
          (.ok none, ⟨d, .eof⟩) := by
        simp [RoCursor.move_on_key_greater_than_or_equal_to, mdb_cursor_get,
          EngineOps.opSetRange, hf, convGet, MDB_NOTFOUND]
      simp only [move_on_range_end, hrc]
      simp [RoCursor.move_on_prev, mdb_cursor_get, EngineOps.opPrevNoDup,
        EngineOps.opLast, h, convGet, MDB_NOTFOUND]
    | some jkd =>
      obtain ⟨j, kd⟩ := jkd
      simp only [hf] at h
      obtain ⟨-, hj, -, -⟩ := findFrom_found hf
      have hrc : RoCursor.move_on_key_greater_than_or_equal_to ⟨d, pos⟩ s =
          (.ok (some kd), ⟨d, .posAt j⟩) := by
        simp [RoCursor.move_on_key_greater_than_or_equal_to, mdb_cursor_get,
          EngineOps.opSetRange, hf, convGet]
      by_cases heq : kd.key = s
      · rw [if_pos heq] at h
        cases h
      · rw [if_neg heq] at h
        by_cases hj0 : j = 0
        · subst hj0
          simp only [move_on_range_end, hrc, if_neg heq]
          simp [RoCursor.move_on_prev, mdb_cursor_get, EngineOps.opPrevNoDup,
            hj, convGet, MDB_NOTFOUND]
        · rw [if_neg hj0] at h
          simp only [move_on_range_end, hrc, if_neg heq]
          simp [RoCursor.move_on_prev, mdb_cursor_get, EngineOps.opPrevNoDup,
            hj, hj0, h, convGet, MDB_NOTFOUND]
  | excluded s =>
    simp only [resolveEndSpec] at h
    cases hf : findFrom d.entries 0 (fun x => !(cmpB x.key s == .lt)) with
    | none =>
      simp only [hf] at h
      have hrc : RoCursor.move_on_key_greater_than_or_equal_to ⟨d, pos⟩ s =
          (.ok none, ⟨d, .eof⟩) := by
        simp [RoCursor.move_on_key_greater_than_or_equal_to, mdb_cursor_get,
          EngineOps.opSetRange, hf, convGet, MDB_NOTFOUND]
      simp only [move_on_range_end, hrc]
      simp [RoCursor.move_on_prev, mdb_cursor_get, EngineOps.opPrevNoDup,
        EngineOps.opLast, h, convGet, MDB_NOTFOUND]
    | some jkd =>
      obtain ⟨j, kd⟩ := jkd
      simp only [hf] at h
      obtain ⟨-, hj, -, -⟩ := findFrom_found hf
      have hrc : RoCursor.move_on_key_greater_than_or_equal_to ⟨d, pos⟩ s =
          (.ok (some kd), ⟨d, .posAt j⟩) := by
        simp [RoCursor.move_on_key_greater_than_or_equal_to, mdb_cursor_get,
          EngineOps.opSetRange, hf, convGet]
      by_cases hj0 : j = 0
      · subst hj0
        simp only [move_on_range_end, hrc]
        simp [RoCursor.move_on_prev, mdb_cursor_get, EngineOps.opPrevNoDup,
          hj, convGet, MDB_NOTFOUND]
      · rw [if_neg hj0] at h
        simp only [move_on_range_end, hrc]
        simp [RoCursor.move_on_prev, mdb_cursor_get, EngineOps.opPrevNoDup,
          hj, hj0, h, convGet, MDB_NOTFOUND]

/-- C6: on any collection state and from any cursor position, `move_on_range_start`
and `move_on_range_end` compute exactly the spec's resolution algorithm
(`resolveStartSpec`/`resolveEndSpec`): when the algorithm designates an entry
the cursor lands on it and returns it, and when it designates none the call
returns `Ok(None)`. -/
theorem claim_C6 (d : Db) (sb eb : RBound) (pos : CursorPos) :
    (∀ l e, resolveStartSpec d.entries sb = some (l, e) →
      move_on_range_start ⟨d, pos⟩ sb = (.ok (some e), ⟨d, .posAt l⟩)) ∧
    (resolveStartSpec d.entries sb = none →
      (move_on_range_start ⟨d, pos⟩ sb).1 = .ok none) ∧
    (∀ u e, resolveEndSpec d.entries eb = some (u, e) →
      move_on_range_end ⟨d, pos⟩ eb = (.ok (some e), ⟨d, .posAt u⟩)) ∧
    (resolveEndSpec d.entries eb = none →
      (move_on_range_end ⟨d, pos⟩ eb).1 = .ok none) :=
  ⟨fun _ _ h => resolveStart_some pos h, fun h => resolveStart_none pos h,
   fun _ _ h => resolveEnd_some pos h, fun h => resolveEnd_none pos h⟩

/-! ## Claim C7: the prefix successor/predecessor algebra -/

theorem advance_pfxRev_maxRun {b : Nat} (hb : b ≠ 255) (rest : List Nat) :
    ∀ n, advance_pfxRev (List.replicate n 255 ++ b :: rest) =
      some (List.replicate n 0 ++ (b + 1) :: rest) := by
  intro n
  induction n with
  | zero => simpa using advance_pfxRev_cons_nonmax hb
  | succ n ih =>
    rw [List.replicate_succ, List.cons_append, advance_pfxRev_cons_max, ih]
    simp [List.replicate_succ]

/-- `advance_prefix` in full generality: the last byte below the maximum is
incremented and every following (maximal) byte is reset to the minimum. -/
theorem advance_pfx_carry {q : Bytes} {b : Nat} (hb : b ≠ 255) (n : Nat) :
    advance_pfx (q ++ b :: List.replicate n 255) =
      (true, q ++ (b + 1) :: List.replicate n 0) := by
  unfold advance_pfx
  have h1 : (q ++ b :: List.replicate n 255).reverse =
      List.replicate n 255 ++ b :: q.reverse := by
    rw [List.reverse_append, List.reverse_cons, List.reverse_replicate,
      List.append_assoc]
    rfl
  rw [h1, advance_pfxRev_maxRun hb q.reverse n]
  have h2 : (List.replicate n 0 ++ (b + 1) :: q.reverse).reverse =
      q ++ (b + 1) :: List.replicate n 0 := by
    rw [List.reverse_append, List.reverse_cons, List.reverse_replicate,
      List.reverse_reverse, List.append_assoc]
    rfl
  dsimp only
  rw [h2]

/-- The stored prefix is unchanged by `last()`, on a fresh or started
iterator. -/
theorem pfxLast_pfx (s : RoPfx) (im : IterationMethod) : (RoPfx.last s im).2 = s.pfx := by
  obtain ⟨c, p, f⟩ := s
  show (RoPfx.last ⟨c, p, f⟩ im).2 = p
  cases f with
  | true =>
    have hres := pfx_end_restores c p
    have hlast : RoPfx.last ⟨c, p, true⟩ im =
        (match (move_on_pfx_end c p).1.1 with
         | .ok (some e) =>
           ((if ((move_on_pfx_end c p).2).isPrefixOf e.key then some (.ok e) else none),
             (move_on_pfx_end c p).2)
         | .ok none => (none, (move_on_pfx_end c p).2)
         | .error er => (some (.error er), (move_on_pfx_end c p).2)) := rfl
    rw [hlast]
    cases (move_on_pfx_end c p).1.1 with
    | ok o => cases o <;> simpa using hres
    | error er => simpa using hres
  | false =>
    cases hc1 : (RoCursor.current c).1 with
    | ok o1 =>
      cases o1 with
      | some ck =>
        cases hr1 : (move_on_pfx_end (RoCursor.current c).2 p).1.1 with
        | ok o2 =>
          cases o2 with
          | some e =>
            by_cases hck : ck.key = e.key
            · simp [RoPfx.last, hc1, hr1, hck, pfx_end_restores]
            · simp [RoPfx.last, hc1, hr1, hck, pfx_end_restores]
          | none => simp [RoPfx.last, hc1, hr1, pfx_end_restores]
        | error er => simp [RoPfx.last, hc1, hr1, pfx_end_restores]
      | none =>
        cases hr1 : (move_on_pfx_end (RoCursor.current c).2 p).1.1 with
        | ok o2 => simp [RoPfx.last, hc1, hr1, pfx_end_restores]
        | error er => simp [RoPfx.last, hc1, hr1, pfx_end_restores]
    | error er =>
      cases hr1 : (move_on_pfx_end (RoCursor.current c).2 p).1.1 with
      | ok o2 => simp [RoPfx.last, hc1, hr1, pfx_end_restores]
      | error er2 => simp [RoPfx.last, hc1, hr1, pfx_end_restores]

/-- C7: the prefix end computation's in-place successor increments the last
non-maximal byte and zeroes the bytes after it; whenever the successor exists
the symmetric predecessor restores the exact original bytes, and the stored
prefix is unchanged across `move_on_prefix_end` and across `last()`; the
successor fails exactly when every byte is already maximal (the empty prefix
included), in which case the end used is the last entry of the whole
collection. -/
theorem claim_C7 (c : RoCursor) (p q : Bytes) (b n : Nat) (s : RoPfx)
    (im : IterationMethod) :
    ((advance_pfx p).1 = true → (retreat_pfx (advance_pfx p).2).2 = p) ∧
    (move_on_pfx_end c p).2 = p ∧
    (RoPfx.last s im).2 = s.pfx ∧
    (b ≠ 255 → advance_pfx (q ++ b :: List.replicate n 255) =
      (true, q ++ (b + 1) :: List.replicate n 0)) ∧
    ((advance_pfx p).1 = false ↔ ∀ x ∈ p, x = 255) ∧
    ((advance_pfx p).1 = false →
      move_on_pfx_end c p = (c.move_on_last .NoDup, p)) := by
  refine ⟨?_, pfx_end_restores c p, pfxLast_pfx s im, ?_, advance_pfx_false_iff, ?_⟩
  · intro h
    rw [advance_retreat_roundtrip h]
  · intro hb
    exact advance_pfx_carry hb n
  · intro h
    exact pfx_end_advance_false h

/-! ## The transaction layer (`src/heed/src/txn.rs`)

Native pointers (`NonNull<MDB_txn>`, `NonNull<MDB_env>`) become opaque numeric
handles; pointer equality becomes equality of handles. -/

/-- `RoTxnInner`: the live handle (`None` once consumed) and the environment. -/
structure RoTxnInner where
  txn : Option Nat
  env : Nat
deriving DecidableEq

/-- `RwTxn` wraps a read transaction (its inner state). -/
structure RwTxn where
  txn : RoTxnInner
deriving DecidableEq

/-- A release of the native handle by the engine. -/
inductive TxnEvent
  | committed (h : Nat)
  | aborted (h : Nat)
deriving DecidableEq

/-- `RwTxn::commit`: `take()` the handle (`none` models the unwrap panic on a
consumed transaction) and commit it. -/
def RwTxn.commit (t : RwTxn) : Option (RwTxn × TxnEvent) :=
  match t.txn.txn with
  | some h => some (⟨⟨none, t.txn.env⟩⟩, .committed h)
  | none => none

/-- `RwTxn::abort`: `take()` the handle and abort it. -/
def RwTxn.abort (t : RwTxn) : Option (RwTxn × TxnEvent) :=
  match t.txn.txn with
  | some h => some (⟨⟨none, t.txn.env⟩⟩, .aborted h)
  | none => none

/-- `impl Drop for RoTxn`: abort the handle only when it is still attached;
returns the releases the drop performs. -/
def RoTxn.drop (t : RoTxnInner) : List TxnEvent :=
  match t.txn with
  | some h => [.aborted h]
  | none => []

/-- The read half of a split `RwTxn`. -/
structure ReadHalf where
  txn : Nat
  env : Nat
deriving DecidableEq

/-- The write half of a split `RwTxn`. -/
structure WriteHalf where
  txn : Nat
  env : Nat
deriving DecidableEq

/-- `RwTxn::split`: both halves receive the parent's unwrapped transaction
pointer and environment pointer (`none` models the unwrap panic). -/
def RwTxn.split (t : RwTxn) : Option (ReadHalf × WriteHalf) :=
  match t.txn.txn with
  | some h => some (⟨h, t.txn.env⟩, ⟨h, t.txn.env⟩)
  | none => none

def ReadHalf.txn_ptr (r : ReadHalf) : Nat := r.txn

def ReadHalf.env_mut_ptr (r : ReadHalf) : Nat := r.env

def WriteHalf.txn_ptr (w : WriteHalf) : Nat := w.txn

def WriteHalf.env_mut_ptr (w : WriteHalf) : Nat := w.env

/-- `impl ReadTxn for RwTxn`: `txn_ptr` unwraps the inner handle. -/
def RwTxn.txn_ptr (t : RwTxn) : Option Nat := t.txn.txn

def RwTxn.env_mut_ptr (t : RwTxn) : Nat := t.txn.env

/-! ## Claim C9: a handle is consumed exactly once -/

/-- C9: `commit` and `abort` each consume the transaction — they detach the
handle and release it exactly once (commit/abort event); dropping a transaction
never committed or aborted releases (aborts) the handle implicitly; after a
commit or abort the transaction is inert: dropping it releases nothing and
another commit/abort is the unwrap panic (`none`). -/
theorem claim_C9 (h env : Nat) :
    RwTxn.commit ⟨⟨some h, env⟩⟩ = some (⟨⟨none, env⟩⟩, .committed h) ∧
    RwTxn.abort ⟨⟨some h, env⟩⟩ = some (⟨⟨none, env⟩⟩, .aborted h) ∧
    RoTxn.drop ⟨some h, env⟩ = [.aborted h] ∧
    RoTxn.drop ⟨none, env⟩ = [] ∧
    RwTxn.commit ⟨⟨none, env⟩⟩ = none ∧
    RwTxn.abort ⟨⟨none, env⟩⟩ = none ∧
    (∀ (t t2 : RwTxn) (ev : TxnEvent), RwTxn.commit t = some (t2, ev) →
      t2.txn.txn = none ∧ RoTxn.drop t2.txn = []) ∧
    (∀ (t t2 : RwTxn) (ev : TxnEvent), RwTxn.abort t = some (t2, ev) →
      t2.txn.txn = none ∧ RoTxn.drop t2.txn = []) := by
  refine ⟨rfl, rfl, rfl, rfl, rfl, rfl, ?_, ?_⟩
  · intro t t2 ev hc
    cases ht : t.txn.txn with
    | some h2 =>
      unfold RwTxn.commit at hc
      rw [ht] at hc
      cases Option.some.inj hc
      exact ⟨rfl, rfl⟩
    | none =>
      unfold RwTxn.commit at hc
      rw [ht] at hc
      cases hc
  · intro t t2 ev hc
    cases ht : t.txn.txn with
    | some h2 =>
      unfold RwTxn.abort at hc
      rw [ht] at hc
      cases Option.some.inj hc
      exact ⟨rfl, rfl⟩
    | none =>
      unfold RwTxn.abort at hc
      rw [ht] at hc
      cases hc

/-! ## Claim C10: the split halves alias the parent's native handles -/

/-- C10: whenever `split()` succeeds, the returned read half and write half
carry transaction and environment pointers equal to each other and to the
parent read-write transaction's own pointers — all three views address the
identical native transaction handle. -/
theorem claim_C10 (t : RwTxn) (r : ReadHalf) (w : WriteHalf)
    (hs : RwTxn.split t = some (r, w)) :
    r.txn_ptr = w.txn_ptr ∧
    RwTxn.txn_ptr t = some r.txn_ptr ∧
    r.env_mut_ptr = w.env_mut_ptr ∧
    RwTxn.env_mut_ptr t = r.env_mut_ptr := by
  cases ht : t.txn.txn with
  | some h2 =>
    unfold RwTxn.split at hs
    rw [ht] at hs
    cases Option.some.inj hs
    exact ⟨rfl, ht, rfl, rfl⟩
  | none =>
    unfold RwTxn.split at hs
    rw [ht] at hs
    cases hs

/-- C10 witness: the pointer equalities at a concrete split transaction. -/
theorem claim_C10_witness :
    RwTxn.split ⟨⟨some 41, 99⟩⟩ = some (⟨41, 99⟩, ⟨41, 99⟩) ∧
    ((⟨41, 99⟩ : ReadHalf).txn_ptr = (⟨41, 99⟩ : WriteHalf).txn_ptr ∧
    RwTxn.txn_ptr ⟨⟨some 41, 99⟩⟩ = some (⟨41, 99⟩ : ReadHalf).txn_ptr ∧
    (⟨41, 99⟩ : ReadHalf).env_mut_ptr = (⟨41, 99⟩ : WriteHalf).env_mut_ptr ∧
    RwTxn.env_mut_ptr ⟨⟨some 41, 99⟩⟩ = (⟨41, 99⟩ : ReadHalf).env_mut_ptr) :=
  ⟨rfl, claim_C10 ⟨⟨some 41, 99⟩⟩ ⟨41, 99⟩ ⟨41, 99⟩ rfl⟩

/-! ## Claim C8: the split-transaction cross-collection copy -/

/-- Modelled from the spec: `Database::put` is not under `src/`; the spec's
storage model (one collection = entries in comparator order, a plain put
overwriting the value of an existing key) gives the sorted insert. -/
def putEntries (es : List Entry) (k v : Bytes) : List Entry :=
  match es with
  | [] => [⟨k, v⟩]
  | e :: rest =>
    match cmpB k e.key with
    | .lt => ⟨k, v⟩ :: e :: rest
    | .eq => ⟨k, v⟩ :: rest
    | .gt => e :: putEntries rest k v

def Db.put (d : Db) (k v : Bytes) : Db := ⟨putEntries d.entries k v⟩

/-- Modelled from the spec: `Database::get` is not under `src/`; lookup of the
value stored under a key. -/
def Db.get (d : Db) (k : Bytes) : Option Bytes :=
  (d.entries.find? (fun e => decide (e.key = k))).map Entry.value

/-- The copy loop of the split-transaction scenario: drain the source
collection's iterator through the read half and `put` every yielded entry into
the destination collection through the write half (an error would abort the
loop, as the test's `unwrap` would). -/
def crossCopy (im : IterationMethod) : Nat → RoIter → Db → Db
  | 0, _, b => b
  | fuel + 1, it, b =>
    match RoIter.next it im with
    | (none, _) => b
    | (some (.ok e), it') => crossCopy im fuel it' (b.put e.key e.value)
    | (some (.error _), _) => b

theorem putEntries_append {es : List Entry} {k v : Bytes}
    (hall : ∀ e ∈ es, bLt e.key k) : putEntries es k v = es ++ [⟨k, v⟩] := by
  induction es with
  | nil => rfl
  | cons a rest ih =>
    have hgt : cmpB k a.key = .gt := cmpB_gt_iff.mpr (hall a (List.mem_cons_self a rest))
    simp only [putEntries, hgt]
    rw [ih (fun e he => hall e (List.mem_cons_of_mem a he))]
    rfl

theorem find?_self_of_pairwise :
    ∀ (es : List Entry), es.Pairwise (fun a b => bLt a.key b.key) →
    ∀ e ∈ es, es.find? (fun x => decide (x.key = e.key)) = some e := by
  intro es
  induction es with
  | nil =>
    intro _ e he
    cases he
  | cons a rest ih =>
    intro hp e he
    rcases List.mem_cons.mp he with rfl | he2
    · simp [List.find?_cons]
    · have hlt : bLt a.key e.key := (List.pairwise_cons.mp hp).1 e he2
      have hna : (decide (a.key = e.key)) = false := by
        simp only [decide_eq_false_iff_not]
        exact bLt_ne hlt
      rw [List.find?_cons, hna]
      exact ih (List.pairwise_cons.mp hp).2 e he2

theorem get_self {d : Db} (hnd : d.NoDupKeys) :
    ∀ e ∈ d.entries, d.get e.key = some e.value := by
  intro e he
  unfold Db.get
  rw [find?_self_of_pairwise d.entries (Db.noDupKeys_pairwise hnd) e he]
  rfl

theorem crossCopy_started {dA : Db} (hnd : dA.NoDupKeys) (im : IterationMethod) :
    ∀ fuel i cur, dA.entries[i]? = some cur → dA.entries.length - i ≤ fuel →
    ∀ b : Db,
    (∀ e' ∈ b.entries, ∀ j e2, i < j → dA.entries[j]? = some e2 → bLt e'.key e2.key) →
    crossCopy im fuel ⟨⟨dA, .posAt i⟩, false⟩ b = ⟨b.entries ++ dA.entries.drop (i + 1)⟩ := by
  intro fuel
  induction fuel with
  | zero =>
    intro i cur hi hfuel
    have := len_pos_of_getElem? hi
    omega
  | succ fuel ih =>
    intro i cur hi hfuel b hb
    cases hnext : dA.entries[i + 1]? with
    | some e =>
      have hstep := move_on_next_at_some hnd hi hnext (im_move_ne_dup im)
      have hnexteq : RoIter.next ⟨⟨dA, .posAt i⟩, false⟩ im =
          (some (.ok e), ⟨⟨dA, .posAt (i + 1)⟩, false⟩) := by
        simp only [RoIter.next, if_false, Bool.false_eq_true, ite_false, hstep]
      have hput : Db.put b e.key e.value = ⟨b.entries ++ [e]⟩ := by
        unfold Db.put
        rw [putEntries_append (fun e' he' => hb e' he' (i + 1) e (Nat.lt_succ_self i) hnext)]
      rw [show crossCopy im (fuel + 1) ⟨⟨dA, .posAt i⟩, false⟩ b =
          crossCopy im fuel ⟨⟨dA, .posAt (i + 1)⟩, false⟩ (b.put e.key e.value) from by
        simp only [crossCopy, hnexteq]]
      rw [hput]
      rw [ih (i + 1) e hnext (by omega) ⟨b.entries ++ [e]⟩ (fun e' he' j e2 hj hje2 => by
        rcases List.mem_append.mp he' with h1 | h1
        · exact hb e' h1 j e2 (by omega) hje2
        · rw [List.mem_singleton.mp h1]
          exact nodup_lt_of_getElem? hnd hnext hje2 (by omega))]
      have hl2 : i + 1 < dA.entries.length := len_pos_of_getElem? hnext
      have hdrop : dA.entries.drop (i + 1) = e :: dA.entries.drop (i + 2) := by
        rw [List.drop_eq_getElem_cons hl2, getElem_of_getElem? hnext hl2]
      rw [hdrop]
      simp [List.append_assoc]
    | none =>
      have hstep := move_on_next_at_end hi hnext (im_move_ne_dup im)
      have hnexteq : RoIter.next ⟨⟨dA, .posAt i⟩, false⟩ im =
          (none, ⟨⟨dA, .posAt i⟩, false⟩) := by
        simp only [RoIter.next, if_false, Bool.false_eq_true, ite_false, hstep]
      rw [show crossCopy im (fuel + 1) ⟨⟨dA, .posAt i⟩, false⟩ b = b from by
        simp only [crossCopy, hnexteq]]
      have hlen : dA.entries.length ≤ i + 1 := by
        by_contra hc
        push_neg at hc
        rw [List.getElem?_eq_getElem hc] at hnext
        cases hnext
      rw [List.drop_eq_nil_of_le hlen]
      simp

theorem crossCopy_fresh {dA : Db} (hnd : dA.NoDupKeys) (im : IterationMethod) :
    crossCopy im (fullFuel dA) (RoIter.fresh dA) ⟨[]⟩ = ⟨dA.entries⟩ := by
  cases h0 : dA.entries[0]? with
  | none =>
    have hnil : dA.entries = [] := by
      cases hes : dA.entries with
      | nil => rfl
      | cons a t =>
        rw [hes] at h0
        simp at h0
    have hstep := move_on_first_empty (d := dA) CursorPos.unset h0 (im_move_ne_dup im)
    have hnexteq : RoIter.next (RoIter.fresh dA) im = (none, ⟨⟨dA, .unset⟩, false⟩) := by
      simp only [RoIter.next, RoIter.fresh, freshCursor, if_true, hstep]
    rw [show crossCopy im (fullFuel dA) (RoIter.fresh dA) ⟨[]⟩ = ⟨[]⟩ from by
      unfold fullFuel
      simp only [crossCopy, hnexteq]]
    rw [hnil]
  | some e0 =>
    have hstep := move_on_first_entry (d := dA) CursorPos.unset h0 (im_move_ne_dup im)
    have hnexteq : RoIter.next (RoIter.fresh dA) im =
        (some (.ok e0), ⟨⟨dA, .posAt 0⟩, false⟩) := by
      simp only [RoIter.next, RoIter.fresh, freshCursor, if_true, hstep]
    have hput : Db.put ⟨[]⟩ e0.key e0.value = ⟨[e0]⟩ := rfl
    rw [show crossCopy im (fullFuel dA) (RoIter.fresh dA) ⟨[]⟩ =
        crossCopy im dA.entries.length ⟨⟨dA, .posAt 0⟩, false⟩
          (Db.put ⟨[]⟩ e0.key e0.value) from by
      unfold fullFuel
      simp only [crossCopy, hnexteq]]
    rw [hput]
    rw [crossCopy_started hnd im dA.entries.length 0 e0 h0 (by omega) ⟨[e0]⟩
      (fun e' he' j e2 hj hje2 => by
        rw [List.mem_singleton.mp he']
        exact nodup_lt_of_getElem? hnd h0 hje2 hj)]
    have h0l : 0 < dA.entries.length := len_pos_of_getElem? h0
    have hdrop : dA.entries.drop 0 = e0 :: dA.entries.drop 1 := by
      rw [List.drop_eq_getElem_cons h0l, getElem_of_getElem? h0 h0l]
    have : dA.entries = e0 :: dA.entries.drop 1 := by
      rw [show dA.entries = dA.entries.drop 0 from rfl] at hdrop ⊢
      exact hdrop
    rw [this]
    rfl

/-- C8: within one transaction split into a read half and a write half, draining
the source collection A through the read half and putting every yielded entry
into the empty destination collection B yields a B holding exactly A's entries:
the same number of entries, and under each key of A the copied value equals its
source value. (`Database::put`/`get` are modelled from the spec.) -/
theorem claim_C8 {dA : Db} (hnd : dA.NoDupKeys) (im : IterationMethod) :
    crossCopy im (fullFuel dA) (RoIter.fresh dA) ⟨[]⟩ = ⟨dA.entries⟩ ∧
    (crossCopy im (fullFuel dA) (RoIter.fresh dA) ⟨[]⟩).entries.length =
      dA.entries.length ∧
    ∀ e ∈ dA.entries,
      (crossCopy im (fullFuel dA) (RoIter.fresh dA) ⟨[]⟩).get e.key = some e.value := by
  refine ⟨crossCopy_fresh hnd im, ?_, ?_⟩
  · rw [crossCopy_fresh hnd im]
  · intro e he
    rw [crossCopy_fresh hnd im]
    exact get_self hnd e he

/-- C8 witness: the copy applied to a concrete three-entry source collection. -/
theorem claim_C8_witness :
    (⟨[⟨[1], [10]⟩, ⟨[2], [20]⟩, ⟨[3], [30]⟩]⟩ : Db).NoDupKeys ∧
    (crossCopy .moveBetweenKeys (fullFuel ⟨[⟨[1], [10]⟩, ⟨[2], [20]⟩, ⟨[3], [30]⟩]⟩)
        (RoIter.fresh ⟨[⟨[1], [10]⟩, ⟨[2], [20]⟩, ⟨[3], [30]⟩]⟩) ⟨[]⟩ =
      ⟨[⟨[1], [10]⟩, ⟨[2], [20]⟩, ⟨[3], [30]⟩]⟩ ∧
    (crossCopy .moveBetweenKeys (fullFuel ⟨[⟨[1], [10]⟩, ⟨[2], [20]⟩, ⟨[3], [30]⟩]⟩)
        (RoIter.fresh ⟨[⟨[1], [10]⟩, ⟨[2], [20]⟩, ⟨[3], [30]⟩]⟩)
        ⟨[]⟩).entries.length =
      (⟨[⟨[1], [10]⟩, ⟨[2], [20]⟩, ⟨[3], [30]⟩]⟩ : Db).entries.length ∧
    ∀ e ∈ (⟨[⟨[1], [10]⟩, ⟨[2], [20]⟩, ⟨[3], [30]⟩]⟩ : Db).entries,
      (crossCopy .moveBetweenKeys (fullFuel ⟨[⟨[1], [10]⟩, ⟨[2], [20]⟩, ⟨[3], [30]⟩]⟩)
        (RoIter.fresh ⟨[⟨[1], [10]⟩, ⟨[2], [20]⟩, ⟨[3], [30]⟩]⟩) ⟨[]⟩).get e.key =
        some e.value) := by
  refine ⟨?_, claim_C8 ?_ .moveBetweenKeys⟩ <;>
    (unfold Db.NoDupKeys
     simp only [List.chain'_cons, List.chain'_singleton]
     decide)

/-! ## Claim C2 -/

/-- C2 (amended): on a duplicate-free collection, the reverse iterators
(`RoRevIter`, `RoRevRange`) produce exactly the reverse of the corresponding
forward iterators' sequence, in either duplicate-handling mode and for every
combination of start/end bounds (none, start-only, end-only, both — `sb`/`eb`
range over all of them). On collections with duplicate keys the claim fails:
see the counterexample. -/
theorem claim_C2 {d : Db} (hnd : d.NoDupKeys) (im : IterationMethod)
    (sb eb : RBound) :
    RoRevIter.drain im (fullFuel d) (RoRevIter.fresh d) =
      (RoIter.drain im (fullFuel d) (RoIter.fresh d)).reverse ∧
    RoRevRange.drain im (fullFuel d) (RoRevRange.fresh d sb eb) =
      (RoRange.drain im (fullFuel d) (RoRange.fresh d sb eb)).reverse :=
  ⟨revIter_eq_reverse hnd im, revRange_eq_reverse hnd im sb eb⟩

/-- C2 counterexample: on a collection with a duplicated key (keys `[1]`,
`[2]`, `[2]`) in the between-keys mode, forward iteration visits the FIRST
entry of each key while reverse iteration visits the LAST, so the reverse
sequence is not the reverse of the forward one. -/
theorem claim_C2_counterexample :
    RoRevIter.drain .moveBetweenKeys
        (fullFuel ⟨[⟨[1], [10]⟩, ⟨[2], [20]⟩, ⟨[2], [21]⟩]⟩)
        (RoRevIter.fresh ⟨[⟨[1], [10]⟩, ⟨[2], [20]⟩, ⟨[2], [21]⟩]⟩) ≠
      (RoIter.drain .moveBetweenKeys
        (fullFuel ⟨[⟨[1], [10]⟩, ⟨[2], [20]⟩, ⟨[2], [21]⟩]⟩)
        (RoIter.fresh ⟨[⟨[1], [10]⟩, ⟨[2], [20]⟩, ⟨[2], [21]⟩]⟩)).reverse := by
  decide

/-- The concrete duplicate-free collection the C2 witness instantiates. -/
def dbC2 : Db := ⟨[⟨[1], [10]⟩, ⟨[2], [20]⟩, ⟨[3], [30]⟩]⟩

/-- C2 witness: the amended theorem applied to a concrete duplicate-free
collection with both bounds present. -/
theorem claim_C2_witness :
    dbC2.NoDupKeys ∧
    (RoRevIter.drain .moveThroughDuplicateValues (fullFuel dbC2)
        (RoRevIter.fresh dbC2) =
      (RoIter.drain .moveThroughDuplicateValues (fullFuel dbC2)
        (RoIter.fresh dbC2)).reverse ∧
    RoRevRange.drain .moveThroughDuplicateValues (fullFuel dbC2)
        (RoRevRange.fresh dbC2 (.included [1]) (.excluded [3])) =
      (RoRange.drain .moveThroughDuplicateValues (fullFuel dbC2)
        (RoRange.fresh dbC2 (.included [1]) (.excluded [3]))).reverse) := by
  refine ⟨?_, claim_C2 ?_ .moveThroughDuplicateValues (.included [1]) (.excluded [3])⟩ <;>
    (unfold dbC2 Db.NoDupKeys
     simp only [List.chain'_cons, List.chain'_singleton]
     decide)

end Heed
